import Mathlib

/-!
# mind-os: a verification development

Shallow embedding of the cognitive-affective pipeline of `mind-os`
(packages `models`, `pfc`, `basal`, `hippocampus`, `store`, `core`,
`hypothalamus`, `thalamus`, `amygdala`, `cortex`) and machine-checked statements
about it.

Conventions of the embedding:

* Go `int` is `Int`; a Go `float64` value is a rational of `ℚ`; the conversion
  `int(x)` of a float is truncation toward zero (`truncQ`). Where a method adds
  an arbitrary caller-supplied `int` (the mutators of the self-control value),
  the sum wraps as on 64-bit integers (`wrapInt`), and `/` on `int` is `Int.tdiv`.
* Arithmetic on `float64` comes in two forms. Where an integer result or a strict
  order depends on the rounding of the machine (`BlendEmotions`,
  `processPhysicalSignal`, `BasalGanglia.ApplyDecay`, `ArbitrateF64`), every
  conversion, decimal constant and operation is rounded to the nearest float64
  by `f64` (IEEE 754 binary64, ties to even, one rounding per operation and no
  fused multiply-add, as the Go compiler emits it for amd64; overflow to
  infinity is not modelled). The other methods compute over the exact
  rationals, decimal literals such as `0.5` being the rationals `1/2`;
  `Arbitrate` is the exact form of `ArbitrateF64`.
* `time.Time` is an `Int` time stamp.
* The global random source is a stream `Nat → ℚ` of the successive results of
  `rand.Float64()`, consumed in call order.
* The SQLite store is a table of rows keyed by `uuid` together with a fault
  schedule telling which statements fail.
* The hormone clock counts nanoseconds; elapsed hours are the exact quotient.
* Go strings are Unicode strings, `len` is the UTF-8 byte length, and the
  lower-case mapping of single characters is a parameter of the text functions.
* A Go map with a few dynamic keys is a finite map (`AList`); its iteration
  order is a parameter. The morphological analyser is a function from texts to
  token lists.
* A slice passed by pointer, or copied before it is written, is a list value
  passed in and returned.
-/

namespace MindOS

/-! ## Definitions -/

/-! ### models/types.go -/

/-- The Go type `EmotionCode` is a string type. -/
abbrev EmotionCode := String

abbrev EmotionJoy : EmotionCode := "J"
abbrev EmotionSurprise : EmotionCode := "S"
abbrev EmotionAnger : EmotionCode := "A"
abbrev EmotionFear : EmotionCode := "F"
abbrev EmotionLove : EmotionCode := "L"
abbrev EmotionDisgust : EmotionCode := "D"
abbrev EmotionHope : EmotionCode := "H"
abbrev EmotionGrief : EmotionCode := "G"
abbrev EmotionSadness : EmotionCode := "G"
abbrev EmotionNeutral : EmotionCode := "N"

/-- The struct `EmotionValue`: an emotion code with its intensity. -/
structure EmotionValue where
  Code : EmotionCode
  Value : Int
deriving DecidableEq, Repr

/-- Go conversion `int(x)` of a floating point value: truncation toward zero. -/
def truncQ (q : ℚ) : Int := if 0 ≤ q then ⌊q⌋ else ⌈q⌉

/-! ### float64 arithmetic -/

/-- Rounding of a rational to the nearest integer, a tie going to the even one. -/
def roundHalfEven (q : ℚ) : Int :=
  if q - ⌊q⌋ < 1 / 2 then ⌊q⌋
  else if 1 / 2 < q - ⌊q⌋ then ⌊q⌋ + 1
  else if ⌊q⌋ % 2 = 0 then ⌊q⌋ else ⌊q⌋ + 1

/-- The spacing of the float64 values at the magnitude of `a > 0`: `2 ^ (e - 52)` where
`2 ^ e ≤ a < 2 ^ (e + 1)`, and `2 ^ (-1074)` below `2 ^ (-1022)`. -/
def ulp (a : ℚ) : ℚ := (2 : ℚ) ^ (max (Int.log 2 a) (-1022) - 52)

/-- The float64 result of an operation whose exact result is `q`: the nearest float64
value, a tie going to the even mantissa (IEEE 754 binary64, round to nearest even).
Results beyond the largest finite float64 are not modelled. -/
def f64 (q : ℚ) : ℚ :=
  if q < 0 then -((roundHalfEven (-q / ulp (-q)) : ℚ) * ulp (-q))
  else (roundHalfEven (q / ulp q) : ℚ) * ulp q

/-! ### pfc/controller.go -/

/-- The struct `PrefrontalCortex` (the mutex is not modelled). -/
structure PrefrontalCortex where
  Sanity : Int
  minSanity : Int
  maxSanity : Int
  decayRate : ℚ
deriving DecidableEq, Repr

/-- The constructor `pfc.New`. -/
def PrefrontalCortex.New : PrefrontalCortex :=
  { Sanity := 80, minSanity := 0, maxSanity := 100, decayRate := 98 / 100 }

/-- First `case` of the switch in `Arbitrate`: Anger, Fear, Disgust, Grief. -/
def isNegativeCode (c : EmotionCode) : Bool :=
  c == EmotionAnger || c == EmotionFear || c == EmotionDisgust || c == EmotionGrief

/-- Second `case` of the switch in `Arbitrate`: Joy, Love, Hope. -/
def isPositiveCode (c : EmotionCode) : Bool :=
  c == EmotionJoy || c == EmotionLove || c == EmotionHope

/-- Body of the `for i, emotion := range arbitrated` loop of `Arbitrate` for one
entry. The argument `r` is what `rand.Float64()` returns if it is called; the
second component tells whether it was called. -/
def arbitrateStep (suppressionRate cortisol oxytocin r : ℚ) (emotion : EmotionValue) :
    EmotionValue × Bool :=
  if isNegativeCode emotion.Code then
    let currentValue : ℚ := emotion.Value
    let currentValue :=
      if cortisol > 50 then currentValue * (1 + (cortisol - 50) / 100) else currentValue
    let drawn : Bool := emotion.Code == EmotionAnger && decide (oxytocin > 50)
    let converted : Bool := drawn && decide (r < (oxytocin - 50) / 100)
    let code := if converted then EmotionGrief else emotion.Code
    let currentValue := if converted then currentValue * (9 / 10) else currentValue
    let reduction := currentValue * suppressionRate * (1 / 2)
    let newValue := truncQ (currentValue - reduction)
    let newValue := if newValue < 0 then 0 else newValue
    let newValue := if newValue > 100 then 100 else newValue
    (⟨code, newValue⟩, drawn)
  else if isPositiveCode emotion.Code then
    let boost := (emotion.Value : ℚ) * suppressionRate * (1 / 10)
    let newValue := emotion.Value + truncQ boost
    let newValue := if newValue > 100 then 100 else newValue
    (⟨emotion.Code, newValue⟩, false)
  else
    (emotion, false)

/-- The loop of `Arbitrate`: `k` counts the random draws consumed so far. -/
def arbitrateLoop (suppressionRate cortisol oxytocin : ℚ) (rnd : Nat → ℚ) :
    Nat → List EmotionValue → List EmotionValue
  | _, [] => []
  | k, emotion :: rest =>
    let res := arbitrateStep suppressionRate cortisol oxytocin (rnd k) emotion
    res.1 :: arbitrateLoop suppressionRate cortisol oxytocin rnd (if res.2 then k + 1 else k) rest

/-- The method `PrefrontalCortex.Arbitrate`. -/
def PrefrontalCortex.Arbitrate (pfc : PrefrontalCortex) (raw : List EmotionValue)
    (cortisol oxytocin : ℚ) (rnd : Nat → ℚ) : List EmotionValue :=
  if pfc.Sanity < 30 then raw
  else
    let suppressionRate : ℚ := (pfc.Sanity : ℚ) / 100
    let suppressionRate :=
      if cortisol > 50 then suppressionRate * (1 - (cortisol - 50) / 100) else suppressionRate
    arbitrateLoop suppressionRate cortisol oxytocin rnd 0 raw

/-- Body of the loop of `Arbitrate` in the float64 arithmetic of the source: every
conversion `float64(x)`, every decimal constant and every arithmetic operation is
rounded by `f64`, in the order in which the source evaluates them. Arguments and
components are those of `arbitrateStep`. -/
def arbitrateStepF64 (suppressionRate cortisol oxytocin r : ℚ) (emotion : EmotionValue) :
    EmotionValue × Bool :=
  if isNegativeCode emotion.Code then
    let currentValue : ℚ := f64 (emotion.Value : ℚ)
    let currentValue :=
      if cortisol > 50 then
        let boost := f64 (1 + f64 (f64 (cortisol - 50) / 100))
        f64 (currentValue * boost)
      else currentValue
    let drawn : Bool := emotion.Code == EmotionAnger && decide (oxytocin > 50)
    let converted : Bool := drawn && decide (r < f64 (f64 (oxytocin - 50) / 100))
    let code := if converted then EmotionGrief else emotion.Code
    let currentValue :=
      if converted then f64 (currentValue * f64 (9 / 10)) else currentValue
    let reduction := f64 (f64 (currentValue * suppressionRate) * (1 / 2))
    let newValue := truncQ (f64 (currentValue - reduction))
    let newValue := if newValue < 0 then 0 else newValue
    let newValue := if newValue > 100 then 100 else newValue
    (⟨code, newValue⟩, drawn)
  else if isPositiveCode emotion.Code then
    let boost := f64 (f64 (f64 (emotion.Value : ℚ) * suppressionRate) * f64 (1 / 10))
    let newValue := emotion.Value + truncQ boost
    let newValue := if newValue > 100 then 100 else newValue
    (⟨emotion.Code, newValue⟩, false)
  else
    (emotion, false)

/-- The loop of `Arbitrate` in float64 arithmetic: `k` counts the random draws
consumed so far. -/
def arbitrateLoopF64 (suppressionRate cortisol oxytocin : ℚ) (rnd : Nat → ℚ) :
    Nat → List EmotionValue → List EmotionValue
  | _, [] => []
  | k, emotion :: rest =>
    let res := arbitrateStepF64 suppressionRate cortisol oxytocin (rnd k) emotion
    res.1 ::
      arbitrateLoopF64 suppressionRate cortisol oxytocin rnd (if res.2 then k + 1 else k) rest

/-- The method `PrefrontalCortex.Arbitrate` in the float64 arithmetic of the source. -/
def PrefrontalCortex.ArbitrateF64 (pfc : PrefrontalCortex) (raw : List EmotionValue)
    (cortisol oxytocin : ℚ) (rnd : Nat → ℚ) : List EmotionValue :=
  if pfc.Sanity < 30 then raw
  else
    let suppressionRate : ℚ := f64 (f64 (pfc.Sanity : ℚ) / 100)
    let suppressionRate :=
      if cortisol > 50 then
        let weakeningFactor := f64 (1 - f64 (f64 (cortisol - 50) / 100))
        f64 (suppressionRate * weakeningFactor)
      else suppressionRate
    arbitrateLoopF64 suppressionRate cortisol oxytocin rnd 0 raw

/-- Every intensity of the vector lies in `[0,100]`. -/
def InRange (v : List EmotionValue) : Prop := ∀ e ∈ v, 0 ≤ e.Value ∧ e.Value ≤ 100

/-- Every emotion code occurs at most once in the vector. -/
def UniqueCodes (v : List EmotionValue) : Prop := (v.map EmotionValue.Code).Nodup

instance (v : List EmotionValue) : Decidable (InRange v) := by
  unfold InRange; infer_instance

instance (v : List EmotionValue) : Decidable (UniqueCodes v) := by
  unfold UniqueCodes; infer_instance

/-- Relation between an input entry and the entry the loop of `Arbitrate` writes in
its place: the code is kept, or Anger became Grief under affiliation above 50. -/
def Recoded (oxytocin : ℚ) (e e' : EmotionValue) : Prop :=
  e'.Code = e.Code ∨ (e.Code = EmotionAnger ∧ e'.Code = EmotionGrief ∧ 50 < oxytocin)

/-- The property C2 states of an input vector and the arbitrated vector: at every
position a negative-category entry got strictly smaller and a positive-category entry
strictly larger. -/
def StrictlyModulated (raw out : List EmotionValue) : Prop :=
  ∀ (i : Nat) (e : EmotionValue), raw[i]? = some e →
    ∃ e', out[i]? = some e' ∧
      (isNegativeCode e.Code = true → e'.Value < e.Value) ∧
      (isPositiveCode e.Code = true → e.Value < e'.Value)

/-! ### basal/ganglia.go -/

/-- The struct `BasalGanglia` (the mutex is not modelled). -/
structure BasalGanglia where
  Motivation : ℚ
  PredictedReward : ℚ
  decayRate : ℚ
  minMotivation : ℚ
  maxMotivation : ℚ
deriving DecidableEq, Repr

/-- The constructor `basal.New`; the decay rate is the float64 constant `0.95`. -/
def BasalGanglia.New : BasalGanglia :=
  { Motivation := 50, PredictedReward := 50, decayRate := f64 (95 / 100),
    minMotivation := 0, maxMotivation := 100 }

/-- The method `clampValues`: four successive conditional assignments. -/
def BasalGanglia.clampValues (bg : BasalGanglia) : BasalGanglia :=
  let bg := if bg.Motivation < bg.minMotivation then
    { bg with Motivation := bg.minMotivation } else bg
  let bg := if bg.Motivation > bg.maxMotivation then
    { bg with Motivation := bg.maxMotivation } else bg
  let bg := if bg.PredictedReward < 0 then { bg with PredictedReward := 0 } else bg
  let bg := if bg.PredictedReward > 100 then { bg with PredictedReward := 100 } else bg
  bg

/-- The method `UpdateMotivation`. -/
def BasalGanglia.UpdateMotivation (bg : BasalGanglia) (actualReward : ℚ) : BasalGanglia :=
  let predictionError := actualReward - bg.PredictedReward
  let bg := { bg with Motivation := bg.Motivation + predictionError * (1 / 2) }
  let bg := { bg with PredictedReward := bg.PredictedReward + predictionError * (3 / 10) }
  bg.clampValues

/-- The method `SetMotivation`. -/
def BasalGanglia.SetMotivation (bg : BasalGanglia) (value : Int) : BasalGanglia :=
  ({ bg with Motivation := (value : ℚ) } : BasalGanglia).clampValues

/-- The method `ApplyDecay`, in float64 arithmetic: the difference, the product and
the sum are each rounded. -/
def BasalGanglia.ApplyDecay (bg : BasalGanglia) : BasalGanglia :=
  let bg :=
    if bg.Motivation > 50 then
      let diff := f64 (bg.Motivation - 50)
      { bg with Motivation := f64 (50 + f64 (diff * bg.decayRate)) }
    else if bg.Motivation < 50 then
      let diff := f64 (50 - bg.Motivation)
      { bg with Motivation := f64 (50 - f64 (diff * bg.decayRate)) }
    else bg
  bg.clampValues

/-- The method `Reset`. -/
def BasalGanglia.Reset (bg : BasalGanglia) : BasalGanglia :=
  { bg with Motivation := 50, PredictedReward := 50 }

/-- The state-changing calls of the reward learning unit. -/
inductive BasalCall where
  | updateMotivation (actualReward : ℚ)
  | setMotivation (value : Int)
  | applyDecay
  | reset
deriving Repr

/-- Effect of one call on the state. -/
def BasalGanglia.step (bg : BasalGanglia) : BasalCall → BasalGanglia
  | .updateMotivation r => bg.UpdateMotivation r
  | .setMotivation v => bg.SetMotivation v
  | .applyDecay => bg.ApplyDecay
  | .reset => bg.Reset

/-- Effect of a finite sequence of calls, first call first. -/
def BasalGanglia.run (bg : BasalGanglia) (calls : List BasalCall) : BasalGanglia :=
  calls.foldl BasalGanglia.step bg

/-- The clamp of the specification: `x` limited to `[lo, hi]`. -/
def clampSpec (x lo hi : ℚ) : ℚ := max lo (min x hi)

/-- The state invariant of the reward learning unit: the limits are those set by
`New`, and both levels lie in `[0,100]`. -/
def BasalGanglia.Valid (bg : BasalGanglia) : Prop :=
  bg.minMotivation = 0 ∧ bg.maxMotivation = 100 ∧
    0 ≤ bg.Motivation ∧ bg.Motivation ≤ 100 ∧
    0 ≤ bg.PredictedReward ∧ bg.PredictedReward ≤ 100

/-! ### models/types.go: memories -/

/-- The Go type `MemoryType` is a string type. -/
abbrev MemoryType := String

abbrev MemorySTM : MemoryType := "STM"
abbrev MemoryLTM : MemoryType := "LTM"

/-- The struct `RuneMemory`. The Go field `Type` is called `MemType` here, because
`Type` is reserved. -/
structure RuneMemory where
  UUID : String
  Text : String
  Emotions : List EmotionValue
  Weight : ℚ
  MemType : MemoryType
  CreatedAt : Int
  LastAccess : Int
  RecallCount : Int
  Tags : List String
deriving DecidableEq, Repr

/-! ### store/db.go, store/memory_repo.go -/

/-- The table `memories` behind `store.DB`: its rows (primary key `uuid`), and a
fault schedule: statement number `ops` fails when `fault ops` holds. -/
structure DB where
  rows : List RuneMemory
  fault : Nat → Bool
  ops : Nat

/-- Issue one statement: the schedule is advanced and tells whether it failed. -/
def DB.exec (d : DB) : Bool × DB := (d.fault d.ops, { d with ops := d.ops + 1 })

/-- The method `SaveMemory`: `INSERT OR REPLACE` of the columns uuid, text, emotions,
weight, type, created_at, last_access, tags (the recall count is not a column). -/
def DB.SaveMemory (d : DB) (m : RuneMemory) : Except String Unit × DB :=
  let (failed, d) := d.exec
  if failed then (.error "exec failed", d)
  else (.ok (), { d with rows := d.rows.filter (fun x => x.UUID != m.UUID) ++
      [{ m with RecallCount := 0 }] })

/-- The method `GetLTMCount`: `SELECT COUNT(*) FROM memories WHERE type = 'LTM'`. -/
def DB.GetLTMCount (d : DB) : Except String Int × DB :=
  let (failed, d) := d.exec
  if failed then (.error "query failed", d)
  else (.ok ((d.rows.filter (fun x => x.MemType == MemoryLTM)).length : Int), d)

/-- The order `ORDER BY weight ASC, last_access ASC` of `DeleteOldMemories`. -/
def pruneOrder (a b : RuneMemory) : Prop :=
  a.Weight < b.Weight ∨ (a.Weight = b.Weight ∧ a.LastAccess ≤ b.LastAccess)

instance : DecidableRel pruneOrder := fun a b => by
  unfold pruneOrder; infer_instance

/-- The method `DeleteOldMemories`. -/
def DB.DeleteOldMemories (d : DB) (keepCount : Int) : Except String Unit × DB :=
  match d.GetLTMCount with
  | (.error err, d) => (.error err, d)
  | (.ok total, d) =>
    if total ≤ keepCount then (.ok (), d)
    else
      let deleteCount := total - keepCount
      let (failed, d) := d.exec
      if failed then (.error "exec failed", d)
      else
        let victims := (((d.rows.filter (fun x => x.MemType == MemoryLTM)).insertionSort
          pruneOrder).take deleteCount.toNat).map RuneMemory.UUID
        (.ok (), { d with rows := d.rows.filter (fun x => !victims.contains x.UUID) })

/-! ### hippocampus/memory.go -/

/-- The struct `Hippocampus`; `store = none` is the nil store. -/
structure Hippocampus where
  STM : List RuneMemory
  store : Option DB
  consolidationThreshold : ℚ
  maxSTMSize : Int
  maxLTMSize : Int

/-- The constructor `hippocampus.New`. -/
def Hippocampus.New (db : Option DB) : Hippocampus :=
  { STM := [], store := db, consolidationThreshold := 6 / 10, maxSTMSize := 100,
    maxLTMSize := 1000 }

/-- The method `GetSTMCount`. -/
def Hippocampus.GetSTMCount (h : Hippocampus) : Int := h.STM.length

/-- The method `GetLTMCount`: 0 without a store or when the query fails. -/
def Hippocampus.GetLTMCount (h : Hippocampus) : Int × Hippocampus :=
  match h.store with
  | none => (0, h)
  | some d =>
    match d.GetLTMCount with
    | (.error _, d) => (0, { h with store := some d })
    | (.ok count, d) => (count, { h with store := some d })

/-- The loop `for _, memory := range h.STM` of `SleepAndConsolidate`. `clock k` is the
result of the `k`-th call of `time.Now()`. Returns the store after the loop and
the memories handed to `SaveMemory` for which it reported success, in call order. -/
def consolidateLoop (threshold : ℚ) (clock : Nat → Int) :
    Nat → List RuneMemory → DB → DB × List RuneMemory
  | _, [], d => (d, [])
  | k, memory :: rest, d =>
    if memory.Weight ≥ threshold then
      let ltmMemory := { memory with MemType := MemoryLTM, LastAccess := clock k }
      match d.SaveMemory ltmMemory with
      | (.error _, d) => consolidateLoop threshold clock (k + 1) rest d
      | (.ok _, d) =>
        let (d, saved) := consolidateLoop threshold clock (k + 1) rest d
        (d, ltmMemory :: saved)
    else consolidateLoop threshold clock k rest d

/-- The method `FadeOldMemories` has an empty body. -/
def Hippocampus.FadeOldMemories (h : Hippocampus) : Hippocampus := h

/-- The method `SleepAndConsolidate`. Returns the state after the call and the
memories successfully saved to the store during the call. -/
def Hippocampus.SleepAndConsolidate (h : Hippocampus) (clock : Nat → Int) :
    Hippocampus × List RuneMemory :=
  match h.store with
  | none => (h, [])
  | some d =>
    let (d, saved) := consolidateLoop h.consolidationThreshold clock 0 h.STM d
    let h := { h with STM := [], store := some d }
    let h := h.FadeOldMemories
    let (_, d) := d.DeleteOldMemories h.maxLTMSize
    ({ h with store := some d }, saved)

/-! ### core/brain.go, core/lifecycle.go -/

/-- The struct `Brain`, with the modules embedded here. -/
structure Brain where
  Hippocampus : Hippocampus
  BasalGanglia : BasalGanglia
  PFC : PrefrontalCortex

/-- The struct `SleepResult`. -/
structure SleepResult where
  ConsolidatedCount : Int
  ForgottenCount : Int
  STMCount : Int
  LTMCount : Int
deriving DecidableEq, Repr

/-- The method `Brain.Sleep`. -/
def Brain.Sleep (b : Brain) (clock : Nat → Int) : SleepResult × Brain :=
  let stmCountBefore := b.Hippocampus.GetSTMCount
  let (ltmCountBefore, h) := b.Hippocampus.GetLTMCount
  let (h, _) := h.SleepAndConsolidate clock
  let (ltmCountAfter, h) := h.GetLTMCount
  let consolidated := ltmCountAfter - ltmCountBefore
  let forgotten := stmCountBefore - consolidated
  let (ltmCount, h') := h.GetLTMCount
  ({ ConsolidatedCount := consolidated, ForgottenCount := forgotten,
     STMCount := h.GetSTMCount, LTMCount := ltmCount }, { b with Hippocampus := h' })

/-- The promotion applied to a memory before it is saved: the tier becomes Long and
the last access time is set; every other field is kept. -/
def Promoted (m x : RuneMemory) : Prop :=
  x.MemType = MemoryLTM ∧ x.UUID = m.UUID ∧ x.Text = m.Text ∧ x.Emotions = m.Emotions ∧
    x.Weight = m.Weight ∧ x.Tags = m.Tags

/-- A short-tier memory of weight 0.95, as `AddEpisode` builds it for the emotions
`[(Joy,90), (Love,80)]`. -/
def importantMemory : RuneMemory :=
  { UUID := "m-1", Text := "an important memory",
    Emotions := [⟨EmotionJoy, 90⟩, ⟨EmotionLove, 80⟩], Weight := 95 / 100,
    MemType := MemorySTM, CreatedAt := 1, LastAccess := 1, RecallCount := 0,
    Tags := ["J", "L"] }

/-- A short-tier memory of weight 0.35, as `AddEpisode` builds it for the emotions
`[(Neutral,30)]`. -/
def trivialMemory : RuneMemory :=
  { UUID := "m-2", Text := "a trivial memory",
    Emotions := [⟨EmotionNeutral, 30⟩], Weight := 35 / 100,
    MemType := MemorySTM, CreatedAt := 2, LastAccess := 2, RecallCount := 0,
    Tags := ["N"] }

/-- An empty store on which no statement fails. -/
def emptyDB : DB := { rows := [], fault := fun _ => false, ops := 0 }

/-! ### core/dmn.go -/

/-- The struct `weightedMemory`. -/
structure weightedMemory where
  memory : RuneMemory
  weight : ℚ
deriving DecidableEq, Repr

/-- The inner loop `for j, w := range remaining` of `weightedRandomSelection`: walks
the cumulative weights and, at the first entry with `r <= cumulative`, returns that
entry and the slice without it; `none` when the loop ends without a selection. -/
def rouletteWalk (r : ℚ) : ℚ → List weightedMemory → Option (weightedMemory × List weightedMemory)
  | _, [] => none
  | cumulative, w :: rest =>
    let cumulative := cumulative + w.weight
    if r ≤ cumulative then some (w, rest)
    else
      match rouletteWalk r cumulative rest with
      | none => none
      | some (chosen, others) => some (chosen, w :: others)

/-- The outer loop `for i := 0; i < count && len(remaining) > 0; i++`: `fuel` is the
number of rounds left, `k` the number of random draws consumed so far. -/
def rouletteLoop (rnd : Nat → ℚ) : Nat → Nat → List weightedMemory → ℚ → List RuneMemory
  | 0, _, _, _ => []
  | fuel + 1, k, remaining, totalWeight =>
    if remaining.length = 0 then []
    else
      let r := rnd k * totalWeight
      match rouletteWalk r 0 remaining with
      | some (w, others) =>
        w.memory :: rouletteLoop rnd fuel (k + 1) others (totalWeight - w.weight)
      | none => rouletteLoop rnd fuel (k + 1) remaining totalWeight

/-- The loop `for i := 0; i < count; i++` of the uniform branch, which appends
`weighted[indices[i]].memory`; `none` is an index-out-of-range panic. -/
def uniformLoop (weighted : List weightedMemory) (indices : List Nat) :
    Nat → Nat → Option (List RuneMemory)
  | 0, _ => some []
  | fuel + 1, i =>
    match indices[i]? with
    | none => none
    | some j =>
      match weighted[j]? with
      | none => none
      | some w =>
        match uniformLoop weighted indices fuel (i + 1) with
        | none => none
        | some rest => some (w.memory :: rest)

/-- The function `weightedRandomSelection`. `perm` is the result of
`rand.Perm(len(weighted))`, `rnd` the stream of `rand.Float64()` results; `none` is
a run-time panic (`make` with a negative capacity, index out of range). -/
def weightedRandomSelection (weighted : List weightedMemory) (count : Int)
    (perm : List Nat) (rnd : Nat → ℚ) : Option (List RuneMemory) :=
  if weighted.length = 0 then some []
  else
    let count := if count > weighted.length then (weighted.length : Int) else count
    let totalWeight := weighted.foldl (fun acc w => acc + w.weight) 0
    if totalWeight ≤ 0 then
      if count < 0 then none
      else uniformLoop weighted perm count.toNat 0
    else
      if count < 0 then none
      else some (rouletteLoop rnd count.toNat 0 weighted totalWeight)

/-- A long-tier row of weight 0.8 with the identifier `x…x` (`i + 1` letters). -/
def oldMemory (i : Nat) : RuneMemory :=
  { UUID := String.mk (List.replicate (i + 1) 'x'), Text := "an old memory",
    Emotions := [⟨EmotionJoy, 70⟩], Weight := 8 / 10, MemType := MemoryLTM,
    CreatedAt := 0, LastAccess := 0, RecallCount := 0, Tags := ["J"] }

/-- A full long tier: 1000 rows, the `maxLTMSize` set by `hippocampus.New`. -/
@[irreducible] def fullRows : List RuneMemory := (List.range 1000).map oldMemory

/-- A store on which no statement fails and whose long tier is full. -/
def fullDB : DB :=
  { rows := fullRows, fault := fun _ => false, ops := 0 }

/-- The row `SaveMemory` writes for the promoted copy of `m`: tier Long, last access
`t`, and no recall count. -/
def savedRow (m : RuneMemory) (t : Int) : RuneMemory :=
  { m with MemType := MemoryLTM, LastAccess := t, RecallCount := 0 }

/-- The copy of `m` that `SleepAndConsolidate` hands to `SaveMemory`. -/
def promotedCopy (m : RuneMemory) (t : Int) : RuneMemory :=
  { m with MemType := MemoryLTM, LastAccess := t }

/-- A brain in memory-only mode (no store, as `core.New` builds it when the
database cannot be opened) whose short tier holds one memory. -/
def memoryOnlyBrain : Brain :=
  { Hippocampus := { Hippocampus.New none with STM := [importantMemory] },
    BasalGanglia := BasalGanglia.New, PFC := PrefrontalCortex.New }

/-- A brain whose long tier is full and whose short tier holds one memory. -/
def fullBrain : Brain :=
  { Hippocampus := { Hippocampus.New (some fullDB) with STM := [importantMemory] },
    BasalGanglia := BasalGanglia.New, PFC := PrefrontalCortex.New }

/-- The state after `n` consecutive calls `UpdateMotivation(actualReward)`. -/
def BasalGanglia.repeatUpdate (bg : BasalGanglia) (actualReward : ℚ) : Nat → BasalGanglia
  | 0 => bg
  | n + 1 => (bg.repeatUpdate actualReward n).UpdateMotivation actualReward

/-! ### hypothalamus/homeostasis.go, hypothalamus/bioclock.go -/

/-- The struct `Homeostasis` (the mutex is not modelled). Time stamps count
nanoseconds; the field `TimeProvider` is modelled by passing its result `now` to the
methods that call it. -/
structure Homeostasis where
  Cortisol : ℚ
  Oxytocin : ℚ
  Melatonin : ℚ
  Serotonin : ℚ
  LastUpdated : Int
deriving DecidableEq, Repr

/-- The constructor `NewHomeostasis`, called at time `now`. -/
def Homeostasis.New (now : Int) : Homeostasis :=
  { Cortisol := 0, Oxytocin := 0, Melatonin := 0, Serotonin := 50, LastUpdated := now }

/-- The method `clamp`: `math.Max(0, math.Min(100, x))` on each of the four levels. -/
def Homeostasis.clamp (h : Homeostasis) : Homeostasis :=
  { h with
    Cortisol := max 0 (min 100 h.Cortisol)
    Oxytocin := max 0 (min 100 h.Oxytocin)
    Melatonin := max 0 (min 100 h.Melatonin)
    Serotonin := max 0 (min 100 h.Serotonin) }

/-- The method `Update`; `now` is the result of `h.TimeProvider()`. -/
def Homeostasis.Update (h : Homeostasis) (now : Int) (stressor affection : ℚ) : Homeostasis :=
  let h := if stressor > 0 then { h with Cortisol := h.Cortisol + stressor } else h
  let h :=
    if affection > 0 then
      { h with Oxytocin := h.Oxytocin + affection, Cortisol := h.Cortisol - affection }
    else h
  let h := h.clamp
  { h with LastUpdated := now }

/-- The hours in a duration of `d` nanoseconds (`time.Duration.Hours`). -/
def durationHours (d : Int) : ℚ := (d : ℚ) / 3600000000000

/-- The method `Decay`; `now` is the result of `h.TimeProvider()`. -/
def Homeostasis.Decay (h : Homeostasis) (now : Int) : Homeostasis :=
  let elapsed := durationHours (now - h.LastUpdated)
  if elapsed ≤ 0 then h
  else
    let decayRate : ℚ := 10
    let decayAmount := decayRate * elapsed
    let h :=
      if h.Cortisol > 0 then
        let c := h.Cortisol - decayAmount
        { h with Cortisol := if c < 0 then 0 else c }
      else h
    let h :=
      if h.Oxytocin > 0 then
        let o := h.Oxytocin - decayAmount
        { h with Oxytocin := if o < 0 then 0 else o }
      else h
    { h with LastUpdated := now }

/-- The constant `DayTimeStart`. -/
def DayTimeStart : Int := 6

/-- The constant `NightTimeStart`. -/
def NightTimeStart : Int := 22

/-- The function `calculateNightMelatonin`. -/
def calculateNightMelatonin (hour : Int) : ℚ :=
  if hour ≥ NightTimeStart then
    let progress : ℚ := ((hour - NightTimeStart : Int) : ℚ) / 2
    80 + progress * 20
  else
    let progress : ℚ := ((DayTimeStart - hour : Int) : ℚ) / ((DayTimeStart : Int) : ℚ)
    50 + progress * 50

/-- The function `calculateDaySerotonin`. -/
def calculateDaySerotonin (hour : Int) : ℚ :=
  if hour ≥ DayTimeStart ∧ hour < 12 then
    let progress : ℚ := ((hour - DayTimeStart : Int) : ℚ) / 6
    60 + progress * 40
  else if hour ≥ 12 ∧ hour < NightTimeStart then
    let progress : ℚ := ((hour - 12 : Int) : ℚ) / ((NightTimeStart - 12 : Int) : ℚ)
    100 - progress * 40
  else 60

/-- The method `UpdateCircadianRhythm`; `hour` is `currentTime.Hour()`, a value in
`0..23`. -/
def Homeostasis.UpdateCircadianRhythm (h : Homeostasis) (hour : Int) : Homeostasis :=
  let h :=
    if hour ≥ NightTimeStart ∨ hour < DayTimeStart then
      { h with Melatonin := calculateNightMelatonin hour, Serotonin := 20 }
    else
      { h with Melatonin := 10, Serotonin := calculateDaySerotonin hour }
  h.clamp

/-- The state-changing calls of the homeostasis regulator, each with the clock
reading it observes. -/
inductive HomeostasisCall where
  | update (now : Int) (stressor affection : ℚ)
  | decay (now : Int)
  | circadian (hour : Int)
deriving Repr

/-- Effect of one call on the state. -/
def Homeostasis.step (h : Homeostasis) : HomeostasisCall → Homeostasis
  | .update now s a => h.Update now s a
  | .decay now => h.Decay now
  | .circadian hour => h.UpdateCircadianRhythm hour

/-- Effect of a finite sequence of calls, first call first. -/
def Homeostasis.run (h : Homeostasis) (calls : List HomeostasisCall) : Homeostasis :=
  calls.foldl Homeostasis.step h

/-- The state invariant of the regulator: the four levels lie in `[0,100]`. -/
def Homeostasis.Valid (h : Homeostasis) : Prop :=
  (0 ≤ h.Cortisol ∧ h.Cortisol ≤ 100) ∧ (0 ≤ h.Oxytocin ∧ h.Oxytocin ≤ 100) ∧
    (0 ≤ h.Melatonin ∧ h.Melatonin ≤ 100) ∧ (0 ≤ h.Serotonin ∧ h.Serotonin ≤ 100)

/-! ### models/types.go: sensory input -/

/-- The Go type `SignalType` is a string type. -/
abbrev SignalType := String

/-- The struct `SensoryInput`; the Go field `Type` is named `SigType` here. -/
structure SensoryInput where
  SigType : SignalType
  InputText : String
  SignalValue : Int
deriving DecidableEq, Repr

/-! ### thalamus/gate.go -/

/-- The struct `Thalamus` (the mutex is not modelled). -/
structure Thalamus where
  LastInputText : String
  RepetitionCount : Int
  SatiationLevel : ℚ
  similarityThreshold : ℚ
deriving DecidableEq, Repr

/-- The constructor `thalamus.New`. -/
def Thalamus.New : Thalamus :=
  { LastInputText := "", RepetitionCount := 0, SatiationLevel := 1 / 2,
    similarityThreshold := 8 / 10 }

/-- The white space of Go `unicode.IsSpace`: the Latin-1 spaces and the code points
with the Unicode property White_Space. -/
def isSpaceRune (c : Char) : Bool :=
  let n := c.toNat
  (9 ≤ n && n ≤ 13) || n == 32 || n == 133 || n == 160 || n == 5760 ||
    (8192 ≤ n && n ≤ 8202) || n == 8232 || n == 8233 || n == 8239 || n == 8287 ||
    n == 12288

/-- Go `strings.TrimSpace`: leading and trailing white space removed. -/
def TrimSpace (s : String) : String :=
  ⟨((s.data.dropWhile isSpaceRune).reverse.dropWhile isSpaceRune).reverse⟩

/-- Go `strings.ToLower`: every character mapped to lower case. The Unicode
lower-case mapping of single characters is the parameter `lower`. -/
def ToLower (lower : Char → Char) (s : String) : String :=
  ⟨s.data.map lower⟩

/-- Go `len` of a string: its length in bytes (UTF-8). -/
def len (s : String) : Int :=
  ((s.data.map Char.utf8Size).sum : Nat)

/-- Go `strings.Contains`: `substr` occurs within `s`. -/
def Contains (s substr : String) : Bool :=
  decide (substr.data <:+: s.data)

/-- The method `checkSimilarity`. -/
def Thalamus.checkSimilarity (lower : Char → Char) (t : Thalamus) (text1 text2 : String) :
    Bool :=
  if text1 = "" ∨ text2 = "" then false
  else if text1 = text2 then true
  else
    let norm1 := ToLower lower (TrimSpace text1)
    let norm2 := ToLower lower (TrimSpace text2)
    if norm1 = norm2 then true
    else
      let shorter := if len norm1 > len norm2 then norm2 else norm1
      let longer := if len norm1 > len norm2 then norm1 else norm2
      if Contains longer shorter then
        let ratio : ℚ := (len shorter : ℚ) / (len longer : ℚ)
        decide (ratio ≥ t.similarityThreshold)
      else false

/-- The method `Filter`: the returned gain (the error is always nil) and the new
state. -/
def Thalamus.Filter (lower : Char → Char) (t : Thalamus) (input : SensoryInput) :
    Except String ℚ × Thalamus :=
  let currentText := input.InputText
  let isSimilar := t.checkSimilarity lower currentText t.LastInputText
  let t : Thalamus :=
    if isSimilar then { t with RepetitionCount := t.RepetitionCount + 1 }
    else { t with RepetitionCount := 0, LastInputText := currentText }
  let gain : ℚ := 1 / (1 + (1 / 2) * (t.RepetitionCount : ℚ))
  let t : Thalamus := { t with SatiationLevel := (t.RepetitionCount : ℚ) / 10 }
  let t : Thalamus := if t.SatiationLevel > 1 then { t with SatiationLevel := 1 } else t
  (Except.ok gain, t)

/-- The result of call number `n` (counted from 0) in a run of consecutive calls
`Filter(input)` that starts in state `t`. -/
def Thalamus.repeatFilter (lower : Char → Char) (t : Thalamus) (input : SensoryInput) :
    Nat → Except String ℚ × Thalamus
  | 0 => t.Filter lower input
  | n + 1 => (t.repeatFilter lower input n).2.Filter lower input

/-- The similarity test as the specification words it: both texts non-empty, and
either equal after lower-casing and trimming, or the shorter normalized text is a
substring of the longer one and the ratio of their lengths is at least `0.8`. -/
def similarSpec (lower : Char → Char) (a b : String) : Prop :=
  a ≠ "" ∧ b ≠ "" ∧
    (ToLower lower (TrimSpace a) = ToLower lower (TrimSpace b) ∨
      ∃ shorter longer : String,
        ((shorter = ToLower lower (TrimSpace a) ∧ longer = ToLower lower (TrimSpace b)) ∨
          (shorter = ToLower lower (TrimSpace b) ∧ longer = ToLower lower (TrimSpace a))) ∧
        len shorter ≤ len longer ∧ shorter.data <:+: longer.data ∧
        (len shorter : ℚ) / (len longer : ℚ) ≥ 8 / 10)

/-! ### amygdala/amygdala.go -/

/-- The token classes of the morphological analyser. -/
inductive TokenClass where
  | DUMMY
  | KNOWN
  | UNKNOWN
  | USER
deriving DecidableEq, Repr

/-- A token of the morphological analyser: its class, its surface form and the
feature list returned by `Features()`. -/
structure Token where
  Class : TokenClass
  Surface : String
  Features : List String
deriving DecidableEq, Repr

/-- The struct `Amygdala`: the tokenizer is the function computed by `Tokenize`, the
lexicon `dict` is a key-value list read with `List.lookup`. -/
structure Amygdala where
  tokenizer : String → List Token
  dict : List (String × EmotionValue)

/-- The Go type `EmotionMap`, a map from emotion codes to intensities. -/
abbrev EmotionMap := AList (fun _ : EmotionCode => Int)

/-- The map read `em[code]`: the zero value for an absent key. -/
def emotionMapGet (em : EmotionMap) (code : EmotionCode) : Int :=
  (em.lookup code).getD 0

/-- The method `ToEmotionValues`; `order` is the iteration order of the map. -/
def ToEmotionValues (order : List EmotionValue → List EmotionValue) (em : EmotionMap) :
    List EmotionValue :=
  order (em.entries.map (fun e => { Code := e.1, Value := e.2 }))

/-- The helper `extractBaseForm`. -/
def extractBaseForm (token : Token) : String :=
  match token.Features[6]? with
  | some f => if f ≠ "*" then f else token.Surface
  | none => token.Surface

/-- The helper `updateEmotionMap`. -/
def updateEmotionMap (em : EmotionMap) (ev : EmotionValue) : EmotionMap :=
  let current := emotionMapGet em ev.Code
  let newValue := current + ev.Value
  let newValue := if newValue > 100 then 100 else newValue
  em.insert ev.Code newValue

/-- The function `initializeDictionary`: the fixed lexicon. -/
def initializeDictionary : List (String × EmotionValue) :=
  [("最高", ⟨EmotionJoy, 90⟩), ("楽しい", ⟨EmotionJoy, 80⟩), ("嬉しい", ⟨EmotionJoy, 85⟩),
   ("笑", ⟨EmotionJoy, 60⟩), ("良", ⟨EmotionJoy, 50⟩), ("好き", ⟨EmotionJoy, 70⟩),
   ("良い", ⟨EmotionJoy, 50⟩), ("やった", ⟨EmotionJoy, 80⟩), ("美味しい", ⟨EmotionJoy, 85⟩),
   ("旨い", ⟨EmotionJoy, 80⟩),
   ("愛", ⟨EmotionLove, 90⟩), ("信頼", ⟨EmotionLove, 80⟩), ("相棒", ⟨EmotionLove, 85⟩),
   ("一緒", ⟨EmotionLove, 60⟩), ("味方", ⟨EmotionLove, 70⟩), ("なでなで", ⟨EmotionLove, 65⟩),
   ("ありがとう", ⟨EmotionLove, 60⟩),
   ("バカ", ⟨EmotionAnger, 80⟩), ("うざい", ⟨EmotionAnger, 70⟩), ("嫌い", ⟨EmotionAnger, 80⟩),
   ("クソ", ⟨EmotionAnger, 85⟩), ("怒", ⟨EmotionAnger, 90⟩), ("ふざけるな", ⟨EmotionAnger, 75⟩),
   ("悲しい", ⟨EmotionSadness, 80⟩), ("辛い", ⟨EmotionSadness, 85⟩), ("泣", ⟨EmotionSadness, 70⟩),
   ("だめ", ⟨EmotionSadness, 60⟩), ("無理", ⟨EmotionSadness, 65⟩), ("最悪", ⟨EmotionSadness, 90⟩),
   ("ごめん", ⟨EmotionSadness, 50⟩),
   ("えっ", ⟨EmotionSurprise, 60⟩), ("すごい", ⟨EmotionSurprise, 70⟩),
   ("まさか", ⟨EmotionSurprise, 80⟩), ("！？", ⟨EmotionSurprise, 75⟩),
   ("びっくり", ⟨EmotionSurprise, 80⟩),
   ("怖い", ⟨EmotionFear, 85⟩), ("やばい", ⟨EmotionFear, 70⟩), ("逃げ", ⟨EmotionFear, 80⟩),
   ("不安", ⟨EmotionFear, 60⟩), ("警告", ⟨EmotionFear, 75⟩), ("エラー", ⟨EmotionFear, 65⟩),
   ("バグ", ⟨EmotionFear, 80⟩),
   ("苦い", ⟨EmotionDisgust, 70⟩), ("不味い", ⟨EmotionDisgust, 80⟩),
   ("臭い", ⟨EmotionDisgust, 85⟩), ("キモい", ⟨EmotionDisgust, 90⟩),
   ("汚い", ⟨EmotionDisgust, 85⟩)]

/-- The constructor `amygdala.New`, for a given tokenizer. -/
def Amygdala.New (tokenizer : String → List Token) : Amygdala :=
  { tokenizer := tokenizer, dict := initializeDictionary }

/-- The token loop of `Assess`, on the pair of `emotionMap` and `hit`. -/
def assessLoop (dict : List (String × EmotionValue)) :
    List Token → EmotionMap × Bool → EmotionMap × Bool
  | [], st => st
  | token :: rest, (emotionMap, hit) =>
    if token.Class = TokenClass.DUMMY then assessLoop dict rest (emotionMap, hit)
    else
      let surface := token.Surface
      let baseForm := extractBaseForm token
      match dict.lookup surface with
      | some val => assessLoop dict rest (updateEmotionMap emotionMap val, true)
      | none =>
        match dict.lookup baseForm with
        | some val => assessLoop dict rest (updateEmotionMap emotionMap val, true)
        | none => assessLoop dict rest (emotionMap, hit)

/-- The method `Assess`. The result of `sort.Slice` (not stable) on the map entries
taken in iteration order `order` is the stable descending sort of the entries taken
in some order. -/
def Amygdala.Assess (a : Amygdala) (order : List EmotionValue → List EmotionValue)
    (text : String) : List EmotionValue :=
  let tokens := a.tokenizer text
  let st := assessLoop a.dict tokens (∅, false)
  if !st.2 then [{ Code := EmotionNeutral, Value := 10 }]
  else (ToEmotionValues order st.1).insertionSort (fun x y => x.Value ≥ y.Value)

/-- The hit a token contributes, as the specification words it: none for a dummy
token, else the lexicon entry of its surface form if that is a key, otherwise the
entry of its base form if that is a key. -/
def specHit (dict : List (String × EmotionValue)) (token : Token) : Option EmotionValue :=
  if token.Class = TokenClass.DUMMY then none
  else
    match dict.lookup token.Surface with
    | some val => some val
    | none => dict.lookup (extractBaseForm token)

/-- The lexicon hits of a token sequence, in token order. -/
def specHits (dict : List (String × EmotionValue)) (tokens : List Token) : List EmotionValue :=
  tokens.filterMap (specHit dict)

/-- The sum of the lexicon intensities of the hits with code `c`. -/
def hitSum (hits : List EmotionValue) (c : EmotionCode) : Int :=
  ((hits.filter (fun e => e.Code = c)).map EmotionValue.Value).sum

/-- A tokenizer for examples: it returns the given tokens for every text. -/
def fixedTokenizer (tokens : List Token) : String → List Token :=
  fun _ => tokens

/-! ### cortex/mirror.go -/

/-- The loop `for i, e := range blended` of `BlendEmotions`: the first entry with
the code gets the contagion added, capped at 100, and the loop is left; the flag is
`found`. -/
def blendLoop (code : EmotionCode) (contagionValue : Int) :
    List EmotionValue → List EmotionValue × Bool
  | [] => ([], false)
  | e :: rest =>
    if e.Code = code then
      let v := e.Value + contagionValue
      ({ e with Value := if v > 100 then 100 else v } :: rest, true)
    else
      let r := blendLoop code contagionValue rest
      (e :: r.1, r.2)

/-- The function `BlendEmotions`. The first component is the returned vector; the
second is the content of the caller's slice `myEmotions` after the call (the loop
writes to the copy `blended` only). The contagion amount is computed in float64
arithmetic: the conversion of the intensity and the two products are each rounded. -/
def BlendEmotions (userEmotion : EmotionValue) (myEmotions : List EmotionValue)
    (empathyStrength : ℚ) : List EmotionValue × List EmotionValue :=
  let contagionValue :=
    truncQ (f64 (f64 (f64 (userEmotion.Value : ℚ) * empathyStrength) * (1 / 2)))
  if contagionValue ≤ 0 then (myEmotions, myEmotions)
  else
    let blended := myEmotions
    let r := blendLoop userEmotion.Code contagionValue blended
    let blended :=
      if !r.2 then r.1 ++ [{ Code := userEmotion.Code, Value := contagionValue }] else r.1
    (blended, myEmotions)

/-! ### hippocampus/memory.go: adding and recalling -/

/-- The method `calculateWeight`. -/
def Hippocampus.calculateWeight (_h : Hippocampus) (emotions : List EmotionValue) : ℚ :=
  if emotions.length = 0 then 1 / 2
  else
    let total : Int := emotions.foldl (fun total emotion => total + emotion.Value) 0
    let average : ℚ := (total : ℚ) / (emotions.length : ℚ)
    let weight := average / 100
    let diversityBonus : ℚ := (emotions.length : ℚ) * (5 / 100)
    let weight := weight + diversityBonus
    if weight > 1 then 1 else weight

/-- The loop of `extractTags` over the emotions: `seen` holds the keys of the map
`emotionMap`, `tags` the tags so far. -/
def extractTagsLoop : List EmotionValue → List EmotionCode → List String → List String
  | [], _, tags => tags
  | emotion :: rest, seen, tags =>
    if emotion.Code ∉ seen then extractTagsLoop rest (emotion.Code :: seen) (tags ++ [emotion.Code])
    else extractTagsLoop rest seen tags

/-- The method `extractTags`. -/
def Hippocampus.extractTags (_h : Hippocampus) (text : String)
    (emotions : List EmotionValue) : List String :=
  let tags := extractTagsLoop emotions [] []
  if len text > 100 then tags ++ ["long"]
  else if len text < 20 then tags ++ ["short"]
  else tags

/-- The method `AddEpisode`; `now` is the result of `time.Now()`, `uuid` the fresh
identifier. -/
def Hippocampus.AddEpisode (h : Hippocampus) (now : Int) (uuid : String) (text : String)
    (emotions : List EmotionValue) : Hippocampus :=
  let weight := h.calculateWeight emotions
  let memory : RuneMemory :=
    { UUID := uuid, Text := text, Emotions := emotions, Weight := weight,
      MemType := MemorySTM, CreatedAt := now, LastAccess := now, RecallCount := 0,
      Tags := h.extractTags text emotions }
  let h : Hippocampus := { h with STM := h.STM ++ [memory] }
  if (h.STM.length : Int) > h.maxSTMSize then { h with STM := h.STM.drop 1 } else h

/-- The method `AddMemory`: the created memory and the new state. -/
def Hippocampus.AddMemory (h : Hippocampus) (now : Int) (uuid : String) (text : String)
    (emotions : List EmotionValue) : RuneMemory × Hippocampus :=
  let weight := h.calculateWeight emotions
  let memory : RuneMemory :=
    { UUID := uuid, Text := text, Emotions := emotions, Weight := weight,
      MemType := MemorySTM, CreatedAt := now, LastAccess := now, RecallCount := 0,
      Tags := h.extractTags text emotions }
  let h : Hippocampus := { h with STM := h.STM ++ [memory] }
  let h : Hippocampus :=
    if (h.STM.length : Int) > h.maxSTMSize then { h with STM := h.STM.drop 1 } else h
  (memory, h)

/-- One call that adds a memory: through `AddMemory` or through `AddEpisode`, with
the clock reading and the fresh identifier of the call. -/
structure AddCall where
  viaAddMemory : Bool
  now : Int
  uuid : String
  text : String
  emotions : List EmotionValue
deriving Repr

/-- Effect of one adding call on the state. -/
def Hippocampus.addStep (h : Hippocampus) (c : AddCall) : Hippocampus :=
  if c.viaAddMemory then (h.AddMemory c.now c.uuid c.text c.emotions).2
  else h.AddEpisode c.now c.uuid c.text c.emotions

/-- Effect of a sequence of adding calls, first call first. -/
def Hippocampus.addRun (h : Hippocampus) (calls : List AddCall) : Hippocampus :=
  calls.foldl Hippocampus.addStep h

/-- The memory an adding call creates. -/
def AddCall.memory (h : Hippocampus) (c : AddCall) : RuneMemory :=
  (h.AddMemory c.now c.uuid c.text c.emotions).1

/-- The order `ORDER BY last_access DESC` of `GetRecentMemories`. -/
def recentOrder (a b : RuneMemory) : Prop := a.LastAccess ≥ b.LastAccess

instance : DecidableRel recentOrder := fun a b => by
  unfold recentOrder; infer_instance

/-- The method `GetRecentMemories`: the first `limit` rows by last access, newest
first (a negative `LIMIT` is no limit); the recall count is not a column and reads
as 0. -/
def DB.GetRecentMemories (d : DB) (limit : Int) : Except String (List RuneMemory) × DB :=
  let r := d.exec
  if r.1 then (.error "query failed", r.2)
  else
    let sorted := (d.rows.insertionSort recentOrder).map (fun m => { m with RecallCount := 0 })
    (.ok (if limit < 0 then sorted else sorted.take limit.toNat), r.2)

/-- The inner loop `for j := i + 1; ...` of `GetRecentContext` for one `i`: `x` is
`allMemories[i]`, the list is `allMemories[i+1:]`; whenever `x` was accessed before
the entry at `j` the two are swapped. Returns the final `allMemories[i]` and
`allMemories[i+1:]`. -/
def recentInner (x : RuneMemory) : List RuneMemory → RuneMemory × List RuneMemory
  | [] => (x, [])
  | y :: rest =>
    if x.LastAccess < y.LastAccess then
      let r := recentInner y rest
      (r.1, x :: r.2)
    else
      let r := recentInner x rest
      (r.1, y :: r.2)

/-- The outer loop `for i := 0; i < len(allMemories); i++` of `GetRecentContext`, on
`allMemories[i:]`, with the number of iterations left. -/
def recentOuter : Nat → List RuneMemory → List RuneMemory
  | 0, l => l
  | _ + 1, [] => []
  | n + 1, x :: rest =>
    let r := recentInner x rest
    r.1 :: recentOuter n r.2

/-- The method `GetRecentContext`: the returned memories and the state (the store
has answered one query). -/
def Hippocampus.GetRecentContext (h : Hippocampus) : List RuneMemory × Hippocampus :=
  let fetched : List RuneMemory × Hippocampus :=
    match h.store with
    | none => ([], h)
    | some d =>
      match d.GetRecentMemories 10 with
      | (.error _, d) => ([], { h with store := some d })
      | (.ok l, d) => (l, { h with store := some d })
  let ltmMemories := fetched.1
  let allMemories := h.STM ++ ltmMemories
  let allMemories := recentOuter allMemories.length allMemories
  let limit : Nat := if allMemories.length < 10 then allMemories.length else 10
  (allMemories.take limit, fetched.2)

/-! ### hippocampus/reconsolidation.go -/

/-- The function `blendEmotions`. -/
def blendEmotions (original current : List EmotionValue) (blendRatio : ℚ) :
    List EmotionValue :=
  let currentMap : EmotionMap := current.foldl (fun m e => m.insert e.Code e.Value) ∅
  original.map (fun origEmotion =>
    match currentMap.lookup origEmotion.Code with
    | some currentValue =>
      let newValue : ℚ :=
        (origEmotion.Value : ℚ) * (1 - blendRatio) + (currentValue : ℚ) * blendRatio
      let v := truncQ newValue
      { origEmotion with Value := if v > 100 then 100 else v }
    | none => origEmotion)

/-- The method `ReconsolidateMemory` on the memory behind the pointer (`none` is the
nil pointer); `now` is the result of `time.Now()`. -/
def Hippocampus.ReconsolidateMemory (_h : Hippocampus) (now : Int)
    (memory : Option RuneMemory) (currentEmotions : List EmotionValue) : Option RuneMemory :=
  match memory with
  | none => none
  | some memory =>
    let blendedEmotions := blendEmotions memory.Emotions currentEmotions (1 / 10)
    let memory : RuneMemory := { memory with Emotions := blendedEmotions }
    let memory : RuneMemory :=
      { memory with RecallCount := memory.RecallCount + 1, LastAccess := now }
    let recallBonus : ℚ := (memory.RecallCount : ℚ) * (5 / 100)
    let memory : RuneMemory := { memory with Weight := memory.Weight + recallBonus }
    let memory : RuneMemory := if memory.Weight > 1 then { memory with Weight := 1 } else memory
    some memory

/-! ### core/helpers.go, core/pipeline.go -/

/-- The loop of `addEmotion`: `none` when no entry has the code. -/
def addEmotionLoop (code : EmotionCode) (value : Int) :
    List EmotionValue → Option (List EmotionValue)
  | [] => none
  | e :: rest =>
    if e.Code = code then
      let v := e.Value + value
      some ({ e with Value := if v > 100 then 100 else v } :: rest)
    else (addEmotionLoop code value rest).map (fun r => e :: r)

/-- The function `addEmotion`, on the content of the slice behind the pointer. -/
def addEmotion (emotions : List EmotionValue) (code : EmotionCode) (value : Int) :
    List EmotionValue :=
  match addEmotionLoop code value emotions with
  | some r => r
  | none =>
    let value := if value > 100 then 100 else value
    emotions ++ [{ Code := code, Value := value }]

/-- The method `processPhysicalSignal` on the two modules of the brain it touches:
the returned vector, the hormone state and the reward learning unit after the call
(`now` is the clock reading used by `Update`). The products with the gain and the
reward are computed in float64 arithmetic, each operation rounded. -/
def processPhysicalSignal (hypothalamus : Homeostasis) (basalGanglia : BasalGanglia)
    (now : Int) (signalValue : Int) (gain : ℚ) :
    List EmotionValue × Homeostasis × BasalGanglia :=
  let rawEmotions : List EmotionValue := []
  let val : ℚ := f64 (signalValue : ℚ)
  let r : List EmotionValue × ℚ × ℚ :=
    if val > 0 then
      (addEmotion rawEmotions EmotionJoy (truncQ (f64 (val * gain))), 0, f64 (val * gain))
    else if val < 0 then
      (addEmotion rawEmotions EmotionDisgust (truncQ (f64 (-val * gain))),
        f64 (-val * gain), 0)
    else (addEmotion rawEmotions EmotionNeutral 10, 0, 0)
  let stressor := r.2.1
  let affection := r.2.2
  let hypothalamus := hypothalamus.Update now stressor affection
  let actualReward : ℚ := f64 (f64 (f64 (val * gain) + 100) / 2)
  let basalGanglia := basalGanglia.UpdateMotivation actualReward
  (r.1, hypothalamus, basalGanglia)

/-- The method `calculateMoodStability` (it reads no field of the brain). -/
def calculateMoodStability (currentEmotions : List EmotionValue) : ℚ :=
  if currentEmotions.length = 0 then 1 / 2
  else
    let total : Int := currentEmotions.foldl (fun total emotion => total + emotion.Value) 0
    let avg : ℚ := (total : ℚ) / (currentEmotions.length : ℚ)
    let variance : ℚ := currentEmotions.foldl
      (fun variance emotion =>
        variance + ((emotion.Value : ℚ) - avg) * ((emotion.Value : ℚ) - avg)) 0
    let variance := variance / (currentEmotions.length : ℚ)
    let stability : ℚ := 1 - variance / 10000
    let stability := if stability < 0 then 0 else stability
    let stability := if stability > 1 then 1 else stability
    stability

/-! ### Notions of the specification -/

/-- The distinct entries of a list, each once, in first-occurrence order. -/
def firstOccurrences : List String → List String
  | [] => []
  | c :: cs => c :: (firstOccurrences cs).filter (fun x => x ≠ c)

/-- The weight formula as the specification words it: the average intensity over
100 plus `0.05` per distinct emotion code, capped at 1. -/
def weightSpec (emotions : List EmotionValue) : ℚ :=
  min 1 ((((emotions.map EmotionValue.Value).sum : Int) : ℚ) / (emotions.length : ℚ) / 100 +
    (5 / 100) * ((firstOccurrences (emotions.map EmotionValue.Code)).length : ℚ))

/-- The population variance of the intensities: the mean of the squared deviations
from the mean. -/
def popVariance (emotions : List EmotionValue) : ℚ :=
  let mean : ℚ := (((emotions.map EmotionValue.Value).sum : Int) : ℚ) / (emotions.length : ℚ)
  ((emotions.map (fun e => ((e.Value : ℚ) - mean) ^ 2)).sum) / (emotions.length : ℚ)

/-- The vector with the amount `c` added to the entry of code `code`, capped at 100;
the other entries unchanged. -/
def addedAt (code : EmotionCode) (c : Int) (v : List EmotionValue) : List EmotionValue :=
  v.map (fun e => if e.Code = code then { e with Value := min 100 (e.Value + c) } else e)

/-- The intensity of the entry of a code in a vector, if there is one. -/
def intensityOf (v : List EmotionValue) (code : EmotionCode) : Option Int :=
  (v.find? (fun e => e.Code = code)).map EmotionValue.Value

/-- The blended vector as the specification words it: an entry whose code occurs in
the current vector gets `trunc(0.9*original + 0.1*current)` capped at 100, every
other entry is unchanged. -/
def blendSpec (original current : List EmotionValue) : List EmotionValue :=
  original.map (fun e =>
    match intensityOf current e.Code with
    | some c =>
      { e with Value := min 100 (truncQ ((9 / 10) * (e.Value : ℚ) + (1 / 10) * (c : ℚ))) }
    | none => e)

/-! ### pfc/controller.go: the mutators of the self-control value -/

/-- Result of an addition or subtraction on the Go type `int` (64 bits, two's
complement): the mathematical result wrapped into `[-2^63, 2^63)`. -/
def wrapInt (x : Int) : Int := (x + 2 ^ 63) % 2 ^ 64 - 2 ^ 63

/-- The method `clampSanity`. -/
def PrefrontalCortex.clampSanity (pfc : PrefrontalCortex) : PrefrontalCortex :=
  let pfc : PrefrontalCortex :=
    if pfc.Sanity < pfc.minSanity then { pfc with Sanity := pfc.minSanity } else pfc
  if pfc.Sanity > pfc.maxSanity then { pfc with Sanity := pfc.maxSanity } else pfc

/-- The method `SetSanity`. -/
def PrefrontalCortex.SetSanity (pfc : PrefrontalCortex) (value : Int) : PrefrontalCortex :=
  ({ pfc with Sanity := value } : PrefrontalCortex).clampSanity

/-- The method `UpdateSanity`. -/
def PrefrontalCortex.UpdateSanity (pfc : PrefrontalCortex) (delta : Int) : PrefrontalCortex :=
  ({ pfc with Sanity := wrapInt (pfc.Sanity + delta) } : PrefrontalCortex).clampSanity

/-- The method `ApplyStress`; the integer division of Go truncates toward zero. -/
def PrefrontalCortex.ApplyStress (pfc : PrefrontalCortex) (stressLevel : Int) :
    PrefrontalCortex :=
  let reduction : Int := Int.tdiv stressLevel 5
  ({ pfc with Sanity := wrapInt (pfc.Sanity - reduction) } : PrefrontalCortex).clampSanity

/-- The method `Rest`. -/
def PrefrontalCortex.Rest (pfc : PrefrontalCortex) (restQuality : Int) : PrefrontalCortex :=
  let recovery : Int := Int.tdiv restQuality 4
  ({ pfc with Sanity := wrapInt (pfc.Sanity + recovery) } : PrefrontalCortex).clampSanity

/-- The method `Reset`. -/
def PrefrontalCortex.Reset (pfc : PrefrontalCortex) : PrefrontalCortex :=
  { pfc with Sanity := 80 }

/-- The state-changing calls of the self-control unit. -/
inductive PFCCall where
  | setSanity (value : Int)
  | updateSanity (delta : Int)
  | applyStress (stressLevel : Int)
  | rest (restQuality : Int)
  | reset
deriving Repr

/-- Effect of one call on the state. -/
def PrefrontalCortex.step (pfc : PrefrontalCortex) : PFCCall → PrefrontalCortex
  | .setSanity v => pfc.SetSanity v
  | .updateSanity d => pfc.UpdateSanity d
  | .applyStress s => pfc.ApplyStress s
  | .rest q => pfc.Rest q
  | .reset => pfc.Reset

/-- Effect of a finite sequence of calls, first call first. -/
def PrefrontalCortex.run (pfc : PrefrontalCortex) (calls : List PFCCall) : PrefrontalCortex :=
  calls.foldl PrefrontalCortex.step pfc

/-- The state invariant of the self-control unit: the limits are those set by `New`
and the value lies in `[0,100]`. -/
def PrefrontalCortex.Valid (pfc : PrefrontalCortex) : Prop :=
  pfc.minSanity = 0 ∧ pfc.maxSanity = 100 ∧ 0 ≤ pfc.Sanity ∧ pfc.Sanity ≤ 100

/-- Number of random draws `Arbitrate` has consumed when it reaches position `i` of
its input under affiliation above 50: one per Anger entry before that position. -/
def drawsBefore (raw : List EmotionValue) (i : Nat) : Nat :=
  ((raw.take i).filter (fun e => e.Code == EmotionAnger)).length

/-! ### hippocampus/reconsolidation.go, core/dmn.go, core/dmn_helpers.go: recall -/

/-- The loop `for i := range memories` of `GetRecentContextWithReconsolidation` on
the slice returned by `GetRecentContext`; `clock i` is the result of the call of
`time.Now()` in iteration `i`. -/
def reconsolidateLoop (h : Hippocampus) (clock : Nat → Int)
    (currentEmotions : List EmotionValue) : Nat → List RuneMemory → List RuneMemory
  | _, [] => []
  | i, memory :: rest =>
    (h.ReconsolidateMemory (clock i) (some memory) currentEmotions).getD memory ::
      reconsolidateLoop h clock currentEmotions (i + 1) rest

/-- The method `GetRecentContextWithReconsolidation`: the returned slice and the
state after the call. The slice `memories` is the one `GetRecentContext` allocates
with `make` and fills with copies of the structs of the buffer and of the rows;
`ReconsolidateMemory` assigns the fields of `memories[i]` only, and the `Emotions` it
assigns is the slice `blendEmotions` allocates, so no element of a slice shared with
the buffer is written. The state returned is therefore the one `GetRecentContext`
leaves. -/
def Hippocampus.GetRecentContextWithReconsolidation (h : Hippocampus) (clock : Nat → Int)
    (currentEmotions : List EmotionValue) : List RuneMemory × Hippocampus :=
  let r := h.GetRecentContext
  let memories := r.1
  let h := r.2
  (reconsolidateLoop h clock currentEmotions 0 memories, h)

/-- The function `calculateMemoryWeight`. -/
def calculateMemoryWeight (memory : RuneMemory) (moodTendency : String) : ℚ :=
  let baseWeight := memory.Weight
  let emotionBonus : ℚ := memory.Emotions.foldl
    (fun emotionBonus emotion =>
      if moodTendency = "negative" then
        if emotion.Code = EmotionAnger ∨ emotion.Code = EmotionFear ∨
            emotion.Code = EmotionDisgust ∨ emotion.Code = EmotionGrief then
          emotionBonus + (emotion.Value : ℚ) * (2 / 100)
        else emotionBonus
      else if moodTendency = "positive" then
        if emotion.Code = EmotionJoy ∨ emotion.Code = EmotionLove ∨
            emotion.Code = EmotionHope then
          emotionBonus + (emotion.Value : ℚ) * (2 / 100)
        else emotionBonus
      else emotionBonus) 0
  baseWeight + emotionBonus

/-- The method `recallMemoriesWithReconsolidation`: the selected memories (`none` is
a run-time panic of the selection) and the brain after the call. -/
def Brain.recallMemoriesWithReconsolidation (b : Brain) (clock : Nat → Int) (count : Int)
    (moodTendency : String) (currentEmotions : List EmotionValue) (perm : List Nat)
    (rnd : Nat → ℚ) : Option (List RuneMemory) × Brain :=
  let r := b.Hippocampus.GetRecentContextWithReconsolidation clock currentEmotions
  let allMemories := r.1
  let b : Brain := { b with Hippocampus := r.2 }
  if allMemories.length = 0 then (some [], b)
  else
    let weightedMemories : List weightedMemory :=
      allMemories.map (fun mem => ⟨mem, calculateMemoryWeight mem moodTendency⟩)
    (weightedRandomSelection weightedMemories count perm rnd, b)

/-- The method `GetMotivation`. -/
def BasalGanglia.GetMotivation (bg : BasalGanglia) : Int := truncQ bg.Motivation

/-- The method `getCurrentMoodTendency`. -/
def Brain.getCurrentMoodTendency (b : Brain) : String :=
  let sanity := b.PFC.Sanity
  let motivation := b.BasalGanglia.GetMotivation
  if sanity < 30 ∨ motivation < 30 then "negative"
  else if sanity > 70 ∧ motivation > 70 then "positive"
  else "neutral"

/-- The method `getCurrentEmotions`: the emotions and the brain after the call. -/
def Brain.getCurrentEmotions (b : Brain) : List EmotionValue × Brain :=
  let r := b.Hippocampus.GetRecentContext
  let b : Brain := { b with Hippocampus := r.2 }
  match r.1 with
  | [] => ([⟨EmotionNeutral, 50⟩], b)
  | m :: _ => (m.Emotions, b)

/-- The method `WanderMind` as far as it acts on the modules embedded here: the
result is the list of recalled memories, from which the method builds its log text
and the hormone updates of `ruminateOnMemory` (module hypothalamus); `none` is a
run-time panic of the selection. `duration` counts nanoseconds; the `Hippocampus`
field is not nil. -/
def Brain.WanderMind (b : Brain) (duration : Int) (clock : Nat → Int) (perm : List Nat)
    (rnd : Nat → ℚ) : Option (List RuneMemory) × Brain :=
  let hours : Int := truncQ (durationHours duration)
  let recallCount := hours
  let recallCount := if recallCount > 5 then 5 else recallCount
  let recallCount := if recallCount < 1 then 1 else recallCount
  let currentMood := b.getCurrentMoodTendency
  let r := b.getCurrentEmotions
  let currentEmotions := r.1
  let b : Brain := r.2
  b.recallMemoriesWithReconsolidation clock recallCount currentMood currentEmotions perm rnd

/-- State of the memory unit after `n` successive calls of
`GetRecentContextWithReconsolidation`; the `j`-th call (from 0) reads the clock
`clocks j` and blends with the emotions `currents j`. -/
def Hippocampus.recallTimes (h : Hippocampus) (clocks : Nat → Nat → Int)
    (currents : Nat → List EmotionValue) : Nat → Hippocampus
  | 0 => h
  | n + 1 =>
    ((h.recallTimes clocks currents n).GetRecentContextWithReconsolidation
      (clocks n) (currents n)).2

/-- A memory unit without store whose buffer holds the two example memories. -/
def twoMemories : Hippocampus :=
  { Hippocampus.New none with STM := [importantMemory, trivialMemory] }

/-! ### Notions of the specification (recall, selection, variance) -/

/-- Sum of the selection weights of a pool. -/
def poolWeight (pool : List weightedMemory) : ℚ := (pool.map weightedMemory.weight).sum

/-- The value C34 states for a negative-category entry that is not recoded. -/
def suppressedSpec (s : Int) (stress : ℚ) (v : Int) : Int :=
  let b : ℚ := if stress > 50 then 1 + (stress - 50) / 100 else 1
  let rate : ℚ :=
    if stress > 50 then ((s : ℚ) / 100) * (1 - (stress - 50) / 100) else (s : ℚ) / 100
  max 0 (min (truncQ ((v : ℚ) * b - (v : ℚ) * b * rate * (1 / 2))) 100)

/-! ### Notions of the specification (store rows, analyser, rounded formulas) -/

/-- The short-tier memories that reach the consolidation threshold, in buffer order. -/
def Hippocampus.qualifying (h : Hippocampus) : List RuneMemory :=
  h.STM.filter (fun m => decide (h.consolidationThreshold ≤ m.Weight))

/-- The rows written for the memories `q` when the save of the `i`-th of them reads
the clock `clock (k + i)`. -/
def savedRows (clock : Nat → Int) : Nat → List RuneMemory → List RuneMemory
  | _, [] => []
  | k, m :: rest => savedRow m (clock k) :: savedRows clock (k + 1) rest

/-- The table after the memories `q` were saved into the table `rows`: the rows with
another identifier, followed by the rows written for `q`. -/
def rowsAfterSaving (rows : List RuneMemory) (clock : Nat → Int) (q : List RuneMemory) :
    List RuneMemory :=
  rows.filter (fun x => !(q.map RuneMemory.UUID).contains x.UUID) ++ savedRows clock 0 q

/-- The contract of an analyser built with the option `OmitBosEos`, as `amygdala.New`
builds it: the sentence delimiters, which are the tokens of class `DUMMY`, are left out
of every result. -/
def OmitBosEos (tokenizer : String → List Token) : Prop :=
  ∀ text, ∀ t ∈ tokenizer text, t.Class ≠ TokenClass.DUMMY

/-- The product `v * b` of C34 in float64 arithmetic: the intensity, multiplied by
`b = 1 + (stress - 50)/100` when stress exceeds 50. -/
def boostedF64 (stress : ℚ) (v : Int) : ℚ :=
  if stress > 50 then f64 (f64 (v : ℚ) * f64 (1 + f64 (f64 (stress - 50) / 100)))
  else f64 (v : ℚ)

/-- The rate of C34 in float64 arithmetic: `s/100`, multiplied by
`1 - (stress - 50)/100` when stress exceeds 50. -/
def rateF64 (s : Int) (stress : ℚ) : ℚ :=
  if stress > 50 then
    f64 (f64 (f64 (s : ℚ) / 100) * f64 (1 - f64 (f64 (stress - 50) / 100)))
  else f64 (f64 (s : ℚ) / 100)

/-- The value `clamp(trunc(v*b - v*b*rate*0.5), 0, 100)` C34 states for a
negative-category entry that is not recoded, the formula evaluated in float64
arithmetic in the order of the source. -/
def suppressedF64 (s : Int) (stress : ℚ) (v : Int) : Int :=
  max 0 (min (truncQ (f64 (boostedF64 stress v -
    f64 (f64 (boostedF64 stress v * rateF64 s stress) * (1 / 2))))) 100)

/-- The product `intensity * empathyLevel * 0.5` of C22 and C23 evaluated in float64
arithmetic, from left to right. -/
def contagionF64 (v : Int) (e : ℚ) : ℚ := f64 (f64 (f64 (v : ℚ) * e) * (1 / 2))

/-- The product `v * g` of C29 evaluated in float64 arithmetic. -/
def productF64 (v : Int) (g : ℚ) : ℚ := f64 (f64 (v : ℚ) * g)

/-- The reward `(v * g + 100) / 2` of C29 evaluated in float64 arithmetic. -/
def rewardF64 (v : Int) (g : ℚ) : ℚ := f64 (f64 (productF64 v g + 100) / 2)

/-- The value `50 + 0.95 * (M - 50)` of C31 as the source evaluates it in float64
arithmetic: above 50 as `50 + (M - 50) * 0.95`, below 50 as `50 - (50 - M) * 0.95`. -/
def decayF64 (M : ℚ) : ℚ :=
  if M > 50 then f64 (50 + f64 (f64 (M - 50) * f64 (95 / 100)))
  else if M < 50 then f64 (50 - f64 (f64 (50 - M) * f64 (95 / 100)))
  else M

/-! ## Theorems -/

/-! ### Rounding to float64 -/

theorem roundHalfEven_floor (q : ℚ) :
    ⌊q⌋ ≤ roundHalfEven q ∧ roundHalfEven q ≤ ⌊q⌋ + 1 := by
  unfold roundHalfEven
  split_ifs <;> omega

theorem roundHalfEven_near (q : ℚ) :
    (roundHalfEven q : ℚ) - q ≤ 1 / 2 ∧ q - (roundHalfEven q : ℚ) ≤ 1 / 2 := by
  have h1 := Int.floor_le q
  have h2 := Int.lt_floor_add_one q
  unfold roundHalfEven
  split_ifs <;> push_cast <;> constructor <;> linarith

theorem roundHalfEven_intCast (n : Int) : roundHalfEven (n : ℚ) = n := by
  unfold roundHalfEven
  rw [Int.floor_intCast, sub_self, if_pos (by norm_num)]

theorem roundHalfEven_mono {q q' : ℚ} (h : q ≤ q') : roundHalfEven q ≤ roundHalfEven q' := by
  have hf : ⌊q⌋ ≤ ⌊q'⌋ := Int.floor_mono h
  by_cases hlt : ⌊q⌋ < ⌊q'⌋
  · have h1 := (roundHalfEven_floor q).2
    have h2 := (roundHalfEven_floor q').1
    omega
  · have heq : ⌊q⌋ = ⌊q'⌋ := le_antisymm hf (not_lt.mp hlt)
    unfold roundHalfEven
    rw [heq]
    split_ifs <;> first | omega | (exfalso; linarith)

theorem ulp_pos (a : ℚ) : 0 < ulp a := by
  unfold ulp
  positivity

theorem two_zpow_le {m n : Int} (h : m ≤ n) : (2 : ℚ) ^ m ≤ (2 : ℚ) ^ n :=
  zpow_le_zpow_right₀ (by norm_num) h

/-- A positive value lies below `2^53` units in the last place. -/
theorem lt_ulp_mul (a : ℚ) : a < 2 ^ (53 : Int) * ulp a := by
  have h1 : a < ((2 : ℕ) : ℚ) ^ (Int.log 2 a + 1) := Int.lt_zpow_succ_log_self (by norm_num) a
  rw [Nat.cast_ofNat] at h1
  have h2 : (2 : ℚ) ^ (Int.log 2 a + 1) ≤ (2 : ℚ) ^ (max (Int.log 2 a) (-1022) + 1) :=
    two_zpow_le (by omega)
  have h3 : (2 : ℚ) ^ (53 : Int) * ulp a = (2 : ℚ) ^ (max (Int.log 2 a) (-1022) + 1) := by
    unfold ulp
    rw [← zpow_add₀ (by norm_num : (2 : ℚ) ≠ 0)]
    congr 1
    omega
  rw [h3]
  exact lt_of_lt_of_le h1 h2

/-- A value in the normal range is at least `2^52` units in the last place. -/
theorem ulp_mul_le {a : ℚ} (ha : 0 < a) (hn : (-1022 : Int) ≤ Int.log 2 a) :
    2 ^ (52 : Int) * ulp a ≤ a := by
  have h1 : ((2 : ℕ) : ℚ) ^ (Int.log 2 a) ≤ a := Int.zpow_log_le_self (by norm_num) ha
  rw [Nat.cast_ofNat] at h1
  have h3 : (2 : ℚ) ^ (52 : Int) * ulp a = (2 : ℚ) ^ (Int.log 2 a) := by
    unfold ulp
    rw [max_eq_left hn, ← zpow_add₀ (by norm_num : (2 : ℚ) ≠ 0)]
    congr 1
    omega
  rw [h3]
  exact h1

theorem ulp_eq_of_binade {a : ℚ} (k : Int) (hk : -1022 ≤ k) (h1 : (2 : ℚ) ^ k ≤ a)
    (h2 : a < (2 : ℚ) ^ (k + 1)) : ulp a = (2 : ℚ) ^ (k - 52) := by
  have ha : 0 < a := lt_of_lt_of_le (by positivity) h1
  have hl1 : k ≤ Int.log 2 a := by
    apply (Int.zpow_le_iff_le_log (by norm_num) ha).mp
    rw [Nat.cast_ofNat]
    exact h1
  have hl2 : Int.log 2 a < k + 1 := by
    apply (Int.lt_zpow_iff_log_lt (by norm_num) ha).mp
    rw [Nat.cast_ofNat]
    exact h2
  have hl : Int.log 2 a = k := by omega
  unfold ulp
  rw [hl, max_eq_left hk]

theorem f64_of_nonneg {a : ℚ} (ha : 0 ≤ a) :
    f64 a = (roundHalfEven (a / ulp a) : ℚ) * ulp a := by
  unfold f64
  rw [if_neg (not_lt.mpr ha)]

theorem f64_zero : f64 0 = 0 := by
  rw [f64_of_nonneg (le_refl 0), zero_div]
  have := roundHalfEven_intCast 0
  rw [Int.cast_zero] at this
  rw [this]
  simp

theorem f64_of_neg {a : ℚ} (ha : a < 0) : f64 a = -f64 (-a) := by
  rw [f64_of_nonneg (by linarith : (0 : ℚ) ≤ -a)]
  unfold f64
  rw [if_pos ha]

theorem f64_neg (a : ℚ) : f64 (-a) = -f64 a := by
  rcases lt_trichotomy a 0 with h | h | h
  · rw [f64_of_neg h, neg_neg]
  · rw [h, neg_zero, f64_zero, neg_zero]
  · rw [f64_of_neg (by linarith : -a < 0), neg_neg]

theorem f64_nonneg {a : ℚ} (ha : 0 ≤ a) : 0 ≤ f64 a := by
  rw [f64_of_nonneg ha]
  have h0 : (0 : ℚ) ≤ a / ulp a := div_nonneg ha (ulp_pos a).le
  have h1 := roundHalfEven_mono h0
  have h2 := roundHalfEven_intCast 0
  rw [Int.cast_zero] at h2
  rw [h2] at h1
  exact mul_nonneg (by exact_mod_cast h1) (ulp_pos a).le

/-- The rounded value of a positive number is at most `2^53` units in the last place. -/
theorem f64_le_top {a : ℚ} (ha : 0 < a) : f64 a ≤ 2 ^ (53 : Int) * ulp a := by
  rw [f64_of_nonneg ha.le]
  have h0 : a / ulp a ≤ ((2 ^ 53 : Int) : ℚ) := by
    rw [div_le_iff₀ (ulp_pos a)]
    have := lt_ulp_mul a
    push_cast
    have h53 : (2 : ℚ) ^ (53 : Int) = (2 : ℚ) ^ (53 : ℕ) := by norm_num
    rw [h53] at this
    linarith
  have h1 := roundHalfEven_mono h0
  rw [roundHalfEven_intCast] at h1
  have h2 : (roundHalfEven (a / ulp a) : ℚ) ≤ 2 ^ (53 : Int) := by
    have : (roundHalfEven (a / ulp a) : ℚ) ≤ ((2 ^ 53 : Int) : ℚ) := by exact_mod_cast h1
    have h53 : ((2 ^ 53 : Int) : ℚ) = (2 : ℚ) ^ (53 : Int) := by norm_num
    rw [h53] at this
    exact this
  exact mul_le_mul_of_nonneg_right h2 (ulp_pos a).le

theorem f64_ge_bot {a : ℚ} (ha : 0 < a) (hn : (-1022 : Int) ≤ Int.log 2 a) :
    2 ^ (52 : Int) * ulp a ≤ f64 a := by
  rw [f64_of_nonneg ha.le]
  have h0 : ((2 ^ 52 : Int) : ℚ) ≤ a / ulp a := by
    rw [le_div_iff₀ (ulp_pos a)]
    have := ulp_mul_le ha hn
    push_cast
    have h52 : (2 : ℚ) ^ (52 : Int) = (2 : ℚ) ^ (52 : ℕ) := by norm_num
    rw [h52] at this
    linarith
  have h1 := roundHalfEven_mono h0
  rw [roundHalfEven_intCast] at h1
  have h2 : (2 : ℚ) ^ (52 : Int) ≤ (roundHalfEven (a / ulp a) : ℚ) := by
    have : ((2 ^ 52 : Int) : ℚ) ≤ (roundHalfEven (a / ulp a) : ℚ) := by exact_mod_cast h1
    have h52 : ((2 ^ 52 : Int) : ℚ) = (2 : ℚ) ^ (52 : Int) := by norm_num
    rw [h52] at this
    exact this
  exact mul_le_mul_of_nonneg_right h2 (ulp_pos a).le

theorem f64_mono_pos {a b : ℚ} (ha : 0 < a) (h : a ≤ b) : f64 a ≤ f64 b := by
  have hb : 0 < b := lt_of_lt_of_le ha h
  have hlog : Int.log 2 a ≤ Int.log 2 b := Int.log_mono_right ha h
  by_cases he : max (Int.log 2 a) (-1022) = max (Int.log 2 b) (-1022)
  · have hu : ulp a = ulp b := by unfold ulp; rw [he]
    rw [f64_of_nonneg ha.le, f64_of_nonneg hb.le, hu]
    have hq : a / ulp b ≤ b / ulp b := div_le_div_of_nonneg_right h (ulp_pos b).le
    have := roundHalfEven_mono hq
    exact mul_le_mul_of_nonneg_right (by exact_mod_cast this) (ulp_pos b).le
  · have hn : (-1022 : Int) ≤ Int.log 2 b := by omega
    have hlt : max (Int.log 2 a) (-1022) + 1 ≤ Int.log 2 b := by omega
    have h1 := f64_le_top ha
    have h2 := f64_ge_bot hb hn
    have h3 : (2 : ℚ) ^ (53 : Int) * ulp a ≤ 2 ^ (52 : Int) * ulp b := by
      unfold ulp
      rw [max_eq_left hn, ← zpow_add₀ (by norm_num : (2 : ℚ) ≠ 0),
        ← zpow_add₀ (by norm_num : (2 : ℚ) ≠ 0)]
      exact two_zpow_le (by omega)
    linarith

/-- Rounding to float64 is monotone. -/
theorem f64_mono {a b : ℚ} (h : a ≤ b) : f64 a ≤ f64 b := by
  rcases lt_trichotomy a 0 with ha | ha | ha
  · rcases lt_trichotomy b 0 with hb | hb | hb
    · rw [f64_of_neg ha, f64_of_neg hb]
      have := f64_mono_pos (by linarith : (0 : ℚ) < -b) (by linarith : -b ≤ -a)
      linarith
    · rw [hb, f64_zero, f64_of_neg ha]
      have := f64_nonneg (by linarith : (0 : ℚ) ≤ -a)
      linarith
    · rw [f64_of_neg ha]
      have h1 := f64_nonneg (by linarith : (0 : ℚ) ≤ -a)
      have h2 := f64_nonneg hb.le
      linarith
  · rw [ha, f64_zero]
    exact f64_nonneg (by linarith)
  · exact f64_mono_pos ha h

/-- The rounding error is at most half a unit in the last place. -/
theorem f64_error_ulp {a : ℚ} (ha : 0 ≤ a) : |f64 a - a| ≤ ulp a / 2 := by
  rw [f64_of_nonneg ha]
  have hu := ulp_pos a
  have hn := roundHalfEven_near (a / ulp a)
  have hmul : a / ulp a * ulp a = a := div_mul_cancel₀ a hu.ne'
  rw [abs_le]
  constructor
  · have := mul_le_mul_of_nonneg_right hn.2 hu.le
    rw [sub_mul, hmul] at this
    linarith
  · have := mul_le_mul_of_nonneg_right hn.1 hu.le
    rw [sub_mul, hmul] at this
    linarith

theorem ulp_le {a : ℚ} (ha : 0 < a) :
    ulp a ≤ 2 ^ (-52 : Int) * a + 2 ^ (-1074 : Int) := by
  by_cases hn : (-1022 : Int) ≤ Int.log 2 a
  · have h := ulp_mul_le ha hn
    have h52 : (2 : ℚ) ^ (-52 : Int) * (2 ^ (52 : Int) * ulp a) = ulp a := by
      rw [← mul_assoc, ← zpow_add₀ (by norm_num : (2 : ℚ) ≠ 0)]
      norm_num
    have hp : (0 : ℚ) < 2 ^ (-52 : Int) := by positivity
    have hq : (0 : ℚ) < 2 ^ (-1074 : Int) := by positivity
    have := mul_le_mul_of_nonneg_left h hp.le
    rw [h52] at this
    linarith
  · have hu : ulp a = 2 ^ (-1074 : Int) := by
      unfold ulp
      rw [max_eq_right (by omega)]
      norm_num
    have hp : (0 : ℚ) < 2 ^ (-52 : Int) := by positivity
    have := mul_pos hp ha
    linarith

/-- The relative error of rounding to float64 is at most `2^-53`, up to the absolute
error `2^-1075` in the subnormal range. -/
theorem f64_error (a : ℚ) : |f64 a - a| ≤ 2 ^ (-53 : Int) * |a| + 2 ^ (-1075 : Int) := by
  have key : ∀ x : ℚ, 0 ≤ x → |f64 x - x| ≤ 2 ^ (-53 : Int) * x + 2 ^ (-1075 : Int) := by
    intro x hx
    rcases hx.eq_or_lt with h0 | hpos
    · rw [← h0, f64_zero]
      norm_num
    · have h1 := f64_error_ulp hx
      have h2 := ulp_le hpos
      have e1 : (2 : ℚ) ^ (-53 : Int) = 2 ^ (-52 : Int) / 2 := by norm_num
      have e2 : (2 : ℚ) ^ (-1075 : Int) = 2 ^ (-1074 : Int) / 2 := by
        rw [show (-1075 : Int) = -1074 + -1 by norm_num,
          zpow_add₀ (by norm_num : (2 : ℚ) ≠ 0)]
        norm_num
      have e3 : (2 : ℚ) ^ (-53 : Int) * x + 2 ^ (-1075 : Int) =
          (2 ^ (-52 : Int) * x + 2 ^ (-1074 : Int)) / 2 := by
        rw [e1, e2]
        ring
      rw [e3]
      exact le_trans h1 (div_le_div_of_nonneg_right h2 (by norm_num))
  rcases le_or_lt 0 a with ha | ha
  · rw [abs_of_nonneg ha]
    exact key a ha
  · rw [f64_of_neg ha, abs_of_neg ha]
    have := key (-a) (by linarith)
    rw [show -f64 (-a) - a = -(f64 (-a) - -a) by ring, abs_neg]
    exact this

/-- A dyadic rational with a mantissa below `2^53` and an exponent of at least
`-1074` is a float64 value: rounding leaves it as it is. -/
theorem f64_dyadic (N j : Int) (hN : |N| < 2 ^ 53) (hj : -1074 ≤ j) :
    f64 ((N : ℚ) * 2 ^ j) = (N : ℚ) * 2 ^ j := by
  have key : ∀ M : Int, 0 < M → M < 2 ^ 53 → f64 ((M : ℚ) * 2 ^ j) = (M : ℚ) * 2 ^ j := by
    intro M hM0 hM1
    have hMq : (0 : ℚ) < (M : ℚ) := by exact_mod_cast hM0
    have hpj : (0 : ℚ) < (2 : ℚ) ^ j := by positivity
    have ha : 0 < (M : ℚ) * 2 ^ j := mul_pos hMq hpj
    have hlt : (M : ℚ) * 2 ^ j < (2 : ℚ) ^ (53 + j) := by
      rw [zpow_add₀ (by norm_num : (2 : ℚ) ≠ 0)]
      have : (M : ℚ) < (2 : ℚ) ^ (53 : Int) := by
        have h' : (M : ℚ) < ((2 ^ 53 : Int) : ℚ) := by exact_mod_cast hM1
        have h53 : ((2 ^ 53 : Int) : ℚ) = (2 : ℚ) ^ (53 : Int) := by norm_num
        rw [h53] at h'
        exact h'
      exact mul_lt_mul_of_pos_right this hpj
    have hlog : Int.log 2 ((M : ℚ) * 2 ^ j) < 53 + j := by
      apply (Int.lt_zpow_iff_log_lt (by norm_num) ha).mp
      rw [Nat.cast_ofNat]
      exact hlt
    have hexp : max (Int.log 2 ((M : ℚ) * 2 ^ j)) (-1022) - 52 ≤ j := by omega
    obtain ⟨n, hn⟩ := Int.eq_ofNat_of_zero_le (sub_nonneg.mpr hexp)
    have hu : ulp ((M : ℚ) * 2 ^ j) * 2 ^ n = (2 : ℚ) ^ j := by
      unfold ulp
      rw [← zpow_natCast, ← zpow_add₀ (by norm_num : (2 : ℚ) ≠ 0)]
      congr 1
      omega
    have hup := ulp_pos ((M : ℚ) * 2 ^ j)
    rw [f64_of_nonneg ha.le]
    generalize ulp ((M : ℚ) * 2 ^ j) = u at hu hup ⊢
    have hquot : (M : ℚ) * 2 ^ j / u = ((M * 2 ^ n : Int) : ℚ) := by
      rw [div_eq_iff hup.ne', ← hu]
      push_cast
      ring
    rw [hquot, roundHalfEven_intCast, ← hu]
    push_cast
    ring
  rcases lt_trichotomy N 0 with h | h | h
  · have hneg := key (-N) (by omega) (by rw [abs_of_neg h] at hN; exact hN)
    have e : (N : ℚ) * 2 ^ j = -(((-N : Int) : ℚ) * 2 ^ j) := by push_cast; ring
    rw [e, f64_neg, hneg]
  · rw [h]
    simp [f64_zero]
  · exact key N h (by rw [abs_of_pos h] at hN; exact hN)

/-- The conversion of an integer below `2^53` in magnitude to float64 is exact. -/
theorem f64_intCast (n : Int) (hn : |n| < 2 ^ 53) : f64 (n : ℚ) = n := by
  have := f64_dyadic n 0 hn (by norm_num)
  simpa using this

/-- Evaluation of a rounding: a value of the binade `[2^k, 2^(k+1))` goes to the
multiple of `2^(k-52)` that `roundHalfEven` selects. -/
theorem f64_eval {a : ℚ} (k : Int) (N : Int) (hk : -1022 ≤ k) (h1 : (2 : ℚ) ^ k ≤ a)
    (h2 : a < (2 : ℚ) ^ (k + 1)) (hN : roundHalfEven (a / 2 ^ (k - 52)) = N) :
    f64 a = (N : ℚ) * 2 ^ (k - 52) := by
  have ha : 0 < a := lt_of_lt_of_le (by positivity) h1
  rw [f64_of_nonneg ha.le, ulp_eq_of_binade k hk h1 h2, hN]

/-- A rational of the form `N * 2 ^ j` with `|N| < 2 ^ 53` and `j ≥ -1074` is a float64
value. -/
theorem f64_exact {q : ℚ} (N j : Int) (hN : |N| < 2 ^ 53) (hj : -1074 ≤ j)
    (hq : q = (N : ℚ) * 2 ^ j) : f64 q = q := by
  rw [hq]
  exact f64_dyadic N j hN hj

theorem f64_le {a b : ℚ} (h : a ≤ b) (hb : f64 b = b) : f64 a ≤ b := by
  have := f64_mono h
  rw [hb] at this
  exact this

theorem le_f64 {a b : ℚ} (h : a ≤ b) (ha : f64 a = a) : a ≤ f64 b := by
  have := f64_mono h
  rw [ha] at this
  exact this

/-- Rounding a value of magnitude at most 200 changes it by at most `2.5e-14`. -/
theorem f64_error_small {a : ℚ} (h : |a| ≤ 200) : |f64 a - a| ≤ 1 / 40000000000000 := by
  have h1 := f64_error a
  have h2 : (2 : ℚ) ^ (-53 : Int) * |a| ≤ 2 ^ (-53 : Int) * 200 :=
    mul_le_mul_of_nonneg_left h (by positivity)
  have h3 : (2 : ℚ) ^ (-53 : Int) * 200 + 2 ^ (-1075 : Int) ≤ 1 / 40000000000000 := by
    have e : (2 : ℚ) ^ (-1075 : Int) ≤ 2 ^ (-53 : Int) := two_zpow_le (by norm_num)
    have e2 : (2 : ℚ) ^ (-53 : Int) = 1 / 9007199254740992 := by norm_num
    rw [e2] at e ⊢
    linarith
  exact le_trans h1 (le_trans (add_le_add_right h2 _) h3)

theorem f64_hundred : f64 (100 : ℚ) = 100 := by
  simpa using f64_intCast 100 (by norm_num)

theorem f64_fifty : f64 (50 : ℚ) = 50 := by
  simpa using f64_intCast 50 (by norm_num)

/-- Rounding a value of magnitude at most 50 changes it by at most `6.25e-15`. -/
theorem f64_error_fifty {a : ℚ} (h : |a| ≤ 50) : |f64 a - a| ≤ 1 / 160000000000000 := by
  have h1 := f64_error a
  have h2 : (2 : ℚ) ^ (-53 : Int) * |a| ≤ 2 ^ (-53 : Int) * 50 :=
    mul_le_mul_of_nonneg_left h (by positivity)
  have h3 : (2 : ℚ) ^ (-53 : Int) * 50 + 2 ^ (-1075 : Int) ≤ 1 / 160000000000000 := by
    have e : (2 : ℚ) ^ (-1075 : Int) ≤ 2 ^ (-63 : Int) := two_zpow_le (by norm_num)
    have e2 : (2 : ℚ) ^ (-53 : Int) = 1 / 9007199254740992 := by norm_num
    have e3 : (2 : ℚ) ^ (-63 : Int) = 1 / 9223372036854775808 := by norm_num
    rw [e3] at e
    rw [e2]
    linarith
  exact le_trans h1 (le_trans (add_le_add_right h2 _) h3)

/-- The float64 values of `[32, 64)` are the multiples of `2^-47` in that range. -/
theorem f64_grid {M : ℚ} (hf : f64 M = M) (h1 : 32 ≤ M) (h2 : M < 64) :
    ∃ N : Int, M = (N : ℚ) / 140737488355328 := by
  have hb1 : (2 : ℚ) ^ (5 : Int) ≤ M := by
    norm_num
    exact h1
  have hb2 : M < (2 : ℚ) ^ ((5 : Int) + 1) := by
    norm_num
    exact h2
  have e := ulp_eq_of_binade 5 (by norm_num) hb1 hb2
  rw [f64_of_nonneg (by linarith), e] at hf
  refine ⟨roundHalfEven (M / 2 ^ ((5 : Int) - 52)), ?_⟩
  have e47 : (2 : ℚ) ^ ((5 : Int) - 52) = 1 / 140737488355328 := by norm_num
  rw [e47] at hf ⊢
  rw [div_eq_mul_one_div]
  exact hf.symm

/-- Rounding a value of magnitude at most 200 that is within `d` of `t` gives a value
within `d + 2.5e-14` of `t`. -/
theorem f64_stage {a t d : ℚ} (h : |a - t| ≤ d) (ha : |a| ≤ 200) :
    |f64 a - t| ≤ d + 1 / 40000000000000 := by
  have e := f64_error_small ha
  have := abs_sub_le (f64 a) a t
  linarith

theorem truncQ_mono {a b : ℚ} (h : a ≤ b) : truncQ a ≤ truncQ b := by
  unfold truncQ
  split_ifs with ha hb hb
  · exact Int.floor_mono h
  · exact absurd (le_trans ha h) hb
  · have h1 : ⌈a⌉ ≤ 0 := Int.ceil_le.mpr (by push_cast; linarith)
    have h2 : 0 ≤ ⌊b⌋ := Int.floor_nonneg.mpr hb
    omega
  · exact Int.ceil_mono h

theorem truncQ_add_one_le (a : ℚ) : truncQ (a + 1) ≤ truncQ a + 1 := by
  unfold truncQ
  split_ifs with h1 h0 h0
  · rw [Int.floor_add_one]
  · have hf : ⌊a + 1⌋ ≤ 0 := by
      have : ⌊a + 1⌋ < 1 := Int.floor_lt.mpr (by push_cast; linarith)
      omega
    have hc : -1 ≤ ⌈a⌉ := by
      have : (-1 : ℚ) ≤ a := by linarith
      have h2 : ((-1 : Int) : ℚ) ≤ a := by push_cast; exact this
      have h3 := Int.ceil_mono h2
      rw [Int.ceil_intCast] at h3
      exact h3
    omega
  · exfalso; linarith
  · rw [Int.ceil_add_one]

/-- Values at distance at most 1 have truncations at distance at most 1. -/
theorem truncQ_close {a b : ℚ} (h : |a - b| ≤ 1) : |truncQ a - truncQ b| ≤ 1 := by
  rw [abs_le] at h ⊢
  have h1 := truncQ_mono (show a ≤ b + 1 by linarith)
  have h2 := truncQ_mono (show b ≤ a + 1 by linarith)
  have h3 := truncQ_add_one_le a
  have h4 := truncQ_add_one_le b
  constructor <;> omega

/-! ### Truncation -/

theorem truncQ_nonneg {q : ℚ} (h : 0 ≤ q) : 0 ≤ truncQ q := by
  unfold truncQ
  rw [if_pos h]
  exact Int.floor_nonneg.mpr h

theorem truncQ_le_of_nonneg {q : ℚ} (h : 0 ≤ q) : (truncQ q : ℚ) ≤ q := by
  unfold truncQ
  rw [if_pos h]
  exact Int.floor_le q

theorem truncQ_nonpos {q : ℚ} (h : q < 0) : truncQ q ≤ 0 := by
  unfold truncQ
  rw [if_neg (not_le.mpr h)]
  exact Int.ceil_le.mpr (by exact_mod_cast h.le)

theorem truncQ_lt_of_lt {q : ℚ} {n : Int} (hn : 0 < n) (h : q < n) : truncQ q < n := by
  by_cases h0 : 0 ≤ q
  · have := truncQ_le_of_nonneg h0
    have h1 : (truncQ q : ℚ) < n := lt_of_le_of_lt this h
    exact_mod_cast h1
  · exact lt_of_le_of_lt (truncQ_nonpos (not_le.mp h0)) hn

theorem truncQ_pos_of_one_le {q : ℚ} (h : 1 ≤ q) : 1 ≤ truncQ q := by
  unfold truncQ
  rw [if_pos (le_trans zero_le_one h)]
  exact Int.le_floor.mpr (by exact_mod_cast h)

/-! ### Arbitration -/

theorem suppressionRate_nonneg {s : Int} {cortisol : ℚ} (hs : 30 ≤ s) (hc : cortisol ≤ 100) :
    0 ≤ (if cortisol > 50 then ((s : ℚ) / 100) * (1 - (cortisol - 50) / 100)
      else (s : ℚ) / 100) := by
  have h1 : (0 : ℚ) ≤ (s : ℚ) / 100 := by
    have : (30 : ℚ) ≤ (s : ℚ) := by exact_mod_cast hs
    linarith
  split_ifs with h
  · apply mul_nonneg h1
    linarith
  · exact h1

theorem arbitrateStep_range {rate cortisol oxytocin r : ℚ} {e : EmotionValue}
    (hrate : 0 ≤ rate) (h0 : 0 ≤ e.Value) (h100 : e.Value ≤ 100) :
    0 ≤ (arbitrateStep rate cortisol oxytocin r e).1.Value ∧
      (arbitrateStep rate cortisol oxytocin r e).1.Value ≤ 100 := by
  unfold arbitrateStep
  by_cases hn : isNegativeCode e.Code = true
  · simp only [hn, if_true]
    constructor <;> split_ifs <;> omega
  · by_cases hp : isPositiveCode e.Code = true
    · simp only [hn, hp, if_true]
      have hb : 0 ≤ truncQ ((e.Value : ℚ) * rate * (1 / 10)) := by
        apply truncQ_nonneg
        have : (0 : ℚ) ≤ (e.Value : ℚ) := by exact_mod_cast h0
        positivity
      constructor <;> split_ifs <;> simp only [Bool.false_eq_true, if_false] <;> omega
    · simp only [hn, hp, Bool.false_eq_true, if_false]
      exact ⟨h0, h100⟩

theorem arbitrateLoop_range {rate cortisol oxytocin : ℚ} {rnd : Nat → ℚ} (hrate : 0 ≤ rate) :
    ∀ (raw : List EmotionValue) (k : Nat), InRange raw →
      InRange (arbitrateLoop rate cortisol oxytocin rnd k raw) := by
  intro raw
  induction raw with
  | nil => intro k _ e he; simp [arbitrateLoop] at he
  | cons a rest ih =>
    intro k h e he
    simp only [arbitrateLoop, List.mem_cons] at he
    rcases he with he | he
    · subst he
      exact arbitrateStep_range hrate (h a (List.mem_cons_self _ _)).1
        (h a (List.mem_cons_self _ _)).2
    · exact ih _ (fun x hx => h x (List.mem_cons_of_mem _ hx)) e he

/-- The only change of code the loop body can make: Anger becomes Grief, and only
when the affiliation level exceeds 50. -/
theorem arbitrateStep_code (rate cortisol oxytocin r : ℚ) (e : EmotionValue) :
    (arbitrateStep rate cortisol oxytocin r e).1.Code = e.Code ∨
      (e.Code = EmotionAnger ∧ (arbitrateStep rate cortisol oxytocin r e).1.Code = EmotionGrief
        ∧ 50 < oxytocin) := by
  unfold arbitrateStep
  by_cases hn : isNegativeCode e.Code = true
  · simp only [hn, if_true]
    by_cases hc : ((e.Code == EmotionAnger && decide (oxytocin > 50)) &&
        decide (r < (oxytocin - 50) / 100)) = true
    · right
      simp only [hc, if_true]
      simp only [Bool.and_eq_true, beq_iff_eq, decide_eq_true_eq] at hc
      exact ⟨hc.1.1, trivial, hc.1.2⟩
    · left
      simp only [hc, Bool.false_eq_true, if_false]
  · left
    by_cases hp : isPositiveCode e.Code = true
    · simp only [hn, hp, Bool.false_eq_true, if_false, if_true]
    · simp only [hn, hp, Bool.false_eq_true, if_false]

theorem arbitrateLoop_recoded (rate cortisol oxytocin : ℚ) (rnd : Nat → ℚ) :
    ∀ (raw : List EmotionValue) (k : Nat),
      List.Forall₂ (Recoded oxytocin) raw (arbitrateLoop rate cortisol oxytocin rnd k raw) := by
  intro raw
  induction raw with
  | nil => intro k; simp [arbitrateLoop]
  | cons a rest ih =>
    intro k
    simp only [arbitrateLoop]
    exact List.Forall₂.cons (arbitrateStep_code rate cortisol oxytocin (rnd k) a) (ih _)

theorem recoded_mem {oxytocin : ℚ} {l l' : List EmotionValue}
    (h : List.Forall₂ (Recoded oxytocin) l l') {c : EmotionCode}
    (hc : c ∈ l'.map EmotionValue.Code) :
    c ∈ l.map EmotionValue.Code ∨
      (c = EmotionGrief ∧ EmotionAnger ∈ l.map EmotionValue.Code ∧ 50 < oxytocin) := by
  induction h with
  | nil => simp at hc
  | cons hab _ ih =>
    rename_i a b l₁ l₂
    simp only [List.map_cons, List.mem_cons] at hc ⊢
    rcases hc with hc | hc
    · rcases hab with hab | ⟨h1, h2, h3⟩
      · left; left; rw [hc, hab]
      · right; exact ⟨by rw [hc, h2], Or.inl h1.symm, h3⟩
    · rcases ih hc with h1 | ⟨h1, h2, h3⟩
      · left; right; exact h1
      · right; exact ⟨h1, Or.inr h2, h3⟩

/-- Uniqueness of codes survives the loop when no recoded Anger entry can meet a
Grief entry. -/
theorem recoded_nodup {oxytocin : ℚ} {l l' : List EmotionValue}
    (h : List.Forall₂ (Recoded oxytocin) l l') (hnd : UniqueCodes l)
    (hsafe : oxytocin ≤ 50 ∨ EmotionAnger ∉ l.map EmotionValue.Code ∨
      EmotionGrief ∉ l.map EmotionValue.Code) :
    UniqueCodes l' := by
  unfold UniqueCodes at *
  induction h with
  | nil => simp
  | cons hab hrest ih =>
    rename_i a b l₁ l₂
    simp only [List.map_cons, List.nodup_cons, List.mem_cons, not_or] at hnd hsafe ⊢
    refine ⟨?_, ih hnd.2 ?_⟩
    · intro hb
      rcases recoded_mem hrest hb with h1 | ⟨h1, h2, h3⟩
      · rcases hab with hab | ⟨e1, e2, e3⟩
        · rw [hab] at h1; exact hnd.1 h1
        · rcases hsafe with hs | hs | hs
          · exact absurd e3 (not_lt.mpr hs)
          · exact hs.1 e1.symm
          · rw [e2] at h1; exact hs.2 h1
      · rcases hab with hab | ⟨e1, _, _⟩
        · rcases hsafe with hs | hs | hs
          · exact absurd h3 (not_lt.mpr hs)
          · exact hs.2 h2
          · rw [hab] at h1; exact hs.1 h1.symm
        · rw [e1] at hnd; exact hnd.1 h2
    · rcases hsafe with hs | hs | hs
      · exact Or.inl hs
      · exact Or.inr (Or.inl hs.2)
      · exact Or.inr (Or.inr hs.2)

/-- C1 (as stated) fails: with self-control 80 and affiliation 100, a draw below 0.5
recodes the Anger entry of `[(Anger,50), (Grief,50)]` to Grief, and the returned
vector `[(Grief,27), (Grief,30)]` holds the code Grief twice although the input had
unique codes and intensities in range. -/
theorem C1_arbitrate_duplicates_grief :
    UniqueCodes [⟨EmotionAnger, 50⟩, ⟨EmotionGrief, 50⟩] ∧
    InRange [⟨EmotionAnger, 50⟩, ⟨EmotionGrief, 50⟩] ∧
    PrefrontalCortex.New.Arbitrate [⟨EmotionAnger, 50⟩, ⟨EmotionGrief, 50⟩] 0 100 (fun _ => 0)
      = [⟨EmotionGrief, 27⟩, ⟨EmotionGrief, 30⟩] ∧
    ¬ UniqueCodes (PrefrontalCortex.New.Arbitrate
        [⟨EmotionAnger, 50⟩, ⟨EmotionGrief, 50⟩] 0 100 (fun _ => 0)) := by
  have hval : PrefrontalCortex.New.Arbitrate [⟨EmotionAnger, 50⟩, ⟨EmotionGrief, 50⟩] 0 100
      (fun _ => 0) = [⟨EmotionGrief, 27⟩, ⟨EmotionGrief, 30⟩] := by
    have hGA : ¬ (("G" : String) = "A") := by decide
    norm_num [PrefrontalCortex.Arbitrate, PrefrontalCortex.New, arbitrateLoop, arbitrateStep,
      isNegativeCode, isPositiveCode, truncQ, EmotionAnger, EmotionGrief, EmotionFear,
      EmotionDisgust, hGA]
  refine ⟨by decide, by decide, hval, ?_⟩
  rw [hval]
  decide

/-- C1 (amended): for an input with unique codes and intensities in `[0,100]`,
every self-control value, every stress level up to 100, every affiliation level and
every outcome of the random draws, `Arbitrate` returns intensities in `[0,100]`; and the codes of the
result are unique whenever affiliation is at most 50 or the input does not hold both
an Anger and a Grief entry. -/
theorem C1_arbitrate_range_and_unique (pfc : PrefrontalCortex) (raw : List EmotionValue)
    (cortisol oxytocin : ℚ) (rnd : Nat → ℚ)
    (huniq : UniqueCodes raw) (hrange : InRange raw) (hc : cortisol ≤ 100) :
    InRange (pfc.Arbitrate raw cortisol oxytocin rnd) ∧
      ((oxytocin ≤ 50 ∨ EmotionAnger ∉ raw.map EmotionValue.Code ∨
          EmotionGrief ∉ raw.map EmotionValue.Code) →
        UniqueCodes (pfc.Arbitrate raw cortisol oxytocin rnd)) := by
  unfold PrefrontalCortex.Arbitrate
  by_cases hs : pfc.Sanity < 30
  · simp only [hs, if_true]
    exact ⟨hrange, fun _ => huniq⟩
  · simp only [hs, if_false]
    refine ⟨arbitrateLoop_range (suppressionRate_nonneg (not_lt.mp hs) hc) raw 0 hrange, ?_⟩
    intro hsafe
    exact recoded_nodup (arbitrateLoop_recoded _ cortisol oxytocin rnd raw 0) huniq hsafe

theorem C1_arbitrate_range_and_unique_witness :
    InRange (PrefrontalCortex.New.Arbitrate [⟨EmotionAnger, 50⟩, ⟨EmotionJoy, 60⟩] 0 100
        (fun _ => 0)) ∧
      (((100 : ℚ) ≤ 50 ∨ EmotionAnger ∉ [(⟨EmotionAnger, 50⟩ : EmotionValue), ⟨EmotionJoy, 60⟩].map
            EmotionValue.Code ∨
          EmotionGrief ∉ [(⟨EmotionAnger, 50⟩ : EmotionValue), ⟨EmotionJoy, 60⟩].map
            EmotionValue.Code) →
        UniqueCodes (PrefrontalCortex.New.Arbitrate [⟨EmotionAnger, 50⟩, ⟨EmotionJoy, 60⟩] 0 100
          (fun _ => 0))) :=
  C1_arbitrate_range_and_unique PrefrontalCortex.New [⟨EmotionAnger, 50⟩, ⟨EmotionJoy, 60⟩]
    0 100 (fun _ => 0) (by decide) (by decide) (by norm_num)

/-- When affiliation is at most 50 no random number is drawn and the loop body does
not depend on the random source. -/
theorem arbitrateStep_no_draw {rate cortisol oxytocin : ℚ} (ho : oxytocin ≤ 50) (r r' : ℚ)
    (e : EmotionValue) :
    arbitrateStep rate cortisol oxytocin r e = arbitrateStep rate cortisol oxytocin r' e ∧
      (arbitrateStep rate cortisol oxytocin r e).2 = false := by
  have hd : decide (oxytocin > 50) = false := by
    simp only [decide_eq_false_iff_not, not_lt]; exact ho
  unfold arbitrateStep
  by_cases hn : isNegativeCode e.Code = true
  · simp only [hn, if_true, hd, Bool.and_false, Bool.false_and, Bool.false_eq_true, if_false,
      and_self]
  · by_cases hp : isPositiveCode e.Code = true
    · simp only [hn, hp, Bool.false_eq_true, if_false, if_true, and_self]
    · simp only [hn, hp, Bool.false_eq_true, if_false, and_self]

theorem arbitrateLoop_eq_map {rate cortisol oxytocin : ℚ} (ho : oxytocin ≤ 50)
    (rnd : Nat → ℚ) :
    ∀ (raw : List EmotionValue) (k : Nat),
      arbitrateLoop rate cortisol oxytocin rnd k raw =
        raw.map (fun e => (arbitrateStep rate cortisol oxytocin 0 e).1) := by
  intro raw
  induction raw with
  | nil => intro k; rfl
  | cons a rest ih =>
    intro k
    simp only [arbitrateLoop, List.map_cons]
    rw [ih, (arbitrateStep_no_draw ho (rnd k) 0 a).1]

theorem truncQ_le_of_le {q : ℚ} {n : Int} (hn : 0 ≤ n) (h : q ≤ n) : truncQ q ≤ n := by
  by_cases h0 : 0 ≤ q
  · have h1 : (truncQ q : ℚ) ≤ n := le_trans (truncQ_le_of_nonneg h0) h
    exact_mod_cast h1
  · exact le_trans (truncQ_nonpos (not_le.mp h0)) hn

/-- The loop body at neutral hormone levels, on a negative-category entry. -/
theorem arbitrateStep_neutral_negative {s : Int} {e : EmotionValue} (r : ℚ) (hs : 30 ≤ s)
    (h0 : 0 ≤ e.Value) (hn : isNegativeCode e.Code = true) :
    (arbitrateStep ((s : ℚ) / 100) 0 0 r e).1.Code = e.Code ∧
      (arbitrateStep ((s : ℚ) / 100) 0 0 r e).1.Value ≤ e.Value ∧
      (0 < e.Value → (arbitrateStep ((s : ℚ) / 100) 0 0 r e).1.Value < e.Value) := by
  have hsq : (30 : ℚ) ≤ (s : ℚ) := by exact_mod_cast hs
  have hvq : (0 : ℚ) ≤ (e.Value : ℚ) := by exact_mod_cast h0
  have hd : decide ((0 : ℚ) > 50) = false := by norm_num
  have hx : (e.Value : ℚ) - (e.Value : ℚ) * ((s : ℚ) / 100) * (1 / 2) ≤ (e.Value : ℚ) := by
    have : 0 ≤ (e.Value : ℚ) * ((s : ℚ) / 100) * (1 / 2) := by positivity
    linarith
  have hle := truncQ_le_of_le h0 hx
  unfold arbitrateStep
  simp only [hn, if_true, hd, Bool.and_false, Bool.false_and, Bool.false_eq_true, if_false,
    show ¬ ((0 : ℚ) > 50) by norm_num, decide_False, true_and]
  refine ⟨by split_ifs <;> omega, ?_⟩
  intro hpos
  have hpq : (0 : ℚ) < (e.Value : ℚ) := by exact_mod_cast hpos
  have hx' : (e.Value : ℚ) - (e.Value : ℚ) * ((s : ℚ) / 100) * (1 / 2) < (e.Value : ℚ) := by
    have : 0 < (e.Value : ℚ) * ((s : ℚ) / 100) * (1 / 2) := by positivity
    linarith
  have hlt := truncQ_lt_of_lt hpos hx'
  split_ifs <;> omega

/-- The loop body at neutral hormone levels, on a positive-category entry. -/
theorem arbitrateStep_neutral_positive {s : Int} {e : EmotionValue} (r : ℚ) (hs : 30 ≤ s)
    (h0 : 0 ≤ e.Value) (h100 : e.Value ≤ 100) (hneg : ¬ isNegativeCode e.Code = true)
    (hp : isPositiveCode e.Code = true) :
    (arbitrateStep ((s : ℚ) / 100) 0 0 r e).1.Code = e.Code ∧
      e.Value ≤ (arbitrateStep ((s : ℚ) / 100) 0 0 r e).1.Value ∧
      (e.Value < 100 → 1000 ≤ e.Value * s →
        e.Value < (arbitrateStep ((s : ℚ) / 100) 0 0 r e).1.Value) := by
  have hsq : (30 : ℚ) ≤ (s : ℚ) := by exact_mod_cast hs
  have hvq : (0 : ℚ) ≤ (e.Value : ℚ) := by exact_mod_cast h0
  have hb : 0 ≤ truncQ ((e.Value : ℚ) * ((s : ℚ) / 100) * (1 / 10)) := by
    apply truncQ_nonneg
    positivity
  unfold arbitrateStep
  simp only [hneg, hp, Bool.false_eq_true, if_false, if_true, true_and]
  refine ⟨by split_ifs <;> omega, ?_⟩
  intro hlt hbig
  have hq : (1000 : ℚ) ≤ (e.Value : ℚ) * (s : ℚ) := by exact_mod_cast hbig
  have h1 : 1 ≤ truncQ ((e.Value : ℚ) * ((s : ℚ) / 100) * (1 / 10)) := by
    apply truncQ_pos_of_one_le
    linarith
  split_ifs <;> omega

/-- C2 (as stated) fails: at self-control 30 and neutral hormones the vector
`[(Anger,0), (Joy,100), (Joy,1)]` is returned unchanged, so the Anger entry is not
strictly smaller and the Joy entries are not strictly larger than in the input. -/
theorem C2_arbitrate_not_strict :
    InRange [⟨EmotionAnger, 0⟩, ⟨EmotionJoy, 100⟩, ⟨EmotionJoy, 1⟩] ∧
    ({ PrefrontalCortex.New with Sanity := 30 } : PrefrontalCortex).Arbitrate
        [⟨EmotionAnger, 0⟩, ⟨EmotionJoy, 100⟩, ⟨EmotionJoy, 1⟩] 0 0 (fun _ => 0)
      = [⟨EmotionAnger, 0⟩, ⟨EmotionJoy, 100⟩, ⟨EmotionJoy, 1⟩] ∧
    ¬ StrictlyModulated [⟨EmotionAnger, 0⟩, ⟨EmotionJoy, 100⟩, ⟨EmotionJoy, 1⟩]
        (({ PrefrontalCortex.New with Sanity := 30 } : PrefrontalCortex).Arbitrate
          [⟨EmotionAnger, 0⟩, ⟨EmotionJoy, 100⟩, ⟨EmotionJoy, 1⟩] 0 0 (fun _ => 0)) := by
  have hJA : ¬ (("J" : String) = "A") := by decide
  have hJF : ¬ (("J" : String) = "F") := by decide
  have hJD : ¬ (("J" : String) = "D") := by decide
  have hJG : ¬ (("J" : String) = "G") := by decide
  have hval : ({ PrefrontalCortex.New with Sanity := 30 } : PrefrontalCortex).Arbitrate
        [⟨EmotionAnger, 0⟩, ⟨EmotionJoy, 100⟩, ⟨EmotionJoy, 1⟩] 0 0 (fun _ => 0)
      = [⟨EmotionAnger, 0⟩, ⟨EmotionJoy, 100⟩, ⟨EmotionJoy, 1⟩] := by
    norm_num [PrefrontalCortex.Arbitrate, PrefrontalCortex.New, arbitrateLoop, arbitrateStep,
      isNegativeCode, isPositiveCode, truncQ, EmotionAnger, EmotionGrief, EmotionFear,
      EmotionDisgust, EmotionJoy, EmotionLove, EmotionHope, hJA, hJF, hJD, hJG]
  refine ⟨by decide, hval, ?_⟩
  rw [hval]
  intro h
  obtain ⟨e', he', hneg, _⟩ := h 0 ⟨EmotionAnger, 0⟩ rfl
  simp only [List.getElem?_cons_zero, Option.some.injEq] at he'
  subst he'
  exact absurd (hneg (by decide)) (by decide)

/-- C2 (amended): with stress = 0 and affiliation = 0, for every self-control value
at least 30 and every input vector with intensities in `[0,100]`, `Arbitrate` keeps
every position and code; every Anger, Fear, Disgust and Grief entry gets an intensity no
larger than before, strictly smaller when the input intensity is positive; every
Joy, Love and Hope entry gets an intensity no smaller than before, strictly larger
when the input intensity is below 100 and intensity times self-control is at least
1000. -/
theorem C2_arbitrate_neutral_hormones (pfc : PrefrontalCortex) (raw : List EmotionValue)
    (rnd : Nat → ℚ) (hs : 30 ≤ pfc.Sanity) (hrange : InRange raw)
    (i : Nat) (e : EmotionValue) (hi : raw[i]? = some e) :
    ∃ e', (pfc.Arbitrate raw 0 0 rnd)[i]? = some e' ∧ e'.Code = e.Code ∧
      (isNegativeCode e.Code = true →
        e'.Value ≤ e.Value ∧ (0 < e.Value → e'.Value < e.Value)) ∧
      (isPositiveCode e.Code = true →
        e.Value ≤ e'.Value ∧
          (e.Value < 100 → 1000 ≤ e.Value * pfc.Sanity → e.Value < e'.Value)) := by
  have hmem : e ∈ raw := List.getElem?_mem hi
  obtain ⟨h0, h100⟩ := hrange e hmem
  unfold PrefrontalCortex.Arbitrate
  simp only [not_lt.mpr hs, if_false, show ¬ ((0 : ℚ) > 50) by norm_num]
  rw [arbitrateLoop_eq_map (by norm_num : (0 : ℚ) ≤ 50)]
  refine ⟨(arbitrateStep ((pfc.Sanity : ℚ) / 100) 0 0 0 e).1, ?_, ?_, ?_, ?_⟩
  · simp only [List.getElem?_map, hi, Option.map_some']
  · exact (arbitrateStep_code _ 0 0 0 e).elim id
      (fun h => absurd h.2.2 (by norm_num))
  · intro hn
    exact (arbitrateStep_neutral_negative 0 hs h0 hn).2
  · intro hp
    by_cases hn : isNegativeCode e.Code = true
    · exfalso
      simp only [isNegativeCode, isPositiveCode, Bool.or_eq_true, beq_iff_eq] at hn hp
      rcases hp with (hp | hp) | hp <;> rw [hp] at hn <;> revert hn <;> decide
    · exact (arbitrateStep_neutral_positive 0 hs h0 h100 hn hp).2

theorem C2_arbitrate_neutral_hormones_witness :
    ∃ e', (PrefrontalCortex.New.Arbitrate [⟨EmotionAnger, 80⟩, ⟨EmotionJoy, 60⟩] 0 0
        (fun _ => 0))[1]? = some e' ∧ e'.Code = EmotionJoy ∧
      (isNegativeCode EmotionJoy = true →
        e'.Value ≤ 60 ∧ ((0 : Int) < 60 → e'.Value < 60)) ∧
      (isPositiveCode EmotionJoy = true →
        60 ≤ e'.Value ∧ ((60 : Int) < 100 → (1000 : Int) ≤ 60 * 80 → 60 < e'.Value)) :=
  C2_arbitrate_neutral_hormones PrefrontalCortex.New [⟨EmotionAnger, 80⟩, ⟨EmotionJoy, 60⟩]
    (fun _ => 0) (by decide) (by decide) 1 ⟨EmotionJoy, 60⟩ rfl

/-- C3: for every self-control value below 30, every input vector and every stress
and affiliation level, `Arbitrate` returns its input vector unchanged. -/
theorem C3_arbitrate_low_sanity (pfc : PrefrontalCortex) (raw : List EmotionValue)
    (cortisol oxytocin : ℚ) (rnd : Nat → ℚ) (h : pfc.Sanity < 30) :
    pfc.Arbitrate raw cortisol oxytocin rnd = raw := by
  unfold PrefrontalCortex.Arbitrate
  rw [if_pos h]

theorem C3_arbitrate_low_sanity_witness :
    ({ PrefrontalCortex.New with Sanity := 20 } : PrefrontalCortex).Arbitrate
        [⟨EmotionAnger, 80⟩, ⟨EmotionFear, 70⟩] 100 100 (fun _ => 0)
      = [⟨EmotionAnger, 80⟩, ⟨EmotionFear, 70⟩] :=
  C3_arbitrate_low_sanity _ _ 100 100 (fun _ => 0) (by decide)

/-! ### Reward learning unit -/

/-- Whatever the levels were, `clampValues` leaves both in `[0,100]` when the limits
are those of `New`. -/
theorem clampValues_valid (bg : BasalGanglia) (hmin : bg.minMotivation = 0)
    (hmax : bg.maxMotivation = 100) : bg.clampValues.Valid := by
  obtain ⟨m, p, d, mn, mx⟩ := bg
  simp only at hmin hmax
  subst hmin hmax
  unfold BasalGanglia.clampValues BasalGanglia.Valid
  simp only
  split_ifs <;> dsimp only at * <;> refine ⟨?_, ?_, ?_, ?_, ?_, ?_⟩ <;>
    first | rfl | linarith

theorem step_valid (bg : BasalGanglia) (call : BasalCall) (h : bg.Valid) :
    (bg.step call).Valid := by
  obtain ⟨hmin, hmax, h1, h2, h3, h4⟩ := h
  cases call with
  | updateMotivation r =>
    exact clampValues_valid _ hmin hmax
  | setMotivation v =>
    exact clampValues_valid _ hmin hmax
  | applyDecay =>
    unfold BasalGanglia.step BasalGanglia.ApplyDecay
    simp only
    split_ifs <;> exact clampValues_valid _ hmin hmax
  | reset =>
    refine ⟨hmin, hmax, ?_, ?_, ?_, ?_⟩ <;> norm_num [BasalGanglia.step, BasalGanglia.Reset]

theorem run_valid (calls : List BasalCall) :
    ∀ bg : BasalGanglia, bg.Valid → (bg.run calls).Valid := by
  induction calls with
  | nil => intro bg h; exact h
  | cons c cs ih =>
    intro bg h
    exact ih _ (step_valid bg c h)

/-- C8: starting from `basal.New()`, after every finite sequence of
`UpdateMotivation` (any reward), `SetMotivation` (any integer), `ApplyDecay` and
`Reset` calls, Motivation and PredictedReward both lie in `[0,100]`. -/
theorem C8_motivation_in_range (calls : List BasalCall) :
    0 ≤ (BasalGanglia.New.run calls).Motivation ∧
      (BasalGanglia.New.run calls).Motivation ≤ 100 ∧
      0 ≤ (BasalGanglia.New.run calls).PredictedReward ∧
      (BasalGanglia.New.run calls).PredictedReward ≤ 100 := by
  have hnew : BasalGanglia.New.Valid := by
    unfold BasalGanglia.Valid BasalGanglia.New
    norm_num
  exact (run_valid calls _ hnew).2.2

/-- On a valid state with in-range intermediate values `clampValues` is the identity. -/
theorem clampValues_eq_self (bg : BasalGanglia) (h : bg.Valid) : bg.clampValues = bg := by
  obtain ⟨hmin, hmax, h1, h2, h3, h4⟩ := h
  unfold BasalGanglia.clampValues
  simp only [hmin, hmax, not_lt.mpr h1, not_lt.mpr h2, not_lt.mpr h3, not_lt.mpr h4,
    gt_iff_lt, if_false]

/-- The two successive conditional assignments of `clampValues` compute the clamp. -/
theorem clamp_seq (x : ℚ) :
    (if (if x < 0 then 0 else x) > 100 then 100 else (if x < 0 then 0 else x)) =
      clampSpec x 0 100 := by
  unfold clampSpec
  by_cases h1 : x < 0
  · rw [if_pos h1, if_neg (by norm_num), min_eq_left (by linarith), max_eq_left (by linarith)]
  · rw [if_neg h1]
    by_cases h2 : x > 100
    · rw [if_pos h2, min_eq_right (by linarith), max_eq_right (by norm_num)]
    · rw [if_neg h2, min_eq_left (by linarith), max_eq_right (by linarith)]

theorem clampValues_Motivation (bg : BasalGanglia) :
    bg.clampValues.Motivation =
      (if (if bg.Motivation < bg.minMotivation then bg.minMotivation else bg.Motivation) >
          bg.maxMotivation then bg.maxMotivation
        else (if bg.Motivation < bg.minMotivation then bg.minMotivation else bg.Motivation)) := by
  unfold BasalGanglia.clampValues
  dsimp only
  split_ifs <;> rfl

theorem clampValues_PredictedReward (bg : BasalGanglia) :
    bg.clampValues.PredictedReward =
      (if (if bg.PredictedReward < 0 then 0 else bg.PredictedReward) > 100 then 100
        else (if bg.PredictedReward < 0 then 0 else bg.PredictedReward)) := by
  unfold BasalGanglia.clampValues
  dsimp only
  split_ifs <;> rfl

/-- C9: for every state with Motivation `M` and PredictedReward `P` in `[0,100]`
(and the limits set by `New`) and every reward `r`, `UpdateMotivation r` sets
Motivation to `clamp(M + 0.5*(r - P), 0, 100)` and PredictedReward to
`clamp(P + 0.3*(r - P), 0, 100)`, both from the prediction error `r - P` taken
from the state before the call. -/
theorem C9_update_motivation (bg : BasalGanglia) (r : ℚ) (h : bg.Valid) :
    (bg.UpdateMotivation r).Motivation =
        clampSpec (bg.Motivation + (1 / 2) * (r - bg.PredictedReward)) 0 100 ∧
      (bg.UpdateMotivation r).PredictedReward =
        clampSpec (bg.PredictedReward + (3 / 10) * (r - bg.PredictedReward)) 0 100 := by
  obtain ⟨hmin, hmax, -, -, -, -⟩ := h
  unfold BasalGanglia.UpdateMotivation
  rw [clampValues_Motivation, clampValues_PredictedReward]
  dsimp only
  rw [hmin, hmax, clamp_seq, clamp_seq]
  constructor <;> congr 1 <;> ring

theorem C9_update_motivation_witness :
    (BasalGanglia.New.UpdateMotivation 100).Motivation =
        clampSpec (BasalGanglia.New.Motivation +
          (1 / 2) * (100 - BasalGanglia.New.PredictedReward)) 0 100 ∧
      (BasalGanglia.New.UpdateMotivation 100).PredictedReward =
        clampSpec (BasalGanglia.New.PredictedReward +
          (3 / 10) * (100 - BasalGanglia.New.PredictedReward)) 0 100 :=
  C9_update_motivation BasalGanglia.New 100
    (by unfold BasalGanglia.Valid BasalGanglia.New; norm_num)

/-- C10: for every state with Motivation and PredictedReward in `[0,100]` (and the
limits set by `New`), `UpdateMotivation r` with `r` equal to the current
PredictedReward leaves Motivation and PredictedReward (the whole state) unchanged. -/
theorem C10_update_at_fixed_point (bg : BasalGanglia) (r : ℚ) (h : bg.Valid)
    (hr : r = bg.PredictedReward) :
    bg.UpdateMotivation r = bg := by
  subst hr
  unfold BasalGanglia.UpdateMotivation
  simp only [sub_self, zero_mul, add_zero]
  exact clampValues_eq_self bg h

theorem C10_update_at_fixed_point_witness :
    ({ BasalGanglia.New with Motivation := 75, PredictedReward := 40 } :
        BasalGanglia).UpdateMotivation 40 =
      { BasalGanglia.New with Motivation := 75, PredictedReward := 40 } :=
  C10_update_at_fixed_point _ 40
    (by unfold BasalGanglia.Valid BasalGanglia.New; norm_num) rfl

/-! ### Consolidation -/

/-- C4 (as stated) fails: without a persistent store `SleepAndConsolidate` returns at
once, and a short-tier buffer holding one memory still holds it afterwards. -/
theorem C4_sleep_without_store_keeps_stm :
    (({ Hippocampus.New none with STM := [importantMemory] } :
        Hippocampus).SleepAndConsolidate (fun _ => 0)).1.STM = [importantMemory] ∧
    (({ Hippocampus.New none with STM := [importantMemory] } :
        Hippocampus).SleepAndConsolidate (fun _ => 0)).1.STM ≠ [] := by
  constructor
  · rfl
  · intro h
    exact absurd h (List.cons_ne_nil _ _)

/-- C4 (amended): immediately after `SleepAndConsolidate` returns, the short-tier
buffer is empty for every prior state that has a persistent store attached (whether
or not the store's statements fail); without a store the buffer is left as it was. -/
theorem C4_sleep_clears_stm (h : Hippocampus) (clock : Nat → Int) :
    (h.SleepAndConsolidate clock).1.STM = if h.store.isSome then [] else h.STM := by
  unfold Hippocampus.SleepAndConsolidate
  cases hs : h.store with
  | none => simp
  | some d => simp [Hippocampus.FadeOldMemories]

theorem SaveMemory_ok (d : DB) (m : RuneMemory) (h : d.fault d.ops = false) :
    d.SaveMemory m = (.ok (), { rows := d.rows.filter (fun x => x.UUID != m.UUID) ++
      [{ m with RecallCount := 0 }], fault := d.fault, ops := d.ops + 1 }) := by
  unfold DB.SaveMemory DB.exec
  simp only [h, Bool.false_eq_true, if_false]

/-- With a store that never fails, the loop saves exactly the memories that reach
the threshold, each promoted. -/
theorem consolidateLoop_saved (threshold : ℚ) (clock : Nat → Int) :
    ∀ (stm : List RuneMemory) (k : Nat) (d : DB), (∀ n, d.fault n = false) →
      List.Forall₂ Promoted (stm.filter (fun m => decide (threshold ≤ m.Weight)))
        (consolidateLoop threshold clock k stm d).2 := by
  intro stm
  induction stm with
  | nil => intro k d _; simp [consolidateLoop]
  | cons m rest ih =>
    intro k d hd
    unfold consolidateLoop
    by_cases hw : threshold ≤ m.Weight
    · simp only [ge_iff_le, hw, if_true, SaveMemory_ok d _ (hd d.ops), List.filter_cons,
        decide_True]
      refine List.Forall₂.cons ?_ (ih _ _ hd)
      exact ⟨rfl, rfl, rfl, rfl, rfl, rfl⟩
    · simp only [ge_iff_le, hw, if_false, List.filter_cons, decide_False, Bool.false_eq_true]
      exact ih _ _ hd

theorem forall₂_mem_right {α β : Type} {R : α → β → Prop} {l : List α} {l' : List β}
    (h : List.Forall₂ R l l') : ∀ x ∈ l', ∃ m ∈ l, R m x := by
  induction h with
  | nil => intro x hx; simp at hx
  | cons hab _ ih =>
    intro x hx
    rcases List.mem_cons.mp hx with hx | hx
    · subst hx
      exact ⟨_, List.mem_cons_self _ _, hab⟩
    · obtain ⟨m, hm, hr⟩ := ih x hx
      exact ⟨m, List.mem_cons_of_mem _ hm, hr⟩

/-- The rows written for a list of memories are their promoted copies without recall
count, in order. -/
theorem savedRows_promoted (clock : Nat → Int) :
    ∀ (q : List RuneMemory) (k : Nat), List.Forall₂ Promoted q (savedRows clock k q) := by
  intro q
  induction q with
  | nil => intro k; exact List.Forall₂.nil
  | cons m rest ih =>
    intro k
    exact List.Forall₂.cons ⟨rfl, rfl, rfl, rfl, rfl, rfl⟩ (ih _)

theorem savedRows_uuid (clock : Nat → Int) :
    ∀ (q : List RuneMemory) (k : Nat),
      (savedRows clock k q).map RuneMemory.UUID = q.map RuneMemory.UUID := by
  intro q
  induction q with
  | nil => intro k; rfl
  | cons m rest ih =>
    intro k
    simp only [savedRows, List.map_cons, ih]
    rfl

/-- With a store that never fails and distinct identifiers in the buffer, the table
after the loop of `SleepAndConsolidate` holds the earlier rows with another identifier
followed by the rows written for the memories that reach the threshold; the fault
schedule is the one before. -/
theorem consolidateLoop_rows (threshold : ℚ) (clock : Nat → Int) :
    ∀ (stm : List RuneMemory) (k : Nat) (d : DB), (∀ n, d.fault n = false) →
      (stm.map RuneMemory.UUID).Nodup →
      (consolidateLoop threshold clock k stm d).1.rows =
          d.rows.filter (fun x =>
            !((stm.filter (fun m => decide (threshold ≤ m.Weight))).map
              RuneMemory.UUID).contains x.UUID) ++
            savedRows clock k (stm.filter (fun m => decide (threshold ≤ m.Weight))) ∧
        (consolidateLoop threshold clock k stm d).1.fault = d.fault := by
  intro stm
  induction stm with
  | nil =>
    intro k d _ _
    simp [consolidateLoop, savedRows]
  | cons m rest ih =>
    intro k d hd hnd
    rw [List.map_cons, List.nodup_cons] at hnd
    unfold consolidateLoop
    by_cases hw : threshold ≤ m.Weight
    · simp only [ge_iff_le, hw, if_true, SaveMemory_ok d _ (hd d.ops), List.filter_cons,
        decide_True]
      obtain ⟨h1, h2⟩ := ih (k + 1)
        { rows := d.rows.filter (fun x => x.UUID != m.UUID) ++
            [{ ({ m with MemType := MemoryLTM, LastAccess := clock k } : RuneMemory) with
              RecallCount := 0 }],
          fault := d.fault, ops := d.ops + 1 } hd hnd.2
      refine ⟨?_, h2⟩
      rw [h1]
      have hm : m.UUID ∉ (rest.filter (fun m => decide (threshold ≤ m.Weight))).map
          RuneMemory.UUID := by
        intro hmem
        obtain ⟨x, hx, hxu⟩ := List.mem_map.mp hmem
        exact hnd.1 (List.mem_map.mpr ⟨x, (List.mem_filter.mp hx).1, hxu⟩)
      simp only [List.filter_append, List.filter_filter, List.map_cons, savedRows,
        List.append_assoc]
      congr 1
      · apply List.filter_congr
        intro x _
        simp [bne, Bool.and_comm]
      · have hkeep : ([({ ({ m with MemType := MemoryLTM, LastAccess := clock k } :
            RuneMemory) with RecallCount := 0 } : RuneMemory)].filter (fun x =>
            !((rest.filter (fun m => decide (threshold ≤ m.Weight))).map
              RuneMemory.UUID).contains x.UUID)) =
            [savedRow m (clock k)] := by
          rw [List.filter_cons, List.filter_nil]
          have : (!((rest.filter (fun m => decide (threshold ≤ m.Weight))).map
              RuneMemory.UUID).contains m.UUID) = true := by
            simpa using hm
          simp only [this, if_true]
          rfl
        rw [hkeep]
        rfl
    · simp only [ge_iff_le, hw, if_false, List.filter_cons, decide_False, Bool.false_eq_true]
      exact ih k d hd hnd.2

/-- On a store that does not fail, `DeleteOldMemories` keeps a sublist of the rows, and
all of them when the long tier does not exceed `keepCount`. -/
theorem DeleteOldMemories_rows (d : DB) (keepCount : Int) (hd : ∀ n, d.fault n = false) :
    (d.DeleteOldMemories keepCount).2.rows.Sublist d.rows ∧
      (((d.rows.filter (fun x => x.MemType == MemoryLTM)).length : Int) ≤ keepCount →
        (d.DeleteOldMemories keepCount).2.rows = d.rows) := by
  have hval : (d.DeleteOldMemories keepCount).2.rows =
      if ((d.rows.filter (fun x => x.MemType == MemoryLTM)).length : Int) ≤ keepCount then
        d.rows
      else d.rows.filter (fun x =>
        !((((d.rows.filter (fun x => x.MemType == MemoryLTM)).insertionSort
          pruneOrder).take (((d.rows.filter (fun x => x.MemType == MemoryLTM)).length : Int)
            - keepCount).toNat).map RuneMemory.UUID).contains x.UUID) := by
    unfold DB.DeleteOldMemories DB.GetLTMCount DB.exec
    simp only [hd, Bool.false_eq_true, if_false]
    split_ifs <;> rfl
  rw [hval]
  constructor
  · split_ifs
    · exact List.Sublist.refl _
    · exact List.filter_sublist _
  · intro hc
    rw [if_pos hc]

/-- C6: with a persistent store attached whose statements succeed (the identifiers in
the short-tier buffer being distinct), `SleepAndConsolidate` saves to the store exactly
the short-tier memories whose Weight is at least the consolidation threshold
(threshold inclusive). The table it leaves is a sublist of the earlier rows with
another identifier followed by one row per such memory, in buffer order, and it is
that whole list when the long tier then holds at most `maxLTMSize` rows (nothing is
pruned). The row of such a memory has the tier Long and the identifier, text, emotion
vector, weight and tags of the memory; every row of the table is an earlier row or
the row of a memory of the buffer whose Weight is at least the threshold, so no
memory with a Weight below the threshold is saved. -/
theorem C6_consolidation_saves (h : Hippocampus) (d : DB) (clock : Nat → Int)
    (hs : h.store = some d) (hok : ∀ n, d.fault n = false)
    (hid : (h.STM.map RuneMemory.UUID).Nodup) :
    ∃ dfin : DB, (h.SleepAndConsolidate clock).1.store = some dfin ∧
      dfin.rows.Sublist (rowsAfterSaving d.rows clock h.qualifying) ∧
      ((((rowsAfterSaving d.rows clock h.qualifying).filter
          (fun x => x.MemType == MemoryLTM)).length : Int) ≤ h.maxLTMSize →
        dfin.rows = rowsAfterSaving d.rows clock h.qualifying) ∧
      List.Forall₂ Promoted h.qualifying (savedRows clock 0 h.qualifying) ∧
      (∀ x ∈ dfin.rows, x ∈ d.rows ∨
        ∃ m ∈ h.STM, h.consolidationThreshold ≤ m.Weight ∧ Promoted m x) := by
  obtain ⟨hrows, hfault⟩ := consolidateLoop_rows h.consolidationThreshold clock h.STM 0 d
    hok hid
  have hok' : ∀ n, (consolidateLoop h.consolidationThreshold clock 0 h.STM d).1.fault n
      = false := by
    intro n
    rw [hfault]
    exact hok n
  have hdel := DeleteOldMemories_rows
    (consolidateLoop h.consolidationThreshold clock 0 h.STM d).1 h.maxLTMSize hok'
  have hrows' : (consolidateLoop h.consolidationThreshold clock 0 h.STM d).1.rows =
      rowsAfterSaving d.rows clock h.qualifying := hrows
  rw [hrows'] at hdel
  have hprom := savedRows_promoted clock h.qualifying 0
  refine ⟨((consolidateLoop h.consolidationThreshold clock 0 h.STM d).1.DeleteOldMemories
    h.maxLTMSize).2, ?_, hdel.1, hdel.2, hprom, ?_⟩
  · unfold Hippocampus.SleepAndConsolidate
    simp only [hs, Hippocampus.FadeOldMemories]
  · intro x hx
    have hx' := hdel.1.subset hx
    unfold rowsAfterSaving at hx'
    rcases List.mem_append.mp hx' with h1 | h2
    · exact Or.inl (List.mem_filter.mp h1).1
    · right
      obtain ⟨m, hm, hp⟩ := forall₂_mem_right hprom x h2
      have hmq := List.mem_filter.mp hm
      exact ⟨m, hmq.1, by simpa using hmq.2, hp⟩

/-- On an empty store, of the two example memories only the one of weight 0.95 is
saved: the table then holds its row, with the tier Long and the clock reading 7, and
nothing else. -/
theorem C6_consolidation_saves_witness :
    ∃ dfin : DB,
      (({ Hippocampus.New (some emptyDB) with STM := [importantMemory, trivialMemory] } :
        Hippocampus).SleepAndConsolidate (fun _ => 7)).1.store = some dfin ∧
      dfin.rows = [savedRow importantMemory 7] := by
  obtain ⟨dfin, h1, _, h3, _, _⟩ := C6_consolidation_saves
    { Hippocampus.New (some emptyDB) with STM := [importantMemory, trivialMemory] }
    emptyDB (fun _ => 7) rfl (fun _ => rfl) (by decide)
  have hq : ({ Hippocampus.New (some emptyDB) with
      STM := [importantMemory, trivialMemory] } : Hippocampus).qualifying =
      [importantMemory] := by
    unfold Hippocampus.qualifying
    simp only [Hippocampus.New, List.filter_cons, List.filter_nil, importantMemory,
      trivialMemory]
    norm_num
  rw [hq] at h3
  refine ⟨dfin, h1, ?_⟩
  rw [h3 (by
    simp [rowsAfterSaving, savedRows, emptyDB, savedRow, importantMemory, Hippocampus.New])]
  simp [rowsAfterSaving, savedRows, emptyDB]

/-! ### Weighted recall -/

/-- A successful walk takes one entry out of the slice. -/
theorem rouletteWalk_perm (r : ℚ) :
    ∀ (remaining : List weightedMemory) (cumulative : ℚ) (w : weightedMemory)
      (others : List weightedMemory),
      rouletteWalk r cumulative remaining = some (w, others) →
        remaining.Perm (w :: others) := by
  intro remaining
  induction remaining with
  | nil => intro c w o h; simp [rouletteWalk] at h
  | cons a rest ih =>
    intro c w o h
    unfold rouletteWalk at h
    simp only at h
    by_cases hr : r ≤ c + a.weight
    · rw [if_pos hr] at h
      simp only [Option.some.injEq, Prod.mk.injEq] at h
      rw [← h.1, ← h.2]
    · rw [if_neg hr] at h
      cases hrec : rouletteWalk r (c + a.weight) rest with
      | none => rw [hrec] at h; simp at h
      | some p =>
        obtain ⟨w', o'⟩ := p
        rw [hrec] at h
        simp only [Option.some.injEq, Prod.mk.injEq] at h
        rw [← h.1, ← h.2]
        exact ((ih _ _ _ hrec).cons a).trans (List.Perm.swap _ _ _)

/-- The roulette loop returns distinct memories of the slice, at most one per round. -/
theorem rouletteLoop_spec (rnd : Nat → ℚ) :
    ∀ (fuel k : Nat) (remaining : List weightedMemory) (totalWeight : ℚ),
      (remaining.map (fun w => w.memory.UUID)).Nodup →
        ((rouletteLoop rnd fuel k remaining totalWeight).map RuneMemory.UUID).Nodup ∧
        (rouletteLoop rnd fuel k remaining totalWeight).length ≤ fuel ∧
        (rouletteLoop rnd fuel k remaining totalWeight).length ≤ remaining.length ∧
        ∀ m ∈ rouletteLoop rnd fuel k remaining totalWeight,
          m ∈ remaining.map (fun w => w.memory) := by
  intro fuel
  induction fuel with
  | zero =>
    intro k remaining tw _
    simp [rouletteLoop]
  | succ n ih =>
    intro k remaining tw hnd
    unfold rouletteLoop
    by_cases hlen : remaining.length = 0
    · simp [hlen]
    · simp only [hlen, if_false]
      cases hwalk : rouletteWalk (rnd k * tw) 0 remaining with
      | none =>
        simp only
        obtain ⟨h1, h2, h3, h4⟩ := ih (k + 1) remaining tw hnd
        exact ⟨h1, Nat.le_succ_of_le h2, h3, h4⟩
      | some p =>
        obtain ⟨w, others⟩ := p
        simp only
        have hperm := rouletteWalk_perm _ _ _ _ _ hwalk
        have hnd' : ((w :: others).map (fun w => w.memory.UUID)).Nodup :=
          ((hperm.map _).nodup_iff).mp hnd
        simp only [List.map_cons, List.nodup_cons] at hnd'
        obtain ⟨h1, h2, h3, h4⟩ := ih (k + 1) others (tw - w.weight) hnd'.2
        refine ⟨?_, ?_, ?_, ?_⟩
        · simp only [List.map_cons, List.nodup_cons]
          refine ⟨?_, h1⟩
          intro hmem
          obtain ⟨m, hm, hmu⟩ := List.mem_map.mp hmem
          obtain ⟨w', hw', hwm⟩ := List.mem_map.mp (h4 m hm)
          apply hnd'.1
          rw [← hmu, ← hwm]
          exact List.mem_map.mpr ⟨w', hw', rfl⟩
        · simp only [List.length_cons]; omega
        · have := hperm.length_eq
          simp only [List.length_cons] at this ⊢
          omega
        · intro m hm
          rcases List.mem_cons.mp hm with hm | hm
          · rw [hm]
            exact List.mem_map.mpr ⟨w, (hperm.mem_iff).mpr (List.mem_cons_self _ _), rfl⟩
          · obtain ⟨w', hw', hwm⟩ := List.mem_map.mp (h4 m hm)
            exact List.mem_map.mpr
              ⟨w', (hperm.mem_iff).mpr (List.mem_cons_of_mem _ hw'), hwm⟩

/-- The uniform loop returns the memories at the positions `indices[i]`,
`i ≤ p < i + fuel`, which are distinct when the indices and identifiers are. -/
theorem uniformLoop_spec (weighted : List weightedMemory) (indices : List Nat)
    (hids : (weighted.map (fun w => w.memory.UUID)).Nodup)
    (hnd : indices.Nodup) (hlt : ∀ j ∈ indices, j < weighted.length) :
    ∀ (fuel i : Nat), i + fuel ≤ indices.length →
      ∃ selected, uniformLoop weighted indices fuel i = some selected ∧
        selected.length = fuel ∧
        (selected.map RuneMemory.UUID).Nodup ∧
        ∀ m ∈ selected, ∃ p j w, i ≤ p ∧ indices[p]? = some j ∧
          weighted[j]? = some w ∧ w.memory = m := by
  intro fuel
  induction fuel with
  | zero => intro i _; exact ⟨[], rfl, rfl, List.nodup_nil, by simp⟩
  | succ n ih =>
    intro i hi
    have hi' : i < indices.length := by omega
    have hj : indices[i]? = some indices[i] := List.getElem?_eq_getElem hi'
    have hjlt : indices[i] < weighted.length := hlt _ (List.getElem_mem _)
    have hw : weighted[indices[i]]? = some weighted[indices[i]] :=
      List.getElem?_eq_getElem hjlt
    obtain ⟨rest, hrest, hlen, hnodup, hfrom⟩ := ih (i + 1) (by omega)
    refine ⟨weighted[indices[i]].memory :: rest, ?_, ?_, ?_, ?_⟩
    · unfold uniformLoop
      simp only [hj, hw, hrest]
    · simp only [List.length_cons, hlen]
    · simp only [List.map_cons, List.nodup_cons]
      refine ⟨?_, hnodup⟩
      intro hmem
      obtain ⟨m, hm, hmu⟩ := List.mem_map.mp hmem
      obtain ⟨p, j, w, hp, hpj, hjw, hwm⟩ := hfrom m hm
      have hjlt' : j < weighted.length := hlt j (List.getElem?_mem hpj)
      have hjj : indices[i] = j := by
        apply List.getElem?_inj (by simpa using hjlt) hids
        rw [List.getElem?_map, List.getElem?_map, hw, hjw]
        simp only [Option.map_some', Option.some.injEq]
        rw [hwm, hmu]
      have hip : i = p := by
        apply List.getElem?_inj hi' hnd
        rw [hj, hpj, hjj]
      omega
    · intro m hm
      rcases List.mem_cons.mp hm with hm | hm
      · exact ⟨i, indices[i], weighted[indices[i]], le_refl _, hj, hw, hm.symm⟩
      · obtain ⟨p, j, w, hp, hpj, hjw, hwm⟩ := hfrom m hm
        exact ⟨p, j, w, by omega, hpj, hjw, hwm⟩

/-- C7: for every pool of weighted memories with pairwise distinct identifiers
(whatever the weights), every count at least 0, every permutation returned by
`rand.Perm` and every sequence of random draws, `weightedRandomSelection` returns a
list in which no identifier occurs twice, whose length is at most `count` and at most
the pool size, and every element of which is a memory of the pool. -/
theorem C7_weighted_selection (weighted : List weightedMemory) (count : Int)
    (perm : List Nat) (rnd : Nat → ℚ)
    (hids : (weighted.map (fun w => w.memory.UUID)).Nodup)
    (hcount : 0 ≤ count)
    (hperm : perm.Perm (List.range weighted.length)) :
    ∃ selected, weightedRandomSelection weighted count perm rnd = some selected ∧
      (selected.map RuneMemory.UUID).Nodup ∧
      (selected.length : Int) ≤ count ∧
      selected.length ≤ weighted.length ∧
      ∀ m ∈ selected, m ∈ weighted.map (fun w => w.memory) := by
  unfold weightedRandomSelection
  by_cases hlen : weighted.length = 0
  · refine ⟨[], by simp [hlen], List.nodup_nil, by simpa using hcount, by simp, by simp⟩
  · simp only [hlen, if_false]
    have hc0 : ¬ (if count > (weighted.length : Int) then (weighted.length : Int)
        else count) < 0 := by
      split_ifs <;> omega
    have hcle : (if count > (weighted.length : Int) then (weighted.length : Int)
        else count).toNat ≤ weighted.length := by
      split_ifs <;> omega
    have hcc : ((if count > (weighted.length : Int) then (weighted.length : Int)
        else count).toNat : Int) ≤ count := by
      split_ifs <;> omega
    simp only [hc0, if_false]
    by_cases htw : weighted.foldl (fun acc w => acc + w.weight) 0 ≤ 0
    · simp only [htw, if_true]
      have hnd : perm.Nodup := (hperm.nodup_iff).mpr (List.nodup_range _)
      have hlt : ∀ j ∈ perm, j < weighted.length := fun j hj =>
        List.mem_range.mp ((hperm.mem_iff).mp hj)
      have hpl : perm.length = weighted.length := by
        rw [hperm.length_eq, List.length_range]
      obtain ⟨selected, hsel, hl, hn, hfrom⟩ :=
        uniformLoop_spec weighted perm hids hnd hlt
          (if count > (weighted.length : Int) then (weighted.length : Int) else count).toNat 0
          (by rw [hpl, Nat.zero_add]; exact hcle)
      refine ⟨selected, hsel, hn, by rw [hl]; exact hcc, by rw [hl]; exact hcle, ?_⟩
      intro m hm
      obtain ⟨p, j, w, _, _, hjw, hwm⟩ := hfrom m hm
      exact List.mem_map.mpr ⟨w, List.getElem?_mem hjw, hwm⟩
    · simp only [htw, if_false]
      obtain ⟨h1, h2, h3, h4⟩ := rouletteLoop_spec rnd
        (if count > (weighted.length : Int) then (weighted.length : Int) else count).toNat
        0 weighted (weighted.foldl (fun acc w => acc + w.weight) 0) hids
      exact ⟨_, rfl, h1, by omega, h3, h4⟩

theorem C7_weighted_selection_witness :
    ∃ selected, weightedRandomSelection
        [⟨importantMemory, 95 / 100⟩, ⟨trivialMemory, 35 / 100⟩] 1 [1, 0] (fun _ => 1 / 2)
          = some selected ∧
      (selected.map RuneMemory.UUID).Nodup ∧
      (selected.length : Int) ≤ 1 ∧
      selected.length ≤
        ([⟨importantMemory, 95 / 100⟩, ⟨trivialMemory, 35 / 100⟩] :
          List weightedMemory).length ∧
      ∀ m ∈ selected, m ∈ ([⟨importantMemory, 95 / 100⟩, ⟨trivialMemory, 35 / 100⟩] :
          List weightedMemory).map (fun w => w.memory) :=
  C7_weighted_selection [⟨importantMemory, 95 / 100⟩, ⟨trivialMemory, 35 / 100⟩] 1 [1, 0]
    (fun _ => 1 / 2) (by decide) (by decide) (by decide)

/-! ### Sleep accounting -/

/-- Deleting the rows with one identifier from a table with distinct identifiers
removes exactly one row. -/
theorem filter_ne_length {rows : List RuneMemory} (hnd : (rows.map RuneMemory.UUID).Nodup)
    {x : RuneMemory} (hx : x ∈ rows) (p : RuneMemory → Bool)
    (hp : ∀ r, p r = false ↔ r.UUID = x.UUID) :
    (rows.filter p).length + 1 = rows.length := by
  induction rows with
  | nil => simp at hx
  | cons a rest ih =>
    simp only [List.map_cons, List.nodup_cons] at hnd
    rcases List.mem_cons.mp hx with hxa | hxr
    · subst hxa
      have hall : rest.filter p = rest := by
        apply List.filter_eq_self.mpr
        intro r hr
        have hne : r.UUID ≠ x.UUID := fun h => hnd.1 (h ▸ List.mem_map.mpr ⟨r, hr, rfl⟩)
        cases hpr : p r with
        | true => rfl
        | false => exact absurd ((hp r).mp hpr) hne
      have hpx : p x = false := (hp x).mpr rfl
      rw [List.filter_cons, hpx, hall]
      simp
    · have hne : a.UUID ≠ x.UUID := fun h => hnd.1 (h ▸ List.mem_map.mpr ⟨x, hxr, rfl⟩)
      have hpa : p a = true := by
        cases hpr : p a with
        | true => rfl
        | false => exact absurd ((hp a).mp hpr) hne
      have := ih hnd.2 hxr
      rw [List.filter_cons, hpa]
      simp only [if_true, List.length_cons]
      omega

/-- On a store without faults whose long tier holds one row more than `keepCount`,
`DeleteOldMemories` succeeds and leaves exactly `keepCount` long-tier rows. -/
theorem DeleteOldMemories_one (d : DB) (keepCount : Int) (hok : ∀ n, d.fault n = false)
    (hnd : (d.rows.map RuneMemory.UUID).Nodup) (hk0 : 0 ≤ keepCount)
    (hcount : ((d.rows.filter (fun x => x.MemType == MemoryLTM)).length : Int)
      = keepCount + 1) :
    ∃ d', d.DeleteOldMemories keepCount = (.ok (), d') ∧ (∀ n, d'.fault n = false) ∧
      ((d'.rows.filter (fun x => x.MemType == MemoryLTM)).length : Int) = keepCount := by
  have hk : ¬ (keepCount + 1 ≤ keepCount) := by omega
  have hperm := List.perm_insertionSort pruneOrder
    (d.rows.filter (fun x => x.MemType == MemoryLTM))
  have hslen : ((d.rows.filter (fun x => x.MemType == MemoryLTM)).insertionSort
      pruneOrder).length = (d.rows.filter (fun x => x.MemType == MemoryLTM)).length :=
    hperm.length_eq
  obtain ⟨v, rest, hsorted⟩ : ∃ v rest,
      (d.rows.filter (fun x => x.MemType == MemoryLTM)).insertionSort pruneOrder
        = v :: rest := by
    cases hs : (d.rows.filter (fun x => x.MemType == MemoryLTM)).insertionSort pruneOrder with
    | nil => rw [hs] at hslen; simp only [List.length_nil] at hslen; omega
    | cons v rest => exact ⟨v, rest, rfl⟩
  have hvmem : v ∈ d.rows.filter (fun x => x.MemType == MemoryLTM) :=
    (hperm.mem_iff).mp (by rw [hsorted]; exact List.mem_cons_self _ _)
  refine ⟨⟨d.rows.filter (fun x => !([v.UUID].contains x.UUID)), d.fault, d.ops + 1 + 1⟩,
    ?_, hok, ?_⟩
  · unfold DB.DeleteOldMemories DB.GetLTMCount DB.exec
    simp only [hok, Bool.false_eq_true, if_false, hcount, hk, hsorted,
      show (keepCount + 1 - keepCount).toNat = 1 by omega, List.take_succ_cons, List.take_zero,
      List.map_cons, List.map_nil]
  · have hcomm : (d.rows.filter (fun x => !([v.UUID].contains x.UUID))).filter
        (fun x => x.MemType == MemoryLTM) =
        (d.rows.filter (fun x => x.MemType == MemoryLTM)).filter
          (fun x => !([v.UUID].contains x.UUID)) := by
      rw [List.filter_filter, List.filter_filter]
      apply List.filter_congr
      intro x _
      exact Bool.and_comm _ _
    have h1 := filter_ne_length
      (((List.filter_sublist d.rows).map RuneMemory.UUID).nodup hnd) hvmem
      (fun x => !([v.UUID].contains x.UUID))
      (by intro r; simp)
    simp only [hcomm]
    omega

/-- When the long tier is full, a sleep cycle with one heavy short-tier memory saves
that memory, prunes one row, and reports ConsolidatedCount 0 and ForgottenCount 1. -/
theorem sleep_full_store (b : Brain) (d : DB) (m : RuneMemory) (clock : Nat → Int)
    (hs : b.Hippocampus.store = some d) (hok : ∀ n, d.fault n = false)
    (hstm : b.Hippocampus.STM = [m])
    (hw : b.Hippocampus.consolidationThreshold ≤ m.Weight)
    (hnd : (d.rows.map RuneMemory.UUID).Nodup)
    (hfresh : m.UUID ∉ d.rows.map RuneMemory.UUID)
    (hfull : ((d.rows.filter (fun x => x.MemType == MemoryLTM)).length : Int)
      = b.Hippocampus.maxLTMSize) :
    (b.Hippocampus.SleepAndConsolidate clock).2 = [promotedCopy m (clock 0)] ∧
      (b.Sleep clock).1.ConsolidatedCount = 0 ∧ (b.Sleep clock).1.ForgottenCount = 1 := by
  obtain ⟨hip, bg, pfc⟩ := b
  obtain ⟨stm, store, thr, maxS, maxL⟩ := hip
  simp only at hs hstm hw hfull
  subst hs hstm
  have hmax0 : 0 ≤ maxL := by rw [← hfull]; exact Int.natCast_nonneg _
  -- the table after the save
  have hrows : d.rows.filter (fun x => x.UUID != m.UUID) = d.rows := by
    apply List.filter_eq_self.mpr
    intro r hr
    have : r.UUID ≠ m.UUID := fun h => hfresh (h ▸ List.mem_map.mpr ⟨r, hr, rfl⟩)
    simp [this]
  have hnd2 : ((d.rows ++ [savedRow m (clock 0)]).map RuneMemory.UUID).Nodup := by
    rw [List.map_append, List.nodup_append]
    refine ⟨hnd, by simp, ?_⟩
    intro a ha hb
    simp only [List.map_cons, List.map_nil, List.mem_singleton] at hb
    exact hfresh (hb ▸ ha)
  have hcount2 : (((d.rows ++ [savedRow m (clock 0)]).filter
      (fun x => x.MemType == MemoryLTM)).length : Int) = maxL + 1 := by
    rw [List.filter_append, List.length_append]
    simp only [savedRow, List.filter_cons, beq_self_eq_true, if_true, List.filter_nil,
      List.length_singleton]
    push_cast
    rw [hfull]
  obtain ⟨d', hdel, hok', hcount'⟩ := DeleteOldMemories_one
    ⟨d.rows ++ [savedRow m (clock 0)], d.fault, d.ops + 1 + 1⟩ maxL hok hnd2 hmax0 hcount2
  have hsleep : Hippocampus.SleepAndConsolidate
      ⟨[m], some ⟨d.rows, d.fault, d.ops + 1⟩, thr, maxS, maxL⟩ clock =
      (⟨[], some d', thr, maxS, maxL⟩, [promotedCopy m (clock 0)]) := by
    unfold Hippocampus.SleepAndConsolidate
    simp only [consolidateLoop, ge_iff_le, hw, if_true, DB.SaveMemory, DB.exec, hok,
      Bool.false_eq_true, if_false, hrows, Hippocampus.FadeOldMemories]
    have hdel' := hdel
    simp only [savedRow] at hdel'
    simp only [hdel', promotedCopy]
  refine ⟨?_, ?_, ?_⟩
  · unfold Hippocampus.SleepAndConsolidate
    simp only [consolidateLoop, ge_iff_le, hw, if_true, DB.SaveMemory, DB.exec, hok,
      Bool.false_eq_true, if_false, promotedCopy]
  · unfold Brain.Sleep
    simp only [Hippocampus.GetLTMCount, DB.GetLTMCount, DB.exec, hok, Bool.false_eq_true,
      if_false, hsleep, hok', hcount', hfull]
    omega
  · unfold Brain.Sleep
    simp only [Hippocampus.GetLTMCount, DB.GetLTMCount, DB.exec, hok, Bool.false_eq_true,
      if_false, hsleep, hok', hcount', hfull, Hippocampus.GetSTMCount, List.length_singleton]
    omega

theorem oldMemory_uuid_injective : Function.Injective (fun i => (oldMemory i).UUID) := by
  intro i j h
  have := congrArg (fun s => s.data.length) h
  simpa [oldMemory] using this

theorem fullDB_rows : fullDB.rows = (List.range 1000).map oldMemory := by
  show fullRows = _
  rw [fullRows]

theorem fullDB_nodup : (fullDB.rows.map RuneMemory.UUID).Nodup := by
  rw [fullDB_rows]
  simp only [List.map_map]
  exact (List.nodup_range 1000).map oldMemory_uuid_injective

theorem fullDB_fresh : importantMemory.UUID ∉ fullDB.rows.map RuneMemory.UUID := by
  rw [fullDB_rows]
  simp only [List.map_map, List.mem_map, List.mem_range, Function.comp_apply, not_exists,
    not_and]
  intro i _ h
  have h' : List.replicate (i + 1) 'x' = ['m', '-', '1'] := by
    have := congrArg String.data h
    simpa [oldMemory, importantMemory] using this
  rw [List.replicate_succ] at h'
  have := (List.cons.inj h').1
  exact absurd this (by decide)

theorem fullDB_count :
    ((fullDB.rows.filter (fun x => x.MemType == MemoryLTM)).length : Int) = 1000 := by
  have hall : fullDB.rows.filter (fun x => x.MemType == MemoryLTM) = fullDB.rows := by
    apply List.filter_eq_self.mpr
    intro r hr
    rw [fullDB_rows] at hr
    obtain ⟨i, _, hi⟩ := List.mem_map.mp hr
    rw [← hi]
    rfl
  rw [hall, fullDB_rows, List.length_map, List.length_range]
  norm_num

/-- C5 fails on the code. In memory-only mode with one short-tier memory,
`Brain.Sleep` reports ConsolidatedCount 0 and ForgottenCount 1 although nothing was
discarded (STMCount is 1, the buffer still holds the memory). With a store whose long
tier is full (1000 rows) and one short-tier memory of weight 0.95, the memory is
promoted and saved, yet `Brain.Sleep` reports ConsolidatedCount 0 and
ForgottenCount 1. -/
theorem C5_sleep_counts_diverge :
    ((memoryOnlyBrain.Sleep (fun _ => 0)).1
        = { ConsolidatedCount := 0, ForgottenCount := 1, STMCount := 1, LTMCount := 0 } ∧
      (memoryOnlyBrain.Sleep (fun _ => 0)).2.Hippocampus.STM = [importantMemory]) ∧
    ((fullBrain.Hippocampus.SleepAndConsolidate (fun _ => 0)).2
        = [promotedCopy importantMemory 0] ∧
      (fullBrain.Sleep (fun _ => 0)).1.ConsolidatedCount = 0 ∧
      (fullBrain.Sleep (fun _ => 0)).1.ForgottenCount = 1) := by
  refine ⟨⟨rfl, rfl⟩, ?_⟩
  exact sleep_full_store fullBrain fullDB importantMemory (fun _ => 0) rfl (fun _ => rfl) rfl
    (by norm_num [fullBrain, Hippocampus.New, importantMemory])
    fullDB_nodup fullDB_fresh fullDB_count

/-! ### Repeated feedback -/

/-- The Motivation written by `UpdateMotivation` on a state with the limits of `New`. -/
theorem updateMotivation_Motivation (bg : BasalGanglia) (r : ℚ) (hmin : bg.minMotivation = 0)
    (hmax : bg.maxMotivation = 100) :
    (bg.UpdateMotivation r).Motivation =
      clampSpec (bg.Motivation + (r - bg.PredictedReward) * (1 / 2)) 0 100 := by
  unfold BasalGanglia.UpdateMotivation
  rw [clampValues_Motivation]
  dsimp only
  rw [hmin, hmax, clamp_seq]

theorem repeatUpdate_valid (bg : BasalGanglia) (r : ℚ) (h : bg.Valid) :
    ∀ n, (bg.repeatUpdate r n).Valid := by
  intro n
  induction n with
  | zero => exact h
  | succ n ih => exact step_valid _ (.updateMotivation r) ih

/-- One more call with reward 100 does not lower Motivation. -/
theorem repeatUpdate_hundred_succ (bg : BasalGanglia) (h : bg.Valid) (n : Nat) :
    (bg.repeatUpdate 100 n).Motivation ≤ (bg.repeatUpdate 100 (n + 1)).Motivation := by
  obtain ⟨hmin, hmax, h1, h2, h3, h4⟩ := repeatUpdate_valid bg 100 h n
  show _ ≤ ((bg.repeatUpdate 100 n).UpdateMotivation 100).Motivation
  rw [updateMotivation_Motivation _ _ hmin hmax]
  unfold clampSpec
  exact le_max_of_le_right (le_min (by linarith) h2)

/-- One more call with reward 0 does not raise Motivation. -/
theorem repeatUpdate_zero_succ (bg : BasalGanglia) (h : bg.Valid) (n : Nat) :
    (bg.repeatUpdate 0 (n + 1)).Motivation ≤ (bg.repeatUpdate 0 n).Motivation := by
  obtain ⟨hmin, hmax, h1, h2, h3, h4⟩ := repeatUpdate_valid bg 0 h n
  show ((bg.repeatUpdate 0 n).UpdateMotivation 0).Motivation ≤ _
  rw [updateMotivation_Motivation _ _ hmin hmax]
  unfold clampSpec
  exact max_le h1 ((min_le_left _ _).trans (by linarith))

/-- C11: from every in-range state, after `n` consecutive `UpdateMotivation(100)`
calls Motivation is at most 100 and is non-decreasing in `n`; after `n` consecutive
`UpdateMotivation(0)` calls Motivation is at least 0 and is non-increasing in `n`.
From Motivation 95 and PredictedReward 50, five calls with reward 100 leave
Motivation at 100; from Motivation 10, five calls with reward 0 leave it at 0. -/
theorem C11_repeated_feedback (bg : BasalGanglia) (h : bg.Valid) (m n : Nat) (hmn : m ≤ n) :
    ((bg.repeatUpdate 100 n).Motivation ≤ 100 ∧
        (bg.repeatUpdate 100 m).Motivation ≤ (bg.repeatUpdate 100 n).Motivation) ∧
      (0 ≤ (bg.repeatUpdate 0 n).Motivation ∧
        (bg.repeatUpdate 0 n).Motivation ≤ (bg.repeatUpdate 0 m).Motivation) ∧
      (({ BasalGanglia.New with Motivation := 95 } : BasalGanglia).repeatUpdate 100 5).Motivation
        = 100 ∧
      (({ BasalGanglia.New with Motivation := 10 } : BasalGanglia).repeatUpdate 0 5).Motivation
        = 0 := by
  refine ⟨⟨(repeatUpdate_valid bg 100 h n).2.2.2.1, ?_⟩,
    ⟨(repeatUpdate_valid bg 0 h n).2.2.1, ?_⟩, ?_, ?_⟩
  · induction n, hmn using Nat.le_induction with
    | base => exact le_refl _
    | succ k _ ih => exact ih.trans (repeatUpdate_hundred_succ bg h k)
  · induction n, hmn using Nat.le_induction with
    | base => exact le_refl _
    | succ k _ ih => exact (repeatUpdate_zero_succ bg h k).trans ih
  · norm_num [BasalGanglia.repeatUpdate, BasalGanglia.UpdateMotivation,
      BasalGanglia.clampValues, BasalGanglia.New]
  · norm_num [BasalGanglia.repeatUpdate, BasalGanglia.UpdateMotivation,
      BasalGanglia.clampValues, BasalGanglia.New]

theorem C11_repeated_feedback_witness :
    (BasalGanglia.New.repeatUpdate 100 3).Motivation ≤ 100 ∧
      (BasalGanglia.New.repeatUpdate 100 1).Motivation ≤
        (BasalGanglia.New.repeatUpdate 100 3).Motivation ∧
      0 ≤ (BasalGanglia.New.repeatUpdate 0 3).Motivation ∧
      (BasalGanglia.New.repeatUpdate 0 3).Motivation ≤
        (BasalGanglia.New.repeatUpdate 0 1).Motivation :=
  have h := C11_repeated_feedback BasalGanglia.New
    (by unfold BasalGanglia.Valid BasalGanglia.New; norm_num) 1 3 (by decide)
  ⟨h.1.1, h.1.2, h.2.1.1, h.2.1.2⟩

/-! ### Hormone levels -/

theorem clamp_valid (h : Homeostasis) : h.clamp.Valid := by
  unfold Homeostasis.clamp Homeostasis.Valid
  dsimp only
  refine ⟨⟨?_, ?_⟩, ⟨?_, ?_⟩, ⟨?_, ?_⟩, ⟨?_, ?_⟩⟩ <;>
    first
      | exact le_max_left _ _
      | exact max_le (by norm_num) (min_le_left _ _)

/-- On a state with all levels in `[0,100]` the method `clamp` is the identity. -/
theorem clamp_eq_self (h : Homeostasis) (hv : h.Valid) : h.clamp = h := by
  obtain ⟨⟨c1, c2⟩, ⟨o1, o2⟩, ⟨m1, m2⟩, ⟨s1, s2⟩⟩ := hv
  obtain ⟨c, o, m, s, t⟩ := h
  dsimp only at *
  unfold Homeostasis.clamp
  dsimp only
  rw [min_eq_right c2, min_eq_right o2, min_eq_right m2, min_eq_right s2,
    max_eq_right c1, max_eq_right o1, max_eq_right m1, max_eq_right s1]

theorem Update_valid (h : Homeostasis) (now : Int) (s a : ℚ) : (h.Update now s a).Valid := by
  unfold Homeostasis.Update
  dsimp only
  exact clamp_valid _

theorem Decay_valid (h : Homeostasis) (now : Int) (hv : h.Valid) : (h.Decay now).Valid := by
  obtain ⟨⟨c1, c2⟩, ⟨o1, o2⟩, hm, hs⟩ := hv
  unfold Homeostasis.Decay
  dsimp only
  by_cases he : durationHours (now - h.LastUpdated) ≤ 0
  · rw [if_pos he]
    exact ⟨⟨c1, c2⟩, ⟨o1, o2⟩, hm, hs⟩
  · rw [if_neg he]
    have hpos : 0 < durationHours (now - h.LastUpdated) := not_le.mp he
    unfold Homeostasis.Valid
    split_ifs <;> dsimp only at * <;>
      refine ⟨⟨?_, ?_⟩, ⟨?_, ?_⟩, hm, hs⟩ <;> linarith

theorem UpdateCircadianRhythm_valid (h : Homeostasis) (hour : Int) :
    (h.UpdateCircadianRhythm hour).Valid := by
  unfold Homeostasis.UpdateCircadianRhythm
  dsimp only
  exact clamp_valid _

theorem homeostasis_step_valid (h : Homeostasis) (call : HomeostasisCall) (hv : h.Valid) :
    (h.step call).Valid := by
  cases call with
  | update now s a => exact Update_valid h now s a
  | decay now => exact Decay_valid h now hv
  | circadian hour => exact UpdateCircadianRhythm_valid h hour

theorem homeostasis_run_valid (calls : List HomeostasisCall) :
    ∀ h : Homeostasis, h.Valid → (h.run calls).Valid := by
  induction calls with
  | nil => intro h hv; exact hv
  | cons c cs ih =>
    intro h hv
    exact ih _ (homeostasis_step_valid h c hv)

/-- C12: starting from `NewHomeostasis()` (created at any time), after every finite
sequence of `Update` (any stressor and affection, at any clock value), `Decay` (at
any clock value) and `UpdateCircadianRhythm` (any hour) calls, Cortisol, Oxytocin,
Melatonin and Serotonin all lie in `[0,100]`. -/
theorem C12_hormones_in_range (t0 : Int) (calls : List HomeostasisCall) :
    (0 ≤ ((Homeostasis.New t0).run calls).Cortisol ∧
        ((Homeostasis.New t0).run calls).Cortisol ≤ 100) ∧
      (0 ≤ ((Homeostasis.New t0).run calls).Oxytocin ∧
        ((Homeostasis.New t0).run calls).Oxytocin ≤ 100) ∧
      (0 ≤ ((Homeostasis.New t0).run calls).Melatonin ∧
        ((Homeostasis.New t0).run calls).Melatonin ≤ 100) ∧
      (0 ≤ ((Homeostasis.New t0).run calls).Serotonin ∧
        ((Homeostasis.New t0).run calls).Serotonin ≤ 100) := by
  have hnew : (Homeostasis.New t0).Valid := by
    unfold Homeostasis.Valid Homeostasis.New
    norm_num
  exact homeostasis_run_valid calls _ hnew

/-- C13: for every state with the four hormones in `[0,100]` and every stressor `s`
and affection `a`, `Update(s, a)` sets Cortisol to
`clamp(Cortisol + (s if s > 0 else 0) - (a if a > 0 else 0), 0, 100)` and Oxytocin to
`clamp(Oxytocin + (a if a > 0 else 0), 0, 100)` and leaves Melatonin and Serotonin
unchanged; with `s ≤ 0` and `a ≤ 0` no hormone level changes. -/
theorem C13_update (h : Homeostasis) (now : Int) (s a : ℚ) (hv : h.Valid) :
    (h.Update now s a).Cortisol =
        clampSpec (h.Cortisol + (if s > 0 then s else 0) - (if a > 0 then a else 0)) 0 100 ∧
      (h.Update now s a).Oxytocin =
        clampSpec (h.Oxytocin + (if a > 0 then a else 0)) 0 100 ∧
      (h.Update now s a).Melatonin = h.Melatonin ∧
      (h.Update now s a).Serotonin = h.Serotonin ∧
      (s ≤ 0 → a ≤ 0 →
        (h.Update now s a).Cortisol = h.Cortisol ∧ (h.Update now s a).Oxytocin = h.Oxytocin ∧
          (h.Update now s a).Melatonin = h.Melatonin ∧
          (h.Update now s a).Serotonin = h.Serotonin) := by
  obtain ⟨⟨c1, c2⟩, ⟨o1, o2⟩, ⟨m1, m2⟩, ⟨s1, s2⟩⟩ := hv
  have hM : (h.Update now s a).Melatonin = h.Melatonin := by
    unfold Homeostasis.Update Homeostasis.clamp
    dsimp only
    split_ifs <;> (try dsimp only) <;> rw [min_eq_right m2, max_eq_right m1]
  have hS : (h.Update now s a).Serotonin = h.Serotonin := by
    unfold Homeostasis.Update Homeostasis.clamp
    dsimp only
    split_ifs <;> (try dsimp only) <;> rw [min_eq_right s2, max_eq_right s1]
  have hC : (h.Update now s a).Cortisol =
      clampSpec (h.Cortisol + (if s > 0 then s else 0) - (if a > 0 then a else 0)) 0 100 := by
    unfold Homeostasis.Update Homeostasis.clamp clampSpec
    dsimp only
    split_ifs <;> (try dsimp only) <;> rw [min_comm] <;> congr 2 <;> ring
  have hO : (h.Update now s a).Oxytocin =
      clampSpec (h.Oxytocin + (if a > 0 then a else 0)) 0 100 := by
    unfold Homeostasis.Update Homeostasis.clamp clampSpec
    dsimp only
    split_ifs <;> (try dsimp only) <;> rw [min_comm] <;> congr 2 <;> ring
  refine ⟨hC, hO, hM, hS, ?_⟩
  intro hs ha
  refine ⟨?_, ?_, hM, hS⟩
  · rw [hC, if_neg (not_lt.mpr hs), if_neg (not_lt.mpr ha)]
    unfold clampSpec
    rw [add_zero, sub_zero, min_eq_left c2, max_eq_right c1]
  · rw [hO, if_neg (not_lt.mpr ha)]
    unfold clampSpec
    rw [add_zero, min_eq_left o2, max_eq_right o1]

theorem C13_update_witness :
    ((Homeostasis.New 0).Update 5 30 20).Cortisol =
        clampSpec ((Homeostasis.New 0).Cortisol + (if (30 : ℚ) > 0 then 30 else 0) -
          (if (20 : ℚ) > 0 then 20 else 0)) 0 100 ∧
      ((Homeostasis.New 0).Update 5 30 20).Oxytocin =
        clampSpec ((Homeostasis.New 0).Oxytocin + (if (20 : ℚ) > 0 then 20 else 0)) 0 100 ∧
      ((Homeostasis.New 0).Update 5 30 20).Cortisol = 10 ∧
      ((Homeostasis.New 0).Update 5 30 20).Oxytocin = 20 :=
  have hv : (Homeostasis.New 0).Valid := by
    unfold Homeostasis.Valid Homeostasis.New
    norm_num
  have h := C13_update (Homeostasis.New 0) 5 30 20 hv
  ⟨h.1, h.2.1,
    by norm_num [Homeostasis.Update, Homeostasis.clamp, Homeostasis.New],
    by norm_num [Homeostasis.Update, Homeostasis.clamp, Homeostasis.New]⟩

/-- C14: let `e` be the hours elapsed between LastUpdated and the current time. If
`e ≤ 0`, `Decay` changes nothing. If `e > 0` (on a state whose Cortisol and Oxytocin
are not negative), it sets Cortisol to `max(0, Cortisol - 10*e)` and Oxytocin to
`max(0, Oxytocin - 10*e)`, sets LastUpdated to the current time and leaves Melatonin
and Serotonin unchanged. -/
theorem C14_decay (h : Homeostasis) (now : Int) (hc : 0 ≤ h.Cortisol) (ho : 0 ≤ h.Oxytocin) :
    (durationHours (now - h.LastUpdated) ≤ 0 → h.Decay now = h) ∧
      (0 < durationHours (now - h.LastUpdated) →
        (h.Decay now).Cortisol =
            max 0 (h.Cortisol - 10 * durationHours (now - h.LastUpdated)) ∧
          (h.Decay now).Oxytocin =
            max 0 (h.Oxytocin - 10 * durationHours (now - h.LastUpdated)) ∧
          (h.Decay now).LastUpdated = now ∧
          (h.Decay now).Melatonin = h.Melatonin ∧
          (h.Decay now).Serotonin = h.Serotonin) := by
  constructor
  · intro he
    unfold Homeostasis.Decay
    dsimp only
    rw [if_pos he]
  · intro he
    unfold Homeostasis.Decay
    dsimp only
    rw [if_neg (not_le.mpr he)]
    split_ifs <;> dsimp only at * <;> refine ⟨?_, ?_, rfl, rfl, rfl⟩ <;>
      first
        | (rw [max_eq_left (by linarith)]; try linarith)
        | (rw [max_eq_right (by linarith)]; try linarith)

theorem C14_decay_witness :
    (durationHours (7200000000000 - (Homeostasis.mk 50 5 0 50 0).LastUpdated) ≤ 0 →
        (Homeostasis.mk 50 5 0 50 0).Decay 7200000000000 = Homeostasis.mk 50 5 0 50 0) ∧
      (0 < durationHours (7200000000000 - (Homeostasis.mk 50 5 0 50 0).LastUpdated) →
        ((Homeostasis.mk 50 5 0 50 0).Decay 7200000000000).Cortisol =
            max 0 ((Homeostasis.mk 50 5 0 50 0).Cortisol -
              10 * durationHours (7200000000000 - (Homeostasis.mk 50 5 0 50 0).LastUpdated)) ∧
          ((Homeostasis.mk 50 5 0 50 0).Decay 7200000000000).Oxytocin =
            max 0 ((Homeostasis.mk 50 5 0 50 0).Oxytocin -
              10 * durationHours (7200000000000 - (Homeostasis.mk 50 5 0 50 0).LastUpdated)) ∧
          ((Homeostasis.mk 50 5 0 50 0).Decay 7200000000000).LastUpdated = 7200000000000 ∧
          ((Homeostasis.mk 50 5 0 50 0).Decay 7200000000000).Melatonin =
            (Homeostasis.mk 50 5 0 50 0).Melatonin ∧
          ((Homeostasis.mk 50 5 0 50 0).Decay 7200000000000).Serotonin =
            (Homeostasis.mk 50 5 0 50 0).Serotonin) ∧
      ((Homeostasis.mk 50 5 0 50 0).Decay 7200000000000).Cortisol = 30 ∧
      ((Homeostasis.mk 50 5 0 50 0).Decay 7200000000000).Oxytocin = 0 :=
  have h := C14_decay (Homeostasis.mk 50 5 0 50 0) 7200000000000 (by norm_num) (by norm_num)
  ⟨h.1, h.2,
    by norm_num [Homeostasis.Decay, durationHours],
    by norm_num [Homeostasis.Decay, durationHours]⟩

/-- C15: for every integer hour `k` in `0..23` (on a state with Cortisol and
Oxytocin in `[0,100]`), `UpdateCircadianRhythm` at hour `k` sets: for `k` in
`{22, 23}`, Melatonin `= 80 + 10*(k - 22)` and Serotonin `= 20`; for `0 ≤ k < 6`,
Melatonin `= 50 + 50*(6 - k)/6` and Serotonin `= 20`; for `6 ≤ k < 12`, Melatonin
`= 10` and Serotonin `= 60 + 40*(k - 6)/6`; for `12 ≤ k < 22`, Melatonin `= 10` and
Serotonin `= 100 - 40*(k - 12)/10`; Cortisol and Oxytocin are unchanged. -/
theorem C15_circadian (h : Homeostasis) (k : Int) (hk0 : 0 ≤ k) (hk23 : k ≤ 23)
    (hc : 0 ≤ h.Cortisol ∧ h.Cortisol ≤ 100) (ho : 0 ≤ h.Oxytocin ∧ h.Oxytocin ≤ 100) :
    (22 ≤ k →
        (h.UpdateCircadianRhythm k).Melatonin = 80 + 10 * ((k : ℚ) - 22) ∧
          (h.UpdateCircadianRhythm k).Serotonin = 20) ∧
      (k < 6 →
        (h.UpdateCircadianRhythm k).Melatonin = 50 + 50 * (6 - (k : ℚ)) / 6 ∧
          (h.UpdateCircadianRhythm k).Serotonin = 20) ∧
      (6 ≤ k → k < 12 →
        (h.UpdateCircadianRhythm k).Melatonin = 10 ∧
          (h.UpdateCircadianRhythm k).Serotonin = 60 + 40 * ((k : ℚ) - 6) / 6) ∧
      (12 ≤ k → k < 22 →
        (h.UpdateCircadianRhythm k).Melatonin = 10 ∧
          (h.UpdateCircadianRhythm k).Serotonin = 100 - 40 * ((k : ℚ) - 12) / 10) ∧
      (h.UpdateCircadianRhythm k).Cortisol = h.Cortisol ∧
      (h.UpdateCircadianRhythm k).Oxytocin = h.Oxytocin := by
  have hkq0 : (0 : ℚ) ≤ (k : ℚ) := by exact_mod_cast hk0
  have hkq23 : (k : ℚ) ≤ 23 := by exact_mod_cast hk23
  refine ⟨?_, ?_, ?_, ?_, ?_, ?_⟩
  · intro h22
    have hq : (22 : ℚ) ≤ (k : ℚ) := by exact_mod_cast h22
    unfold Homeostasis.UpdateCircadianRhythm Homeostasis.clamp calculateNightMelatonin
      NightTimeStart DayTimeStart
    dsimp only
    rw [if_pos (Or.inl h22), if_pos h22]
    dsimp only
    push_cast
    constructor
    · rw [min_eq_right (by linarith), max_eq_right (by linarith)]
      ring
    · norm_num
  · intro h6
    have hq : (k : ℚ) < 6 := by exact_mod_cast h6
    have hn22 : ¬ (k ≥ 22) := by omega
    unfold Homeostasis.UpdateCircadianRhythm Homeostasis.clamp calculateNightMelatonin
      NightTimeStart DayTimeStart
    dsimp only
    rw [if_pos (Or.inr h6), if_neg hn22]
    dsimp only
    push_cast
    constructor
    · rw [min_eq_right (by linarith), max_eq_right (by linarith)]
      ring
    · norm_num
  · intro h6 h12
    have hq6 : (6 : ℚ) ≤ (k : ℚ) := by exact_mod_cast h6
    have hq12 : (k : ℚ) < 12 := by exact_mod_cast h12
    have hnight : ¬ (k ≥ 22 ∨ k < 6) := by omega
    unfold Homeostasis.UpdateCircadianRhythm Homeostasis.clamp calculateDaySerotonin
      NightTimeStart DayTimeStart
    dsimp only
    rw [if_neg hnight, if_pos ⟨h6, h12⟩]
    dsimp only
    push_cast
    constructor
    · norm_num
    · rw [min_eq_right (by linarith), max_eq_right (by linarith)]
      ring
  · intro h12 h22
    have hq12 : (12 : ℚ) ≤ (k : ℚ) := by exact_mod_cast h12
    have hq22 : (k : ℚ) < 22 := by exact_mod_cast h22
    have hnight : ¬ (k ≥ 22 ∨ k < 6) := by omega
    have hmorning : ¬ (k ≥ 6 ∧ k < 12) := by omega
    unfold Homeostasis.UpdateCircadianRhythm Homeostasis.clamp calculateDaySerotonin
      NightTimeStart DayTimeStart
    dsimp only
    rw [if_neg hnight, if_neg hmorning, if_pos ⟨h12, h22⟩]
    dsimp only
    push_cast
    constructor
    · norm_num
    · rw [min_eq_right (by linarith), max_eq_right (by linarith)]
      ring
  · unfold Homeostasis.UpdateCircadianRhythm Homeostasis.clamp
    dsimp only
    split_ifs <;> dsimp only <;> rw [min_eq_right hc.2, max_eq_right hc.1]
  · unfold Homeostasis.UpdateCircadianRhythm Homeostasis.clamp
    dsimp only
    split_ifs <;> dsimp only <;> rw [min_eq_right ho.2, max_eq_right ho.1]

theorem C15_circadian_witness :
    ((Homeostasis.New 0).UpdateCircadianRhythm 23).Melatonin = 90 ∧
      ((Homeostasis.New 0).UpdateCircadianRhythm 23).Serotonin = 20 ∧
      ((Homeostasis.New 0).UpdateCircadianRhythm 3).Melatonin = 75 ∧
      ((Homeostasis.New 0).UpdateCircadianRhythm 9).Serotonin = 80 ∧
      ((Homeostasis.New 0).UpdateCircadianRhythm 17).Serotonin = 80 ∧
      ((Homeostasis.New 0).UpdateCircadianRhythm 17).Cortisol = (Homeostasis.New 0).Cortisol :=
  have hc : 0 ≤ (Homeostasis.New 0).Cortisol ∧ (Homeostasis.New 0).Cortisol ≤ 100 := by
    norm_num [Homeostasis.New]
  have ho : 0 ≤ (Homeostasis.New 0).Oxytocin ∧ (Homeostasis.New 0).Oxytocin ≤ 100 := by
    norm_num [Homeostasis.New]
  have h23 := (C15_circadian (Homeostasis.New 0) 23 (by decide) (by decide) hc ho).1 (by decide)
  have h3 := (C15_circadian (Homeostasis.New 0) 3 (by decide) (by decide) hc ho).2.1 (by decide)
  have h9 := (C15_circadian (Homeostasis.New 0) 9 (by decide) (by decide) hc ho).2.2.1
    (by decide) (by decide)
  have h17 := C15_circadian (Homeostasis.New 0) 17 (by decide) (by decide) hc ho
  ⟨by rw [h23.1]; norm_num, h23.2, by rw [h3.1]; norm_num, by rw [h9.2]; norm_num,
    by rw [(h17.2.2.2.1 (by decide) (by decide)).2]; norm_num, h17.2.2.2.2.1⟩

/-! ### Sensory gate -/

theorem checkSimilarity_empty_right (lower : Char → Char) (t : Thalamus) (text : String) :
    t.checkSimilarity lower text "" = false := by
  unfold Thalamus.checkSimilarity
  rw [if_pos (Or.inr rfl)]

theorem checkSimilarity_self (lower : Char → Char) (t : Thalamus) (text : String)
    (hne : text ≠ "") : t.checkSimilarity lower text text = true := by
  unfold Thalamus.checkSimilarity
  rw [if_neg (by simp [hne]), if_pos rfl]

/-- The result of `Filter` when the text is similar to the baseline. -/
theorem Filter_similar (lower : Char → Char) (t : Thalamus) (input : SensoryInput)
    (h : t.checkSimilarity lower input.InputText t.LastInputText = true) :
    (t.Filter lower input).1 = Except.ok (1 / (1 + (1 / 2) * ((t.RepetitionCount + 1 : Int) : ℚ))) ∧
      (t.Filter lower input).2.RepetitionCount = t.RepetitionCount + 1 ∧
      (t.Filter lower input).2.LastInputText = t.LastInputText := by
  unfold Thalamus.Filter
  simp only [h, if_true]
  refine ⟨?_, ?_, ?_⟩ <;> first | rfl | trivial | (split_ifs <;> rfl)

/-- The result of `Filter` when the text is not similar to the baseline. -/
theorem Filter_novel (lower : Char → Char) (t : Thalamus) (input : SensoryInput)
    (h : t.checkSimilarity lower input.InputText t.LastInputText = false) :
    (t.Filter lower input).1 = Except.ok 1 ∧
      (t.Filter lower input).2.RepetitionCount = 0 ∧
      (t.Filter lower input).2.LastInputText = input.InputText := by
  unfold Thalamus.Filter
  simp only [h, Bool.false_eq_true, if_false]
  refine ⟨?_, ?_, ?_⟩
  · norm_num
  · split_ifs <;> rfl
  · split_ifs <;> rfl

theorem repeatFilter_spec (lower : Char → Char) (input : SensoryInput)
    (hne : input.InputText ≠ "") (n : Nat) :
    (Thalamus.New.repeatFilter lower input n).1 = Except.ok (1 / (1 + (1 / 2) * (n : ℚ))) ∧
      (Thalamus.New.repeatFilter lower input n).2.RepetitionCount = n ∧
      (Thalamus.New.repeatFilter lower input n).2.LastInputText = input.InputText := by
  induction n with
  | zero =>
    have h := Filter_novel lower Thalamus.New input
      (checkSimilarity_empty_right lower Thalamus.New input.InputText)
    refine ⟨?_, ?_, h.2.2⟩
    · show (Thalamus.New.Filter lower input).1 = _
      rw [h.1]
      norm_num
    · show (Thalamus.New.Filter lower input).2.RepetitionCount = _
      rw [h.2.1]
      rfl
  | succ n ih =>
    obtain ⟨-, hc, hl⟩ := ih
    have hsim : (Thalamus.New.repeatFilter lower input n).2.checkSimilarity lower
        input.InputText (Thalamus.New.repeatFilter lower input n).2.LastInputText = true := by
      rw [hl]
      exact checkSimilarity_self lower _ _ hne
    have h := Filter_similar lower (Thalamus.New.repeatFilter lower input n).2 input hsim
    refine ⟨?_, ?_, ?_⟩
    · show ((Thalamus.New.repeatFilter lower input n).2.Filter lower input).1 = _
      rw [h.1, hc]
      push_cast
      rfl
    · show ((Thalamus.New.repeatFilter lower input n).2.Filter lower input).2.RepetitionCount = _
      rw [h.2.1, hc]
      push_cast
      rfl
    · show ((Thalamus.New.repeatFilter lower input n).2.Filter lower input).2.LastInputText = _
      rw [h.2.2, hl]

/-- The gain formula is strictly decreasing in the repetition count. -/
theorem gain_strictAnti {m n : Nat} (hmn : m < n) :
    (1 : ℚ) / (1 + (1 / 2) * (n : ℚ)) < 1 / (1 + (1 / 2) * (m : ℚ)) := by
  have hm : (0 : ℚ) ≤ (m : ℚ) := Nat.cast_nonneg m
  have hlt : (m : ℚ) < (n : ℚ) := by exact_mod_cast hmn
  apply one_div_lt_one_div_of_lt
  · linarith
  · linarith

/-- C16: for every non-empty text, on a fresh Thalamus call number `n`
(`n = 0, 1, 2, ...`) of consecutive calls `Filter` with that text returns the gain
`1 / (1 + 0.5*n)` and leaves the repetition counter at `n`; the returned gains are
strictly decreasing in `n` and every gain lies in `(0, 1]`. -/
theorem C16_repeated_filter (lower : Char → Char) (input : SensoryInput)
    (hne : input.InputText ≠ "") (m n : Nat) :
    ∃ gm gn : ℚ,
      (Thalamus.New.repeatFilter lower input m).1 = Except.ok gm ∧
      (Thalamus.New.repeatFilter lower input n).1 = Except.ok gn ∧
      gn = 1 / (1 + (1 / 2) * (n : ℚ)) ∧
      (Thalamus.New.repeatFilter lower input n).2.RepetitionCount = n ∧
      0 < gn ∧ gn ≤ 1 ∧ (m < n → gn < gm) := by
  have hn : (0 : ℚ) ≤ (n : ℚ) := Nat.cast_nonneg n
  refine ⟨_, _, (repeatFilter_spec lower input hne m).1, (repeatFilter_spec lower input hne n).1,
    rfl, (repeatFilter_spec lower input hne n).2.1, ?_, ?_, fun hmn => gain_strictAnti hmn⟩
  · apply one_div_pos.mpr
    linarith
  · rw [div_le_one (by linarith)]
    linarith

theorem C16_repeated_filter_witness :
    ∃ gm gn : ℚ,
      (Thalamus.New.repeatFilter Char.toLower ⟨"chat", "hello", 0⟩ 1).1 = Except.ok gm ∧
      (Thalamus.New.repeatFilter Char.toLower ⟨"chat", "hello", 0⟩ 2).1 = Except.ok gn ∧
      gn = 1 / (1 + (1 / 2) * ((2 : Nat) : ℚ)) ∧
      (Thalamus.New.repeatFilter Char.toLower ⟨"chat", "hello", 0⟩ 2).2.RepetitionCount =
        (2 : Nat) ∧
      0 < gn ∧ gn ≤ 1 ∧ (1 < 2 → gn < gm) :=
  C16_repeated_filter Char.toLower ⟨"chat", "hello", 0⟩ (by decide) 1 2

/-- C17: in every Thalamus state, a call `Filter` whose text is not similar to the
remembered baseline text returns gain exactly `1`, sets the repetition counter to 0
and makes the text the new baseline; the first call on a fresh filter returns `1`
for every text. -/
theorem C17_novel_filter (lower : Char → Char) (t : Thalamus) (input : SensoryInput) :
    (t.checkSimilarity lower input.InputText t.LastInputText = false →
        (t.Filter lower input).1 = Except.ok 1 ∧
          (t.Filter lower input).2.RepetitionCount = 0 ∧
          (t.Filter lower input).2.LastInputText = input.InputText) ∧
      (Thalamus.New.Filter lower input).1 = Except.ok 1 :=
  ⟨Filter_novel lower t input,
    (Filter_novel lower Thalamus.New input
      (checkSimilarity_empty_right lower Thalamus.New input.InputText)).1⟩

theorem C17_novel_filter_witness :
    ((Thalamus.mk "hello" 3 (3 / 10) (8 / 10)).Filter Char.toLower ⟨"chat", "world", 0⟩).1 =
        Except.ok 1 ∧
      ((Thalamus.mk "hello" 3 (3 / 10) (8 / 10)).Filter Char.toLower
        ⟨"chat", "world", 0⟩).2.RepetitionCount = 0 ∧
      ((Thalamus.mk "hello" 3 (3 / 10) (8 / 10)).Filter Char.toLower
        ⟨"chat", "world", 0⟩).2.LastInputText = "world" :=
  (C17_novel_filter Char.toLower (Thalamus.mk "hello" 3 (3 / 10) (8 / 10))
    ⟨"chat", "world", 0⟩).1 (by decide)

theorem utf8Size_sum_eq_zero (l : List Char) (h : (l.map Char.utf8Size).sum = 0) : l = [] := by
  cases l with
  | nil => rfl
  | cons c cs =>
    rw [List.map_cons, List.sum_cons] at h
    have := Char.utf8Size_pos c
    omega

/-- A text that occurs within a text of the same byte length is that text. -/
theorem infix_len_eq (s l : String) (hinf : s.data <:+: l.data) (hlen : len s = len l) :
    s = l := by
  obtain ⟨p, q, hpq⟩ := hinf
  have hsum : (l.data.map Char.utf8Size).sum =
      (p.map Char.utf8Size).sum + (s.data.map Char.utf8Size).sum +
        (q.map Char.utf8Size).sum := by
    rw [← hpq, List.map_append, List.map_append, List.sum_append, List.sum_append]
  unfold len at hlen
  have hlen2 : (s.data.map Char.utf8Size).sum = (l.data.map Char.utf8Size).sum := by
    exact_mod_cast hlen
  have hp : p = [] := utf8Size_sum_eq_zero p (by omega)
  have hq : q = [] := utf8Size_sum_eq_zero q (by omega)
  subst hp hq
  rw [List.nil_append, List.append_nil] at hpq
  exact String.ext hpq

theorem checkSimilarity_iff (lower : Char → Char) (t : Thalamus) (a b : String)
    (hthr : t.similarityThreshold = 8 / 10) :
    t.checkSimilarity lower a b = true ↔ similarSpec lower a b := by
  unfold Thalamus.checkSimilarity similarSpec
  by_cases h0 : a = "" ∨ b = ""
  · rw [if_pos h0]
    constructor
    · intro h
      exact absurd h (by decide)
    · rintro ⟨ha, hb, -⟩
      rcases h0 with h0 | h0
      · exact absurd h0 ha
      · exact absurd h0 hb
  rw [if_neg h0]
  have ha : a ≠ "" := fun h => h0 (Or.inl h)
  have hb : b ≠ "" := fun h => h0 (Or.inr h)
  by_cases hab : a = b
  · rw [if_pos hab]
    exact ⟨fun _ => ⟨ha, hb, Or.inl (by rw [hab])⟩, fun _ => rfl⟩
  rw [if_neg hab]
  dsimp only
  by_cases hn : ToLower lower (TrimSpace a) = ToLower lower (TrimSpace b)
  · rw [if_pos hn]
    exact ⟨fun _ => ⟨ha, hb, Or.inl hn⟩, fun _ => rfl⟩
  rw [if_neg hn, hthr]
  by_cases hl : len (ToLower lower (TrimSpace a)) > len (ToLower lower (TrimSpace b))
  · rw [if_pos hl, if_pos hl]
    constructor
    · intro h
      split_ifs at h with hc
      · refine ⟨ha, hb, Or.inr ⟨_, _, Or.inr ⟨rfl, rfl⟩, le_of_lt hl, ?_, ?_⟩⟩
        · unfold Contains at hc
          exact of_decide_eq_true hc
        · exact of_decide_eq_true h
    · rintro ⟨-, -, h | ⟨s, l, hsl, hle, hinf, hr⟩⟩
      · exact absurd h hn
      · rcases hsl with ⟨rfl, rfl⟩ | ⟨rfl, rfl⟩
        · exact absurd hl (not_lt.mpr hle)
        · have hc : Contains (ToLower lower (TrimSpace a)) (ToLower lower (TrimSpace b)) = true := by
            unfold Contains
            exact decide_eq_true hinf
          rw [if_pos hc]
          exact decide_eq_true hr
  · rw [if_neg hl, if_neg hl]
    constructor
    · intro h
      split_ifs at h with hc
      · refine ⟨ha, hb, Or.inr ⟨_, _, Or.inl ⟨rfl, rfl⟩, not_lt.mp hl, ?_, ?_⟩⟩
        · unfold Contains at hc
          exact of_decide_eq_true hc
        · exact of_decide_eq_true h
    · rintro ⟨-, -, h | ⟨s, l, hsl, hle, hinf, hr⟩⟩
      · exact absurd h hn
      · rcases hsl with ⟨rfl, rfl⟩ | ⟨rfl, rfl⟩
        · have hc : Contains (ToLower lower (TrimSpace b)) (ToLower lower (TrimSpace a)) = true := by
            unfold Contains
            exact decide_eq_true hinf
          rw [if_pos hc]
          exact decide_eq_true hr
        · exact absurd (infix_len_eq _ _ hinf (le_antisymm hle (not_lt.mp hl))).symm hn

theorem similar_hello : Thalamus.New.checkSimilarity Char.toLower "Hello " "hello" = true := by
  decide

theorem similar_empty : Thalamus.New.checkSimilarity Char.toLower "" "hello" = false := by
  decide

theorem similar_abcdefg : Thalamus.New.checkSimilarity Char.toLower "abcdefg" "abcd" = false := by
  have h1 : ToLower Char.toLower (TrimSpace "abcdefg") = "abcdefg" := by decide
  have h2 : ToLower Char.toLower (TrimSpace "abcd") = "abcd" := by decide
  have l1 : len "abcdefg" = 7 := by decide
  have l2 : len "abcd" = 4 := by decide
  have hc : Contains "abcdefg" "abcd" = true := by decide
  unfold Thalamus.checkSimilarity
  rw [if_neg (by decide), if_neg (by decide)]
  dsimp only
  rw [h1, h2, if_neg (by decide)]
  norm_num [l1, l2, hc, Thalamus.New]

theorem similar_abcdefghij :
    Thalamus.New.checkSimilarity Char.toLower "abcdefghij" "abcdefghi" = true := by
  have h1 : ToLower Char.toLower (TrimSpace "abcdefghij") = "abcdefghij" := by decide
  have h2 : ToLower Char.toLower (TrimSpace "abcdefghi") = "abcdefghi" := by decide
  have l1 : len "abcdefghij" = 10 := by decide
  have l2 : len "abcdefghi" = 9 := by decide
  have hc : Contains "abcdefghij" "abcdefghi" = true := by decide
  unfold Thalamus.checkSimilarity
  rw [if_neg (by decide), if_neg (by decide)]
  dsimp only
  rw [h1, h2, if_neg (by decide)]
  norm_num [l1, l2, hc, Thalamus.New]

/-- C18: for all strings `a` and `b`, `checkSimilarity(a, b)` (with the threshold
`0.8` set by `New`) is true if and only if both are non-empty and either they are
equal after lower-casing and trimming surrounding white space, or the shorter
normalized string is a substring of the longer normalized string and
`len(shorter)/len(longer) ≥ 0.8`. `("Hello ", "hello")` is similar,
`("abcdefg", "abcd")` is not, `("abcdefghij", "abcdefghi")` is, `("", "hello")` is
not. -/
theorem C18_check_similarity (lower : Char → Char) (t : Thalamus) (a b : String)
    (hthr : t.similarityThreshold = 8 / 10) :
    (t.checkSimilarity lower a b = true ↔ similarSpec lower a b) ∧
      Thalamus.New.checkSimilarity Char.toLower "Hello " "hello" = true ∧
      Thalamus.New.checkSimilarity Char.toLower "abcdefg" "abcd" = false ∧
      Thalamus.New.checkSimilarity Char.toLower "abcdefghij" "abcdefghi" = true ∧
      Thalamus.New.checkSimilarity Char.toLower "" "hello" = false :=
  ⟨checkSimilarity_iff lower t a b hthr, similar_hello, similar_abcdefg, similar_abcdefghij,
    similar_empty⟩

theorem C18_check_similarity_witness :
    (Thalamus.New.checkSimilarity Char.toLower "Hello " "hello" = true ↔
        similarSpec Char.toLower "Hello " "hello") ∧
      similarSpec Char.toLower "Hello " "hello" :=
  have h := (C18_check_similarity Char.toLower Thalamus.New "Hello " "hello" rfl)
  ⟨h.1, h.1.mp h.2.1⟩

/-! ### Reflexive appraisal -/

/-- A string that is not a key of the lexicon is not found by the map read. -/
theorem lookup_none_of_not_key (dict : List (String × EmotionValue)) (k : String)
    (h : k ∉ dict.map Prod.fst) : dict.lookup k = none := by
  rw [List.lookup_eq_none_iff]
  intro p hp
  have hne : k ≠ p.1 := fun heq => h (heq ▸ List.mem_map_of_mem Prod.fst hp)
  simpa using hne

/-- The entry found by the map read is an entry of the lexicon. -/
theorem lookup_mem (dict : List (String × EmotionValue)) (k : String) (v : EmotionValue)
    (h : dict.lookup k = some v) : v ∈ dict.map Prod.snd := by
  induction dict with
  | nil => simp at h
  | cons kv rest ih =>
    obtain ⟨k', v'⟩ := kv
    rw [List.lookup_cons] at h
    split at h
    · rw [List.map_cons]
      have hv : v' = v := Option.some.inj h
      subst hv
      exact List.mem_cons_self _ _
    · rw [List.map_cons]
      exact List.mem_cons_of_mem _ (ih h)

/-- The token loop applies `updateEmotionMap` to the hits in token order and sets
`hit` as soon as there is one. -/
theorem assessLoop_eq (dict : List (String × EmotionValue)) (tokens : List Token) :
    ∀ (em : EmotionMap) (hit : Bool),
      assessLoop dict tokens (em, hit) =
        ((specHits dict tokens).foldl updateEmotionMap em,
          hit || !(specHits dict tokens).isEmpty) := by
  induction tokens with
  | nil =>
    intro em hit
    simp [assessLoop, specHits]
  | cons token rest ih =>
    intro em hit
    unfold assessLoop
    by_cases hd : token.Class = TokenClass.DUMMY
    · have hs : specHit dict token = none := by
        unfold specHit
        rw [if_pos hd]
      rw [if_pos hd, ih]
      unfold specHits
      rw [List.filterMap_cons_none hs]
    · rw [if_neg hd]
      dsimp only
      cases h1 : dict.lookup token.Surface with
      | some val =>
        have hs : specHit dict token = some val := by
          unfold specHit
          rw [if_neg hd, h1]
        dsimp only
        rw [ih]
        unfold specHits
        rw [List.filterMap_cons_some hs]
        simp
      | none =>
        cases h2 : dict.lookup (extractBaseForm token) with
        | some val =>
          have hs : specHit dict token = some val := by
            unfold specHit
            rw [if_neg hd, h1]
            exact h2
          dsimp only
          rw [ih]
          unfold specHits
          rw [List.filterMap_cons_some hs]
          simp
        | none =>
          have hs : specHit dict token = none := by
            unfold specHit
            rw [if_neg hd, h1]
            exact h2
          dsimp only
          rw [ih]
          unfold specHits
          rw [List.filterMap_cons_none hs]

/-- Every hit is an entry of the lexicon. -/
theorem specHits_mem (dict : List (String × EmotionValue)) (tokens : List Token) :
    ∀ v ∈ specHits dict tokens, v ∈ dict.map Prod.snd := by
  intro v hv
  unfold specHits at hv
  obtain ⟨token, -, ht⟩ := List.mem_filterMap.mp hv
  unfold specHit at ht
  split_ifs at ht
  cases h1 : dict.lookup token.Surface with
  | some val =>
    rw [h1] at ht
    have hval : val = v := Option.some.inj ht
    subst hval
    exact lookup_mem dict _ _ h1
  | none =>
    rw [h1] at ht
    exact lookup_mem dict _ _ ht

/-- C19: for every token sequence (the empty one included) in which no non-dummy
token has a surface form or a base form that is a key of the lexicon, `Assess`
returns exactly the one-entry vector `[(Neutral, 10)]`. -/
theorem C19_assess_neutral (a : Amygdala) (order : List EmotionValue → List EmotionValue)
    (text : String)
    (hno : ∀ token ∈ a.tokenizer text, token.Class ≠ TokenClass.DUMMY →
      token.Surface ∉ a.dict.map Prod.fst ∧ extractBaseForm token ∉ a.dict.map Prod.fst) :
    a.Assess order text = [{ Code := EmotionNeutral, Value := 10 }] := by
  have hhits : specHits a.dict (a.tokenizer text) = [] := by
    unfold specHits
    rw [List.filterMap_eq_nil_iff]
    intro token ht
    unfold specHit
    by_cases hd : token.Class = TokenClass.DUMMY
    · rw [if_pos hd]
    · rw [if_neg hd, lookup_none_of_not_key _ _ (hno token ht hd).1]
      exact lookup_none_of_not_key _ _ (hno token ht hd).2
  unfold Amygdala.Assess
  dsimp only
  rw [assessLoop_eq, hhits]
  rfl

theorem C19_assess_neutral_witness :
    (Amygdala.New (fixedTokenizer [⟨TokenClass.KNOWN, "xyzabc", []⟩,
        ⟨TokenClass.DUMMY, "最高", []⟩])).Assess id "xyzabc" =
      [{ Code := EmotionNeutral, Value := 10 }] :=
  C19_assess_neutral _ id "xyzabc" (by decide)

theorem emotionMapGet_update (em : EmotionMap) (v : EmotionValue) (c : EmotionCode) :
    emotionMapGet (updateEmotionMap em v) c =
      if c = v.Code then min 100 (emotionMapGet em c + v.Value) else emotionMapGet em c := by
  unfold updateEmotionMap
  dsimp only
  by_cases hc : c = v.Code
  · subst hc
    rw [if_pos rfl]
    unfold emotionMapGet
    rw [AList.lookup_insert, Option.getD_some]
    split_ifs with h
    · rw [min_eq_left (le_of_lt h)]
    · rw [min_eq_right (not_lt.mp h)]
  · rw [if_neg hc]
    unfold emotionMapGet
    rw [AList.lookup_insert_ne hc]

theorem hitSum_cons (v : EmotionValue) (hits : List EmotionValue) (c : EmotionCode) :
    hitSum (v :: hits) c = (if v.Code = c then v.Value else 0) + hitSum hits c := by
  unfold hitSum
  by_cases h : v.Code = c
  · rw [List.filter_cons_of_pos (by simpa using h), List.map_cons, List.sum_cons, if_pos h]
  · rw [List.filter_cons_of_neg (by simpa using h), if_neg h, zero_add]

theorem hitSum_nonneg (hits : List EmotionValue) (c : EmotionCode)
    (hnn : ∀ v ∈ hits, 0 ≤ v.Value) : 0 ≤ hitSum hits c := by
  induction hits with
  | nil => simp [hitSum]
  | cons v rest ih =>
    rw [hitSum_cons]
    have h1 := hnn v (List.mem_cons_self _ _)
    have h2 := ih (fun w hw => hnn w (List.mem_cons_of_mem _ hw))
    split_ifs <;> linarith

/-- After accumulating non-negative hits the map holds, for every code, the capped
sum of what it held and the hits with that code. -/
theorem emotionMapGet_foldl (hits : List EmotionValue) (c : EmotionCode)
    (hnn : ∀ v ∈ hits, 0 ≤ v.Value) :
    ∀ em : EmotionMap, emotionMapGet em c ≤ 100 →
      emotionMapGet (hits.foldl updateEmotionMap em) c =
        min 100 (emotionMapGet em c + hitSum hits c) := by
  induction hits with
  | nil =>
    intro em hle
    simp [hitSum, hle]
  | cons v rest ih =>
    intro em hle
    have hv := hnn v (List.mem_cons_self _ _)
    have hrest : ∀ w ∈ rest, 0 ≤ w.Value := fun w hw => hnn w (List.mem_cons_of_mem _ hw)
    have hs := hitSum_nonneg rest c hrest
    rw [List.foldl_cons, hitSum_cons]
    have hle2 : emotionMapGet (updateEmotionMap em v) c ≤ 100 := by
      rw [emotionMapGet_update]
      split_ifs
      · exact min_le_left _ _
      · exact hle
    rw [ih hrest _ hle2, emotionMapGet_update]
    by_cases hc : c = v.Code
    · rw [if_pos hc, if_pos hc.symm]
      rcases le_total (emotionMapGet em c + v.Value) 100 with h | h
      · rw [min_eq_right h, add_assoc]
      · rw [min_eq_left h, min_eq_left (by linarith), min_eq_left (by linarith)]
    · rw [if_neg hc, if_neg (fun h => hc h.symm), zero_add]

/-- The keys of the map after accumulation: the old keys and the codes of the hits. -/
theorem mem_foldl_update (hits : List EmotionValue) (c : EmotionCode) :
    ∀ em : EmotionMap,
      c ∈ hits.foldl updateEmotionMap em ↔ c ∈ em ∨ c ∈ hits.map EmotionValue.Code := by
  induction hits with
  | nil =>
    intro em
    simp
  | cons v rest ih =>
    intro em
    rw [List.foldl_cons, ih]
    unfold updateEmotionMap
    dsimp only
    rw [AList.mem_insert, List.map_cons, List.mem_cons]
    tauto

/-- C20: for every token sequence with at least one lexicon hit (lexicon
intensities being non-negative, as in the fixed lexicon), the vector returned by
`Assess` contains each emotion code at most once, contains exactly the codes of the
hits, and the intensity of the entry of code `c` is `min(100, sum of the lexicon
intensities of all hits with code c)`, where each non-dummy token contributes at
most one hit: the lexicon entry of its surface form if that is a key, otherwise the
entry of its base form if that is a key. -/
theorem C20_assess_accumulates (a : Amygdala) (order : List EmotionValue → List EmotionValue)
    (text : String) (horder : ∀ l, (order l).Perm l)
    (hnn : ∀ v ∈ a.dict.map Prod.snd, 0 ≤ v.Value)
    (hhit : specHits a.dict (a.tokenizer text) ≠ []) :
    UniqueCodes (a.Assess order text) ∧
      (∀ e ∈ a.Assess order text,
        e.Value = min 100 (hitSum (specHits a.dict (a.tokenizer text)) e.Code)) ∧
      (∀ c, c ∈ (a.Assess order text).map EmotionValue.Code ↔
        c ∈ (specHits a.dict (a.tokenizer text)).map EmotionValue.Code) := by
  have hnn2 : ∀ v ∈ specHits a.dict (a.tokenizer text), 0 ≤ v.Value :=
    fun v hv => hnn v (specHits_mem _ _ v hv)
  have hres : (a.Assess order text).Perm
      (((specHits a.dict (a.tokenizer text)).foldl updateEmotionMap ∅).entries.map
        (fun e => ({ Code := e.1, Value := e.2 } : EmotionValue))) := by
    unfold Amygdala.Assess
    dsimp only
    rw [assessLoop_eq]
    have hne : (specHits a.dict (a.tokenizer text)).isEmpty = false := by
      cases h : specHits a.dict (a.tokenizer text) with
      | nil => exact absurd h hhit
      | cons _ _ => rfl
    simp only [hne, Bool.not_false, Bool.or_true, Bool.not_true, Bool.false_eq_true, if_false]
    unfold ToEmotionValues
    exact (List.perm_insertionSort _ _).trans (horder _)
  have hcodes : ((a.Assess order text).map EmotionValue.Code).Perm
      ((specHits a.dict (a.tokenizer text)).foldl updateEmotionMap ∅).keys := by
    have h := hres.map EmotionValue.Code
    rw [List.map_map] at h
    exact h
  refine ⟨?_, ?_, ?_⟩
  · unfold UniqueCodes
    rw [hcodes.nodup_iff]
    exact AList.keys_nodup _
  · intro e he
    have he2 := hres.mem_iff.mp he
    obtain ⟨entry, hentry, rfl⟩ := List.mem_map.mp he2
    dsimp only
    have hlook : ((specHits a.dict (a.tokenizer text)).foldl updateEmotionMap ∅).lookup entry.1 =
        some entry.2 := by
      have : entry.2 ∈ ((specHits a.dict (a.tokenizer text)).foldl updateEmotionMap ∅).lookup
          entry.1 := AList.mem_lookup_iff.mpr hentry
      exact this
    have hget := emotionMapGet_foldl (specHits a.dict (a.tokenizer text)) entry.1 hnn2 ∅
      (by unfold emotionMapGet; rw [AList.lookup_empty]; decide)
    unfold emotionMapGet at hget
    rw [hlook, AList.lookup_empty] at hget
    simpa using hget
  · intro c
    rw [hcodes.mem_iff, ← AList.mem_keys, mem_foldl_update]
    constructor
    · rintro (h | h)
      · exact absurd h (AList.not_mem_empty c)
      · exact h
    · exact Or.inr

theorem C20_assess_accumulates_witness :
    UniqueCodes ((Amygdala.New (fixedTokenizer [⟨TokenClass.KNOWN, "バグ", []⟩,
        ⟨TokenClass.DUMMY, "怒", []⟩, ⟨TokenClass.KNOWN, "最高", []⟩,
        ⟨TokenClass.KNOWN, "嬉しかっ", ["*", "*", "*", "*", "*", "*", "嬉しい"]⟩])).Assess id
        "text") ∧
      (Amygdala.New (fixedTokenizer [⟨TokenClass.KNOWN, "バグ", []⟩,
        ⟨TokenClass.DUMMY, "怒", []⟩, ⟨TokenClass.KNOWN, "最高", []⟩,
        ⟨TokenClass.KNOWN, "嬉しかっ", ["*", "*", "*", "*", "*", "*", "嬉しい"]⟩])).Assess id
        "text" = [⟨EmotionJoy, 100⟩, ⟨EmotionFear, 80⟩] :=
  ⟨(C20_assess_accumulates (Amygdala.New (fixedTokenizer [⟨TokenClass.KNOWN, "バグ", []⟩,
        ⟨TokenClass.DUMMY, "怒", []⟩, ⟨TokenClass.KNOWN, "最高", []⟩,
        ⟨TokenClass.KNOWN, "嬉しかっ", ["*", "*", "*", "*", "*", "*", "嬉しい"]⟩])) id "text"
      (fun l => List.Perm.refl l) (by decide) (by decide)).1,
    by decide⟩

/-! ### Keywords of the lexicon -/

/-- With at least one hit, `Assess` returns the entries of the accumulated map in
some order. -/
theorem Assess_perm (a : Amygdala) (order : List EmotionValue → List EmotionValue)
    (text : String) (horder : ∀ l, (order l).Perm l)
    (hhit : specHits a.dict (a.tokenizer text) ≠ []) :
    (a.Assess order text).Perm
      (((specHits a.dict (a.tokenizer text)).foldl updateEmotionMap ∅).entries.map
        (fun e => ({ Code := e.1, Value := e.2 } : EmotionValue))) := by
  unfold Amygdala.Assess
  dsimp only
  rw [assessLoop_eq]
  have hne : (specHits a.dict (a.tokenizer text)).isEmpty = false := by
    cases h : specHits a.dict (a.tokenizer text) with
    | nil => exact absurd h hhit
    | cons _ _ => rfl
  simp only [hne, Bool.not_false, Bool.or_true, Bool.not_true, Bool.false_eq_true, if_false]
  unfold ToEmotionValues
  exact (List.perm_insertionSort _ _).trans (horder _)

/-- With at least one hit, the codes of the vector returned by `Assess` are the codes
of the hits. -/
theorem Assess_codes (a : Amygdala) (order : List EmotionValue → List EmotionValue)
    (text : String) (horder : ∀ l, (order l).Perm l)
    (hhit : specHits a.dict (a.tokenizer text) ≠ []) (c : EmotionCode) :
    c ∈ (a.Assess order text).map EmotionValue.Code ↔
      c ∈ (specHits a.dict (a.tokenizer text)).map EmotionValue.Code := by
  have h := (Assess_perm a order text horder hhit).map EmotionValue.Code
  rw [List.map_map] at h
  have hk : ((a.Assess order text).map EmotionValue.Code).Perm
      ((specHits a.dict (a.tokenizer text)).foldl updateEmotionMap ∅).keys := h
  rw [hk.mem_iff, ← AList.mem_keys, mem_foldl_update]
  constructor
  · rintro (h | h)
    · exact absurd h (AList.not_mem_empty c)
    · exact h
  · exact Or.inr

/-- A non-dummy token whose surface form is a key contributes the entry of that key. -/
theorem specHits_of_surface (dict : List (String × EmotionValue)) (tokens : List Token)
    (token : Token) (v : EmotionValue) (ht : token ∈ tokens)
    (hd : token.Class ≠ TokenClass.DUMMY) (hl : dict.lookup token.Surface = some v) :
    v ∈ specHits dict tokens := by
  unfold specHits
  rw [List.mem_filterMap]
  refine ⟨token, ht, ?_⟩
  unfold specHit
  rw [if_neg hd, hl]

/-- A non-dummy token with a key as surface form puts the code of the key's entry
into the vector returned by `Assess`. -/
theorem Assess_has_code (a : Amygdala) (order : List EmotionValue → List EmotionValue)
    (text : String) (horder : ∀ l, (order l).Perm l) (token : Token) (v : EmotionValue)
    (ht : token ∈ a.tokenizer text) (hd : token.Class ≠ TokenClass.DUMMY)
    (hl : a.dict.lookup token.Surface = some v) :
    ∃ e ∈ a.Assess order text, e.Code = v.Code := by
  have hv := specHits_of_surface a.dict _ token v ht hd hl
  have hhit : specHits a.dict (a.tokenizer text) ≠ [] := List.ne_nil_of_mem hv
  have hc := (Assess_codes a order text horder hhit v.Code).mpr (List.mem_map_of_mem _ hv)
  obtain ⟨e, he, hec⟩ := List.mem_map.mp hc
  exact ⟨e, he, hec⟩

/-- C21: the fixed lexicon maps 嬉しい and 最高 to Joy and バグ to Fear, so for every
token sequence of the analyser (built with `OmitBosEos`, so without dummy tokens) that
contains a token with surface form バグ and a token with surface form 最高, `Assess`
returns a vector containing both a Fear entry and a Joy entry; for a sequence
containing a token with surface form 嬉しい it returns a vector containing a Joy
entry. -/
theorem C21_assess_keywords (tokenizer : String → List Token)
    (order : List EmotionValue → List EmotionValue) (text : String)
    (hopt : OmitBosEos tokenizer) (horder : ∀ l, (order l).Perm l) :
    (initializeDictionary.lookup "嬉しい" = some ⟨EmotionJoy, 85⟩ ∧
        initializeDictionary.lookup "最高" = some ⟨EmotionJoy, 90⟩ ∧
        initializeDictionary.lookup "バグ" = some ⟨EmotionFear, 80⟩) ∧
      ((∃ t ∈ tokenizer text, t.Surface = "バグ") →
        (∃ t ∈ tokenizer text, t.Surface = "最高") →
        (∃ e ∈ (Amygdala.New tokenizer).Assess order text, e.Code = EmotionFear) ∧
          (∃ e ∈ (Amygdala.New tokenizer).Assess order text, e.Code = EmotionJoy)) ∧
      ((∃ t ∈ tokenizer text, t.Surface = "嬉しい") →
        ∃ e ∈ (Amygdala.New tokenizer).Assess order text, e.Code = EmotionJoy) := by
  have h1 : initializeDictionary.lookup "嬉しい" = some ⟨EmotionJoy, 85⟩ := by decide
  have h2 : initializeDictionary.lookup "最高" = some ⟨EmotionJoy, 90⟩ := by decide
  have h3 : initializeDictionary.lookup "バグ" = some ⟨EmotionFear, 80⟩ := by decide
  refine ⟨⟨h1, h2, h3⟩, ?_, ?_⟩
  · rintro ⟨t1, ht1, hs1⟩ ⟨t2, ht2, hs2⟩
    constructor
    · exact Assess_has_code (Amygdala.New tokenizer) order text horder t1 _ ht1
        (hopt text t1 ht1) (by rw [hs1]; exact h3)
    · exact Assess_has_code (Amygdala.New tokenizer) order text horder t2 _ ht2
        (hopt text t2 ht2) (by rw [hs2]; exact h2)
  · rintro ⟨t, ht, hs⟩
    exact Assess_has_code (Amygdala.New tokenizer) order text horder t _ ht
      (hopt text t ht) (by rw [hs]; exact h1)

/-- On the token sequence `バグ`, `最高` the vector has a Fear and a Joy entry. -/
theorem C21_assess_keywords_witness :
    OmitBosEos (fixedTokenizer [Token.mk TokenClass.KNOWN "バグ" [],
        Token.mk TokenClass.KNOWN "最高" []]) ∧
      (∃ e ∈ (Amygdala.New (fixedTokenizer [Token.mk TokenClass.KNOWN "バグ" [],
        Token.mk TokenClass.KNOWN "最高" []])).Assess id "バグ 最高", e.Code = EmotionFear) ∧
      (∃ e ∈ (Amygdala.New (fixedTokenizer [Token.mk TokenClass.KNOWN "バグ" [],
        Token.mk TokenClass.KNOWN "最高" []])).Assess id "バグ 最高", e.Code = EmotionJoy) :=
  have hopt : OmitBosEos (fixedTokenizer [Token.mk TokenClass.KNOWN "バグ" [],
      Token.mk TokenClass.KNOWN "最高" []]) := by
    intro text t ht
    simp only [fixedTokenizer, List.mem_cons, List.mem_singleton, List.not_mem_nil,
      or_false] at ht
    rcases ht with rfl | rfl <;> decide
  ⟨hopt, (C21_assess_keywords (fixedTokenizer [Token.mk TokenClass.KNOWN "バグ" [],
      Token.mk TokenClass.KNOWN "最高" []]) id "バグ 最高" hopt
      (fun l => List.Perm.refl l)).2.1
    ⟨Token.mk TokenClass.KNOWN "バグ" [], by decide, rfl⟩
    ⟨Token.mk TokenClass.KNOWN "最高" [], by decide, rfl⟩⟩

/-! ### Emotional contagion -/

/-- For a non-negative value the conversion `int(x)` is the floor. -/
theorem truncQ_eq_floor {q : ℚ} (h : 0 ≤ q) : truncQ q = ⌊q⌋ := by
  unfold truncQ
  rw [if_pos h]

/-- The float64 product of `BlendEmotions` for an intensity in `[0,100]` and an empathy
level in `[0,1]` lies in `[0,50]`, within `1e-13` of the exact product. -/
theorem contagion_range {v : Int} {e : ℚ} (hv0 : 0 ≤ v) (hv1 : v ≤ 100) (he0 : 0 ≤ e)
    (he1 : e ≤ 1) :
    0 ≤ contagionF64 v e ∧ contagionF64 v e ≤ 50 ∧
      |contagionF64 v e - (v : ℚ) * e * (1 / 2)| ≤ 1 / 10 ^ 13 := by
  have hvq0 : (0 : ℚ) ≤ (v : ℚ) := by exact_mod_cast hv0
  have hvq1 : (v : ℚ) ≤ 100 := by exact_mod_cast hv1
  have hv : f64 (v : ℚ) = v := f64_intCast v (abs_lt.mpr ⟨by linarith, by linarith⟩)
  have hp : 0 ≤ (v : ℚ) * e := mul_nonneg hvq0 he0
  have hq : (v : ℚ) * e ≤ 100 := by nlinarith
  have h100 : f64 (100 : ℚ) = 100 := by simpa using f64_intCast 100 (by norm_num)
  have h50 : f64 (50 : ℚ) = 50 := by simpa using f64_intCast 50 (by norm_num)
  have ha0 : 0 ≤ f64 ((v : ℚ) * e) := f64_nonneg hp
  have ha1 : f64 ((v : ℚ) * e) ≤ 100 := f64_le hq h100
  have hb0 : 0 ≤ f64 (f64 ((v : ℚ) * e) * (1 / 2)) := f64_nonneg (by linarith)
  have hb1 : f64 (f64 ((v : ℚ) * e) * (1 / 2)) ≤ 50 := f64_le (by linarith) h50
  have e1 := f64_error_small (a := (v : ℚ) * e) (by rw [abs_of_nonneg hp]; linarith)
  have e2 := f64_error_small (a := f64 ((v : ℚ) * e) * (1 / 2))
    (by rw [abs_of_nonneg (by linarith)]; linarith)
  unfold contagionF64
  rw [hv]
  refine ⟨hb0, hb1, ?_⟩
  rw [abs_le] at e1 e2 ⊢
  constructor <;> norm_num <;> linarith [e1.1, e1.2, e2.1, e2.2]

/-- On the empty self vector `BlendEmotions` returns the single entry of the contagion
amount when that is positive, and the empty vector otherwise. -/
theorem BlendEmotions_nil (userEmotion : EmotionValue) (empathyStrength : ℚ) :
    (BlendEmotions userEmotion [] empathyStrength).1 =
      (if 0 < truncQ (contagionF64 userEmotion.Value empathyStrength) then
        [(⟨userEmotion.Code,
          truncQ (contagionF64 userEmotion.Value empathyStrength)⟩ : EmotionValue)]
      else []) := by
  unfold BlendEmotions contagionF64
  dsimp only
  by_cases hc : 0 < truncQ
      (f64 (f64 (f64 (userEmotion.Value : ℚ) * empathyStrength) * (1 / 2)))
  · rw [if_neg (not_le.mpr hc), if_pos hc]
    simp [blendLoop]
  · rw [if_pos (not_lt.mp hc), if_neg hc]

/-- The float64 product for intensity 7 and empathy level 0.5 is 1.75. -/
theorem contagionF64_seven : contagionF64 7 (1 / 2) = 7 / 4 := by
  have h1 : f64 ((7 : Int) : ℚ) = 7 := by simpa using f64_intCast 7 (by norm_num)
  have h2 : f64 ((7 : ℚ) * (1 / 2)) = 7 * (1 / 2) :=
    f64_exact 7 (-1) (by norm_num) (by norm_num) (by norm_num)
  have h3 : f64 ((7 : ℚ) * (1 / 2) * (1 / 2)) = 7 * (1 / 2) * (1 / 2) :=
    f64_exact 7 (-2) (by norm_num) (by norm_num) (by norm_num)
  unfold contagionF64
  rw [h1, h2, h3]
  norm_num

/-- The float64 value nearest to 0.48. -/
theorem f64_048 : f64 (48 / 100) = 1080863910568919 / 2251799813685248 := by
  rw [f64_eval (-2) 8646911284551352 (by norm_num) (by norm_num) (by norm_num)
    (by norm_num [roundHalfEven])]
  norm_num

/-- The float64 product for intensity 50 and the empathy level nearest to 0.48 is 12,
the exact product being below 12. -/
theorem contagionF64_fifty : contagionF64 50 (f64 (48 / 100)) = 12 := by
  have h1 : f64 ((50 : Int) : ℚ) = 50 := by simpa using f64_intCast 50 (by norm_num)
  have h2 : f64 ((50 : ℚ) * (1080863910568919 / 2251799813685248)) = 24 := by
    rw [f64_eval 4 6755399441055744 (by norm_num) (by norm_num) (by norm_num)
      (by norm_num [roundHalfEven])]
    norm_num
  have h3 : f64 ((24 : ℚ) * (1 / 2)) = 12 := by
    rw [f64_exact 12 0 (by norm_num) (by norm_num) (by norm_num)]
    norm_num
  unfold contagionF64
  rw [f64_048, h1, h2, h3]

/-- C22 (as stated) fails: the contagion amount is not rounded to the nearest
integer. For intensity 7 and empathy level `0.5` the product is `1.75`, which rounds
to 2, and `BlendEmotions` adds 1. Nor is the amount the truncation of the exact
product: for intensity 50 and the float64 empathy level nearest to 0.48 the exact
product is below 12 and truncates to 11, while the float64 product is 12 and
`BlendEmotions` adds 12. -/
theorem C22_contagion_truncates :
    (BlendEmotions ⟨EmotionJoy, 7⟩ [] (1 / 2)).1 = [⟨EmotionJoy, 1⟩] ∧
      round ((7 : ℚ) * (1 / 2) * (1 / 2)) = 2 ∧
      (BlendEmotions ⟨EmotionJoy, 50⟩ [] (f64 (48 / 100))).1 = [⟨EmotionJoy, 12⟩] ∧
      truncQ ((50 : ℚ) * f64 (48 / 100) * (1 / 2)) = 11 := by
  refine ⟨?_, ?_, ?_, ?_⟩
  · rw [BlendEmotions_nil]
    dsimp only
    rw [contagionF64_seven]
    norm_num [truncQ]
  · rw [round_eq]
    norm_num
  · rw [BlendEmotions_nil]
    dsimp only
    rw [contagionF64_fifty]
    norm_num [truncQ]
  · rw [f64_048]
    norm_num [truncQ]

/-- C22 (amended): for every other-party emotion with intensity in `[0,100]` and
every empathy level in `[0,1]`, the contagion amount that `BlendEmotions` adds is the
float64 product `intensity * empathyLevel * 0.5` truncated to an integer (rounded
down): it is the integer `c` with `c ≤ product < c + 1`, it lies in `[0,50]`, and on
the empty self vector the result is `[(code, c)]` when `c > 0` and the empty vector
otherwise. The float64 product is within `1e-13` of the exact product, so `c` differs
from the truncated exact product by at most 1. -/
theorem C22_contagion_amount (userEmotion : EmotionValue) (empathyStrength : ℚ)
    (hv0 : 0 ≤ userEmotion.Value) (hv1 : userEmotion.Value ≤ 100)
    (he0 : 0 ≤ empathyStrength) (he1 : empathyStrength ≤ 1) :
    (BlendEmotions userEmotion [] empathyStrength).1 =
        (if 0 < ⌊contagionF64 userEmotion.Value empathyStrength⌋ then
          [(⟨userEmotion.Code,
            ⌊contagionF64 userEmotion.Value empathyStrength⌋⟩ : EmotionValue)]
        else []) ∧
      ((⌊contagionF64 userEmotion.Value empathyStrength⌋ : Int) : ℚ) ≤
        contagionF64 userEmotion.Value empathyStrength ∧
      contagionF64 userEmotion.Value empathyStrength <
        ((⌊contagionF64 userEmotion.Value empathyStrength⌋ : Int) : ℚ) + 1 ∧
      0 ≤ ⌊contagionF64 userEmotion.Value empathyStrength⌋ ∧
      ⌊contagionF64 userEmotion.Value empathyStrength⌋ ≤ 50 ∧
      |contagionF64 userEmotion.Value empathyStrength -
        (userEmotion.Value : ℚ) * empathyStrength * (1 / 2)| ≤ 1 / 10 ^ 13 ∧
      |⌊contagionF64 userEmotion.Value empathyStrength⌋ -
        ⌊(userEmotion.Value : ℚ) * empathyStrength * (1 / 2)⌋| ≤ 1 := by
  obtain ⟨h0, h50, hclose⟩ := contagion_range hv0 hv1 he0 he1
  have hvq0 : (0 : ℚ) ≤ (userEmotion.Value : ℚ) := by exact_mod_cast hv0
  have hnn : 0 ≤ (userEmotion.Value : ℚ) * empathyStrength * (1 / 2) :=
    mul_nonneg (mul_nonneg hvq0 he0) (by norm_num)
  have hfl := truncQ_eq_floor h0
  have hfl' := truncQ_eq_floor hnn
  have hc := truncQ_close (le_trans hclose (by norm_num))
  rw [hfl, hfl'] at hc
  refine ⟨?_, Int.floor_le _, Int.lt_floor_add_one _, Int.floor_nonneg.mpr h0, ?_, hclose, hc⟩
  · rw [BlendEmotions_nil, hfl]
  · have : ⌊contagionF64 userEmotion.Value empathyStrength⌋ ≤ ⌊(50 : ℚ)⌋ :=
      Int.floor_mono h50
    simpa using this

/-- For intensity 7 and empathy level 0.5 the amount is 1. -/
theorem C22_contagion_amount_witness :
    (BlendEmotions ⟨EmotionJoy, 7⟩ [] (1 / 2)).1 =
        (if 0 < ⌊contagionF64 7 (1 / 2)⌋ then
          [{ Code := EmotionJoy, Value := ⌊contagionF64 7 (1 / 2)⌋ }]
        else []) ∧
      ⌊contagionF64 7 (1 / 2)⌋ = 1 :=
  ⟨(C22_contagion_amount ⟨EmotionJoy, 7⟩ (1 / 2) (by decide) (by decide) (by norm_num)
      (by norm_num)).1,
    by rw [contagionF64_seven]; norm_num [Int.floor_eq_iff]⟩

theorem addedAt_codes (code : EmotionCode) (c : Int) (v : List EmotionValue) :
    (addedAt code c v).map EmotionValue.Code = v.map EmotionValue.Code := by
  unfold addedAt
  rw [List.map_map]
  apply List.map_congr_left
  intro e _
  simp only [Function.comp]
  split_ifs <;> rfl

theorem addedAt_of_not_mem (code : EmotionCode) (c : Int) (v : List EmotionValue)
    (h : code ∉ v.map EmotionValue.Code) : addedAt code c v = v := by
  unfold addedAt
  conv_rhs => rw [← List.map_id v]
  apply List.map_congr_left
  intro e he
  have hne : e.Code ≠ code := fun heq => h (heq ▸ List.mem_map_of_mem _ he)
  rw [if_neg hne]
  rfl

/-- The loop of `BlendEmotions` on a vector without the code. -/
theorem blendLoop_of_not_mem (code : EmotionCode) (c : Int) :
    ∀ v : List EmotionValue, code ∉ v.map EmotionValue.Code → blendLoop code c v = (v, false) := by
  intro v
  induction v with
  | nil => intro _; rfl
  | cons e rest ih =>
    intro h
    rw [List.map_cons, List.mem_cons, not_or] at h
    unfold blendLoop
    rw [if_neg (fun heq => h.1 heq.symm)]
    dsimp only
    rw [ih h.2]

/-- The loop of `BlendEmotions` on a vector with unique codes that has the code. -/
theorem blendLoop_of_mem (code : EmotionCode) (c : Int) :
    ∀ v : List EmotionValue, code ∈ v.map EmotionValue.Code → UniqueCodes v →
      blendLoop code c v = (addedAt code c v, true) := by
  intro v
  induction v with
  | nil => intro h; simp at h
  | cons e rest ih =>
    intro h hu
    unfold UniqueCodes at hu
    rw [List.map_cons, List.nodup_cons] at hu
    unfold blendLoop
    by_cases hec : e.Code = code
    · rw [if_pos hec]
      dsimp only
      have hrest : addedAt code c rest = rest :=
        addedAt_of_not_mem code c rest (hec ▸ hu.1)
      have hcons : addedAt code c (e :: rest) =
          { e with Value := min 100 (e.Value + c) } :: addedAt code c rest := by
        unfold addedAt
        rw [List.map_cons, if_pos hec]
      rw [hcons, hrest]
      congr 2
      by_cases hv : e.Value + c > 100
      · rw [if_pos hv, min_eq_left (le_of_lt hv)]
      · rw [if_neg hv, min_eq_right (not_lt.mp hv)]
    · rw [if_neg hec]
      dsimp only
      rw [List.map_cons, List.mem_cons] at h
      have hmem : code ∈ rest.map EmotionValue.Code := by
        rcases h with h | h
        · exact absurd h.symm hec
        · exact h
      rw [ih hmem hu.2]
      have hcons : addedAt code c (e :: rest) = e :: addedAt code c rest := by
        unfold addedAt
        rw [List.map_cons, if_neg hec]
      rw [hcons]

/-- C23: for every self vector with unique codes and intensities in `[0,100]` (the
other party's intensity in `[0,100]`, the empathy level in `[0,1]`): if the contagion
amount `c`, the truncated float64 product, is `≤ 0`, `BlendEmotions` returns the self
vector unchanged; otherwise the result is the self vector with `c` added to the entry
of the other party's code and capped at 100, or, if that code was absent, with a new
entry `(code, c)` appended; every other entry is unchanged, the input vector itself
is not modified, and the result again has unique codes and intensities in
`[0,100]`. -/
theorem C23_blend_emotions (userEmotion : EmotionValue) (myEmotions : List EmotionValue)
    (empathyStrength : ℚ) (hu : UniqueCodes myEmotions) (hr : InRange myEmotions)
    (hv0 : 0 ≤ userEmotion.Value) (hv1 : userEmotion.Value ≤ 100)
    (he0 : 0 ≤ empathyStrength) (he1 : empathyStrength ≤ 1) :
    (truncQ (contagionF64 userEmotion.Value empathyStrength) ≤ 0 →
        (BlendEmotions userEmotion myEmotions empathyStrength).1 = myEmotions) ∧
      (0 < truncQ (contagionF64 userEmotion.Value empathyStrength) →
        (userEmotion.Code ∈ myEmotions.map EmotionValue.Code →
          (BlendEmotions userEmotion myEmotions empathyStrength).1 =
            addedAt userEmotion.Code
              (truncQ (contagionF64 userEmotion.Value empathyStrength)) myEmotions) ∧
        (userEmotion.Code ∉ myEmotions.map EmotionValue.Code →
          (BlendEmotions userEmotion myEmotions empathyStrength).1 =
            myEmotions ++ [(⟨userEmotion.Code,
              truncQ (contagionF64 userEmotion.Value empathyStrength)⟩ : EmotionValue)])) ∧
      (BlendEmotions userEmotion myEmotions empathyStrength).2 = myEmotions ∧
      UniqueCodes (BlendEmotions userEmotion myEmotions empathyStrength).1 ∧
      InRange (BlendEmotions userEmotion myEmotions empathyStrength).1 := by
  have hrange := contagion_range hv0 hv1 he0 he1
  have hcr : truncQ (contagionF64 userEmotion.Value empathyStrength) ≤ 50 :=
    truncQ_le_of_le (by norm_num) (by push_cast; exact hrange.2.1)
  unfold contagionF64 at hcr ⊢
  generalize hcdef : truncQ
    (f64 (f64 (f64 (userEmotion.Value : ℚ) * empathyStrength) * (1 / 2))) = c at hcr ⊢
  have hle : c ≤ 0 → (BlendEmotions userEmotion myEmotions empathyStrength).1 = myEmotions := by
    intro hc
    unfold BlendEmotions
    dsimp only
    rw [hcdef, if_pos hc]
  have hin : 0 < c → userEmotion.Code ∈ myEmotions.map EmotionValue.Code →
      (BlendEmotions userEmotion myEmotions empathyStrength).1 =
        addedAt userEmotion.Code c myEmotions := by
    intro hc hm
    unfold BlendEmotions
    dsimp only
    rw [hcdef, if_neg (not_le.mpr hc), blendLoop_of_mem _ _ _ hm hu]
    rfl
  have hout : 0 < c → userEmotion.Code ∉ myEmotions.map EmotionValue.Code →
      (BlendEmotions userEmotion myEmotions empathyStrength).1 =
        myEmotions ++ [{ Code := userEmotion.Code, Value := c }] := by
    intro hc hm
    unfold BlendEmotions
    dsimp only
    rw [hcdef, if_neg (not_le.mpr hc), blendLoop_of_not_mem _ _ _ hm]
    rfl
  have hsnd : (BlendEmotions userEmotion myEmotions empathyStrength).2 = myEmotions := by
    unfold BlendEmotions
    dsimp only
    split_ifs <;> rfl
  refine ⟨hle, fun hc => ⟨hin hc, hout hc⟩, hsnd, ?_, ?_⟩
  · by_cases hc : c ≤ 0
    · rw [hle hc]
      exact hu
    · by_cases hm : userEmotion.Code ∈ myEmotions.map EmotionValue.Code
      · rw [hin (not_le.mp hc) hm]
        unfold UniqueCodes
        rw [addedAt_codes]
        exact hu
      · rw [hout (not_le.mp hc) hm]
        unfold UniqueCodes
        rw [List.map_append, List.map_cons, List.map_nil]
        exact List.Nodup.append hu (List.nodup_singleton _)
          (by
            intro x hx1 hx2
            rw [List.mem_singleton] at hx2
            exact hm (hx2 ▸ hx1))
  · by_cases hc : c ≤ 0
    · rw [hle hc]
      exact hr
    · have hcpos : 0 < c := not_le.mp hc
      by_cases hm : userEmotion.Code ∈ myEmotions.map EmotionValue.Code
      · rw [hin hcpos hm]
        intro e he
        unfold addedAt at he
        obtain ⟨e0, he0m, rfl⟩ := List.mem_map.mp he
        have h0 := hr e0 he0m
        split_ifs
        · dsimp only
          exact ⟨le_min (by norm_num) (by linarith [h0.1]), min_le_left _ _⟩
        · exact h0
      · rw [hout hcpos hm]
        intro e he
        rw [List.mem_append, List.mem_singleton] at he
        rcases he with he | he
        · exact hr e he
        · subst he
          dsimp only
          exact ⟨le_of_lt hcpos, by linarith [hcr]⟩

/-- With intensity 50 and the float64 empathy level nearest to 0.48 the amount 12 is
added to the Joy entry 50, which becomes 62; the Fear entry and the input vector are
as before. -/
theorem C23_blend_emotions_witness :
    (BlendEmotions ⟨EmotionJoy, 50⟩ [⟨EmotionFear, 40⟩, ⟨EmotionJoy, 50⟩]
        (f64 (48 / 100))).1 = [⟨EmotionFear, 40⟩, ⟨EmotionJoy, 62⟩] ∧
      (BlendEmotions ⟨EmotionJoy, 50⟩ [⟨EmotionFear, 40⟩, ⟨EmotionJoy, 50⟩]
        (f64 (48 / 100))).2 = [⟨EmotionFear, 40⟩, ⟨EmotionJoy, 50⟩] ∧
      UniqueCodes (BlendEmotions ⟨EmotionJoy, 50⟩ [⟨EmotionFear, 40⟩, ⟨EmotionJoy, 50⟩]
        (f64 (48 / 100))).1 :=
  have h := C23_blend_emotions ⟨EmotionJoy, 50⟩ [⟨EmotionFear, 40⟩, ⟨EmotionJoy, 50⟩]
    (f64 (48 / 100)) (by decide) (by decide) (by decide) (by decide)
    (by rw [f64_048]; norm_num) (by rw [f64_048]; norm_num)
  have hc : truncQ (contagionF64 50 (f64 (48 / 100))) = 12 := by
    rw [contagionF64_fifty]
    norm_num [truncQ]
  have hJF : ¬ (("F" : String) = "J") := by decide
  ⟨by
      rw [(h.2.1 (by rw [hc]; decide)).1 (by decide), hc]
      norm_num [addedAt, hJF],
    h.2.2.1, h.2.2.2.1⟩

/-! ### Weight and tags of a new memory -/

/-- The accumulation loop `total += emotion.Value` computes the sum. -/
theorem foldl_total (l : List EmotionValue) :
    ∀ a : Int, l.foldl (fun total emotion => total + emotion.Value) a =
      a + (l.map EmotionValue.Value).sum := by
  induction l with
  | nil => intro a; simp
  | cons e rest ih =>
    intro a
    rw [List.foldl_cons, ih, List.map_cons, List.sum_cons, add_assoc]

theorem sum_range (l : List EmotionValue) (hr : InRange l) :
    0 ≤ (l.map EmotionValue.Value).sum ∧
      (l.map EmotionValue.Value).sum ≤ 100 * (l.length : Int) := by
  induction l with
  | nil => simp
  | cons e rest ih =>
    have he := hr e (List.mem_cons_self _ _)
    have hrest := ih (fun x hx => hr x (List.mem_cons_of_mem _ hx))
    rw [List.map_cons, List.sum_cons, List.length_cons]
    push_cast
    constructor <;> linarith [he.1, he.2, hrest.1, hrest.2]

/-- The weight computed by `calculateWeight` for a non-empty list: the average over
100 plus `0.05` per entry, capped at 1. -/
theorem calculateWeight_eq (h : Hippocampus) (emotions : List EmotionValue)
    (hne : emotions ≠ []) :
    h.calculateWeight emotions =
      min 1 ((((emotions.map EmotionValue.Value).sum : Int) : ℚ) / (emotions.length : ℚ) / 100 +
        (5 / 100) * (emotions.length : ℚ)) := by
  unfold Hippocampus.calculateWeight
  have hlen : emotions.length ≠ 0 := fun h0 => hne (List.length_eq_zero.mp h0)
  rw [if_neg hlen]
  dsimp only
  rw [foldl_total, zero_add, mul_comm ((emotions.length : ℚ)) (5 / 100)]
  split_ifs with hgt
  · rw [min_eq_left (le_of_lt hgt)]
  · rw [min_eq_right (not_lt.mp hgt)]

theorem mem_firstOccurrences (l : List String) (x : String) :
    x ∈ firstOccurrences l ↔ x ∈ l := by
  induction l with
  | nil => simp [firstOccurrences]
  | cons c cs ih =>
    unfold firstOccurrences
    rw [List.mem_cons, List.mem_cons, List.mem_filter, ih]
    by_cases hx : x = c
    · simp [hx]
    · simp [hx]

/-- A list without repetitions is its own list of first occurrences. -/
theorem firstOccurrences_of_nodup (l : List String) (hnd : l.Nodup) :
    firstOccurrences l = l := by
  induction l with
  | nil => rfl
  | cons c cs ih =>
    rw [List.nodup_cons] at hnd
    unfold firstOccurrences
    rw [ih hnd.2]
    congr 1
    rw [List.filter_eq_self]
    intro x hx
    have hne : x ≠ c := fun heq => hnd.1 (heq ▸ hx)
    simpa using hne

/-- C24: the weight that `AddMemory`/`AddEpisode` assign (by `calculateWeight`) to a
non-empty list with intensities in `[0,100]` is
`min(1, average/100 + 0.05 * (number of entries))` and lies in `[0,1]`; it is the
documented `min(1, average/100 + 0.05 * (number of distinct codes))` when the codes
are unique, and differs from it on the list `[(Grief,27),(Grief,30)]`, where it is
`0.385` instead of `0.335`. -/
theorem C24_weight_counts_entries (h : Hippocampus) (now : Int) (uuid text : String)
    (emotions : List EmotionValue) (hne : emotions ≠ []) (hr : InRange emotions) :
    (h.AddMemory now uuid text emotions).1.Weight = h.calculateWeight emotions ∧
      h.calculateWeight emotions =
        min 1 ((((emotions.map EmotionValue.Value).sum : Int) : ℚ) / (emotions.length : ℚ) / 100 +
          (5 / 100) * (emotions.length : ℚ)) ∧
      (0 ≤ h.calculateWeight emotions ∧ h.calculateWeight emotions ≤ 1) ∧
      (UniqueCodes emotions → h.calculateWeight emotions = weightSpec emotions) ∧
      (h.calculateWeight [⟨EmotionGrief, 27⟩, ⟨EmotionGrief, 30⟩] = 77 / 200 ∧
        weightSpec [⟨EmotionGrief, 27⟩, ⟨EmotionGrief, 30⟩] = 67 / 200) := by
  have heq := calculateWeight_eq h emotions hne
  have hsum := sum_range emotions hr
  have hlenpos : (0 : ℚ) < (emotions.length : ℚ) := by
    have : 0 < emotions.length := List.length_pos.mpr hne
    exact_mod_cast this
  have hsumq : (0 : ℚ) ≤ (((emotions.map EmotionValue.Value).sum : Int) : ℚ) := by
    exact_mod_cast hsum.1
  refine ⟨rfl, heq, ⟨?_, ?_⟩, ?_, ?_, ?_⟩
  · rw [heq]
    apply le_min (by norm_num)
    have h1 : 0 ≤ (((emotions.map EmotionValue.Value).sum : Int) : ℚ) /
        (emotions.length : ℚ) / 100 :=
      div_nonneg (div_nonneg hsumq (le_of_lt hlenpos)) (by norm_num)
    have h2 : 0 ≤ (5 / 100 : ℚ) * (emotions.length : ℚ) :=
      mul_nonneg (by norm_num) (le_of_lt hlenpos)
    linarith
  · rw [heq]
    exact min_le_left _ _
  · intro hu
    unfold UniqueCodes at hu
    rw [heq]
    unfold weightSpec
    rw [firstOccurrences_of_nodup _ hu, List.length_map]
  · norm_num [Hippocampus.calculateWeight]
  · have hfo : firstOccurrences
        (List.map EmotionValue.Code [⟨EmotionGrief, 27⟩, ⟨EmotionGrief, 30⟩]) = ["G"] := by
      decide
    unfold weightSpec
    rw [hfo]
    norm_num

theorem C24_weight_counts_entries_witness :
    (Hippocampus.New none).calculateWeight [⟨EmotionJoy, 90⟩, ⟨EmotionLove, 80⟩] =
        weightSpec [⟨EmotionJoy, 90⟩, ⟨EmotionLove, 80⟩] ∧
      (Hippocampus.New none).calculateWeight [⟨EmotionJoy, 90⟩, ⟨EmotionLove, 80⟩] = 19 / 20 :=
  have h := C24_weight_counts_entries (Hippocampus.New none) 0 "m-1" "an important memory"
    [⟨EmotionJoy, 90⟩, ⟨EmotionLove, 80⟩] (by decide) (by decide)
  ⟨h.2.2.2.1 (by decide), by rw [h.2.1]; norm_num⟩

/-- The loop of `extractTags` appends the first occurrences of the codes not yet
seen. -/
theorem extractTagsLoop_eq (l : List EmotionValue) :
    ∀ (seen : List EmotionCode) (tags : List String),
      extractTagsLoop l seen tags =
        tags ++ (firstOccurrences (l.map EmotionValue.Code)).filter (fun x => x ∉ seen) := by
  induction l with
  | nil =>
    intro seen tags
    simp [extractTagsLoop, firstOccurrences]
  | cons e rest ih =>
    intro seen tags
    unfold extractTagsLoop
    rw [List.map_cons]
    unfold firstOccurrences
    by_cases hs : e.Code ∉ seen
    · rw [if_pos hs, ih, List.filter_cons_of_pos (by simpa using hs), List.filter_filter,
        List.append_assoc, List.singleton_append]
      congr 2
      apply List.filter_congr
      intro x _
      simp only [List.mem_cons, not_or, ne_eq, decide_not, Bool.decide_and, Bool.and_comm]
    · rw [if_neg hs, ih, List.filter_cons_of_neg (by simpa using hs), List.filter_filter]
      congr 1
      apply List.filter_congr
      intro x _
      have hs2 : e.Code ∈ seen := not_not.mp hs
      by_cases hx : x ∈ seen
      · simp [hx]
      · have hne : x ≠ e.Code := fun heq => hx (heq ▸ hs2)
        simp [hx, hne]

/-- C28 (as stated) fails: the length tags go by the length in bytes, not in
characters. The text こんにちは世界 has 7 characters (21 bytes) and gets no tag
`short`; a text of 35 characters (105 bytes) gets the tag `long`. -/
theorem C28_length_in_bytes :
    ("こんにちは世界".length = 7 ∧
        (Hippocampus.New none).extractTags "こんにちは世界" [⟨EmotionJoy, 80⟩] = ["J"]) ∧
      ("あああああああああああああああああああああああああああああああああああ".length = 35 ∧
        (Hippocampus.New none).extractTags
          "あああああああああああああああああああああああああああああああああああ" [⟨EmotionJoy, 80⟩] =
          ["J", "long"]) := by
  decide

/-- C28 (amended): for every text and emotion vector, the tags derived by
`extractTags` are one tag per distinct emotion code present (each code once, in
first-occurrence order), followed by the tag `long` if the text is longer than 100
bytes or the tag `short` if the text is shorter than 20 bytes, and no length tag
otherwise. -/
theorem C28_extract_tags (h : Hippocampus) (text : String) (emotions : List EmotionValue) :
    h.extractTags text emotions =
      firstOccurrences (emotions.map EmotionValue.Code) ++
        (if len text > 100 then ["long"] else if len text < 20 then ["short"] else []) := by
  unfold Hippocampus.extractTags
  dsimp only
  rw [extractTagsLoop_eq]
  have hf : (firstOccurrences (emotions.map EmotionValue.Code)).filter (fun x => x ∉ []) =
      firstOccurrences (emotions.map EmotionValue.Code) := by
    rw [List.filter_eq_self]
    intro x _
    simp
  rw [hf, List.nil_append]
  split_ifs <;> simp

/-! ### The bounded short-term buffer -/

/-- The memory created by an adding call does not depend on the state. -/
theorem AddCall.memory_indep (h h' : Hippocampus) (c : AddCall) :
    AddCall.memory h c = AddCall.memory h' c := rfl

/-- One adding call appends the created memory and drops the oldest entry when the
bound is exceeded; the bound stays. -/
theorem addStep_spec (h : Hippocampus) (c : AddCall) :
    (h.addStep c).maxSTMSize = h.maxSTMSize ∧
      (h.addStep c).STM =
        (if ((h.STM ++ [AddCall.memory h c]).length : Int) > h.maxSTMSize then
          (h.STM ++ [AddCall.memory h c]).drop 1
        else h.STM ++ [AddCall.memory h c]) := by
  unfold Hippocampus.addStep
  by_cases hv : c.viaAddMemory = true
  · rw [if_pos hv]
    unfold Hippocampus.AddMemory AddCall.memory Hippocampus.AddMemory
    dsimp only
    split_ifs <;> exact ⟨rfl, rfl⟩
  · rw [if_neg hv]
    unfold Hippocampus.AddEpisode AddCall.memory Hippocampus.AddMemory
    dsimp only
    split_ifs <;> exact ⟨rfl, rfl⟩

theorem addRun_append (h : Hippocampus) (calls : List AddCall) (c : AddCall) :
    h.addRun (calls ++ [c]) = (h.addRun calls).addStep c := by
  unfold Hippocampus.addRun
  rw [List.foldl_append]
  rfl

/-- After any sequence of adding calls on an empty buffer with bound `B ≥ 1` the
buffer holds the created memories without the first `n - B` ones. -/
theorem addRun_spec (h : Hippocampus) (hst : h.STM = []) (hB : 1 ≤ h.maxSTMSize)
    (calls : List AddCall) :
    (h.addRun calls).maxSTMSize = h.maxSTMSize ∧
      (h.addRun calls).STM =
        (calls.map (AddCall.memory h)).drop (calls.length - h.maxSTMSize.toNat) := by
  induction calls using List.reverseRecOn with
  | nil =>
    exact ⟨rfl, by simpa [Hippocampus.addRun] using hst⟩
  | append_singleton init c ih =>
    obtain ⟨ihB, ihS⟩ := ih
    have hstep := addStep_spec (h.addRun init) c
    rw [addRun_append]
    refine ⟨hstep.1.trans ihB, ?_⟩
    rw [hstep.2, ihB, ihS, AddCall.memory_indep (h.addRun init) h c]
    have hb : (h.maxSTMSize.toNat : Int) = h.maxSTMSize := Int.toNat_of_nonneg (by omega)
    generalize hL : init.map (AddCall.memory h) = L
    have hLlen : L.length = init.length := by rw [← hL, List.length_map]
    rw [List.map_append, hL, List.map_cons, List.map_nil]
    have hdl : (List.drop (init.length - h.maxSTMSize.toNat) L).length =
        min init.length h.maxSTMSize.toNat := by
      rw [List.length_drop, hLlen]
      omega
    simp only [List.length_append, List.length_singleton, hdl]
    by_cases hge : h.maxSTMSize.toNat ≤ init.length
    · have hcond : ((min init.length h.maxSTMSize.toNat + 1 : Nat) : Int) > h.maxSTMSize := by
        rw [min_eq_right hge]
        push_cast
        omega
      have hle : init.length - h.maxSTMSize.toNat ≤ L.length := by omega
      rw [if_pos hcond, ← List.drop_append_of_le_length hle, List.drop_drop]
      congr 1
      omega
    · have hlt : init.length < h.maxSTMSize.toNat := not_le.mp hge
      have hcond : ¬ (((min init.length h.maxSTMSize.toNat + 1 : Nat) : Int) > h.maxSTMSize) := by
        rw [min_eq_left (le_of_lt hlt)]
        push_cast
        omega
      rw [if_neg hcond]
      have h0 : init.length - h.maxSTMSize.toNat = 0 := by omega
      have h1 : init.length + 1 - h.maxSTMSize.toNat = 0 := by omega
      rw [h0, h1, List.drop_zero, List.drop_zero]

/-- C25: for every bound `B ≥ 1` and every sequence of `n` `AddEpisode`/`AddMemory`
calls on an initially empty buffer, the short-term buffer holds at most `B` memories
after each call, and after the `n`-th call it holds exactly the last `min(n, B)`
created memories in insertion order. -/
theorem C25_stm_fifo (h : Hippocampus) (calls : List AddCall) (hst : h.STM = [])
    (hB : 1 ≤ h.maxSTMSize) :
    (∀ k, ((h.addRun (calls.take k)).STM.length : Int) ≤ h.maxSTMSize) ∧
      (h.addRun calls).STM.length = min calls.length h.maxSTMSize.toNat ∧
      (h.addRun calls).STM =
        (calls.map (AddCall.memory h)).drop
          (calls.length - min calls.length h.maxSTMSize.toNat) := by
  have hb : (h.maxSTMSize.toNat : Int) = h.maxSTMSize := Int.toNat_of_nonneg (by omega)
  have hlen : ∀ l : List AddCall,
      (h.addRun l).STM.length = min l.length h.maxSTMSize.toNat := by
    intro l
    rw [(addRun_spec h hst hB l).2, List.length_drop, List.length_map]
    omega
  refine ⟨?_, hlen calls, ?_⟩
  · intro k
    rw [hlen]
    have : min (calls.take k).length h.maxSTMSize.toNat ≤ h.maxSTMSize.toNat := min_le_right _ _
    omega
  · rw [(addRun_spec h hst hB calls).2]
    congr 1
    omega

theorem C25_stm_fifo_witness :
    (({ Hippocampus.New none with maxSTMSize := 2 } : Hippocampus).addRun
        [⟨false, 1, "a", "x", []⟩, ⟨true, 2, "b", "y", []⟩, ⟨false, 3, "c", "z", []⟩]).STM.length =
        2 ∧
      ((({ Hippocampus.New none with maxSTMSize := 2 } : Hippocampus).addRun
        [⟨false, 1, "a", "x", []⟩, ⟨true, 2, "b", "y", []⟩, ⟨false, 3, "c", "z", []⟩]).STM.map
          RuneMemory.UUID) = ["b", "c"] :=
  have h := C25_stm_fifo ({ Hippocampus.New none with maxSTMSize := 2 } : Hippocampus)
    [⟨false, 1, "a", "x", []⟩, ⟨true, 2, "b", "y", []⟩, ⟨false, 3, "c", "z", []⟩] rfl
    (by decide)
  ⟨h.2.1, by rw [h.2.2]; rfl⟩

/-! ### Reconsolidation -/

theorem intensityOf_cons (a : EmotionValue) (t : List EmotionValue) (c : EmotionCode) :
    intensityOf (a :: t) c = if a.Code = c then some a.Value else intensityOf t c := by
  unfold intensityOf
  rw [List.find?_cons]
  by_cases h : a.Code = c
  · simp [h]
  · simp [h]

theorem intensityOf_none (t : List EmotionValue) (c : EmotionCode)
    (h : c ∉ t.map EmotionValue.Code) : intensityOf t c = none := by
  induction t with
  | nil => rfl
  | cons a rest ih =>
    rw [List.map_cons, List.mem_cons, not_or] at h
    rw [intensityOf_cons, if_neg (fun heq => h.1 heq.symm)]
    exact ih h.2

/-- The map built from a vector with unique codes holds, for every code, the
intensity of the entry of that code. -/
theorem lookup_currentMap (l : List EmotionValue) (c : EmotionCode) :
    ∀ m : EmotionMap, UniqueCodes l →
      (l.foldl (fun m e => m.insert e.Code e.Value) m).lookup c =
        (match intensityOf l c with
          | some v => some v
          | none => m.lookup c) := by
  induction l with
  | nil =>
    intro m _
    rfl
  | cons a rest ih =>
    intro m hu
    unfold UniqueCodes at hu
    rw [List.map_cons, List.nodup_cons] at hu
    rw [List.foldl_cons, ih _ hu.2, intensityOf_cons]
    by_cases hac : a.Code = c
    · rw [if_pos hac, intensityOf_none rest c (hac ▸ hu.1)]
      subst hac
      exact AList.lookup_insert _
    · rw [if_neg hac]
      cases intensityOf rest c with
      | some v => rfl
      | none => exact AList.lookup_insert_ne (fun h => hac h.symm)

/-- For a current vector with unique codes `blendEmotions` with ratio `0.1`
computes the blend of the specification. -/
theorem blendEmotions_eq (original current : List EmotionValue) (hu : UniqueCodes current) :
    blendEmotions original current (1 / 10) = blendSpec original current := by
  unfold blendEmotions blendSpec
  dsimp only
  apply List.map_congr_left
  intro e _
  rw [lookup_currentMap current e.Code ∅ hu]
  cases intensityOf current e.Code with
  | none =>
    dsimp only
    rw [AList.lookup_empty]
  | some c =>
    dsimp only
    have harg : (e.Value : ℚ) * (1 - 1 / 10) + (c : ℚ) * (1 / 10) =
        9 / 10 * (e.Value : ℚ) + 1 / 10 * (c : ℚ) := by ring
    rw [harg]
    congr 1
    split_ifs with hgt
    · rw [min_eq_left (le_of_lt hgt)]
    · rw [min_eq_right (not_lt.mp hgt)]

theorem blendSpec_codes (original current : List EmotionValue) :
    (blendSpec original current).map EmotionValue.Code = original.map EmotionValue.Code := by
  unfold blendSpec
  rw [List.map_map]
  apply List.map_congr_left
  intro e _
  simp only [Function.comp]
  cases intensityOf current e.Code <;> rfl

/-- C26: for every memory and every current-emotion vector with unique codes,
`ReconsolidateMemory` keeps the length, order and codes of the memory's emotion
vector, replaces the intensity of each entry whose code also occurs in the current
vector by `trunc(0.9*original + 0.1*current)` capped at 100, leaves every other
entry's intensity unchanged, increments the recall count by exactly 1, and sets
Weight to `min(1, Weight + 0.05 * (the new recall count))`. -/
theorem C26_reconsolidate (h : Hippocampus) (now : Int) (memory : RuneMemory)
    (currentEmotions : List EmotionValue) (hu : UniqueCodes currentEmotions) :
    ∃ m : RuneMemory,
      h.ReconsolidateMemory now (some memory) currentEmotions = some m ∧
      m.Emotions = blendSpec memory.Emotions currentEmotions ∧
      m.Emotions.length = memory.Emotions.length ∧
      m.Emotions.map EmotionValue.Code = memory.Emotions.map EmotionValue.Code ∧
      m.RecallCount = memory.RecallCount + 1 ∧
      m.Weight = min 1 (memory.Weight + (5 / 100) * ((memory.RecallCount + 1 : Int) : ℚ)) := by
  have hblend := blendEmotions_eq memory.Emotions currentEmotions hu
  have hcodes := blendSpec_codes memory.Emotions currentEmotions
  have hlen : (blendSpec memory.Emotions currentEmotions).length = memory.Emotions.length := by
    have := congrArg List.length hcodes
    rwa [List.length_map, List.length_map] at this
  unfold Hippocampus.ReconsolidateMemory
  dsimp only
  rw [hblend]
  by_cases hgt : memory.Weight + ((memory.RecallCount + 1 : Int) : ℚ) * (5 / 100) > 1
  · rw [if_pos hgt]
    refine ⟨_, rfl, rfl, hlen, hcodes, rfl, ?_⟩
    dsimp only
    have hle : 1 ≤ memory.Weight + (5 / 100) * ((memory.RecallCount + 1 : Int) : ℚ) := by
      have := le_of_lt hgt
      linarith
    exact (min_eq_left hle).symm
  · rw [if_neg hgt]
    refine ⟨_, rfl, rfl, hlen, hcodes, rfl, ?_⟩
    dsimp only
    have hle : memory.Weight + (5 / 100) * ((memory.RecallCount + 1 : Int) : ℚ) ≤ 1 := by
      have := not_lt.mp hgt
      linarith
    rw [min_eq_right hle]
    ring

theorem C26_reconsolidate_witness :
    ∃ m : RuneMemory,
      (Hippocampus.New none).ReconsolidateMemory 5 (some importantMemory)
        [⟨EmotionJoy, 40⟩] = some m ∧
      m.Emotions = blendSpec importantMemory.Emotions [⟨EmotionJoy, 40⟩] ∧
      m.Emotions.length = importantMemory.Emotions.length ∧
      m.Emotions.map EmotionValue.Code = importantMemory.Emotions.map EmotionValue.Code ∧
      m.RecallCount = importantMemory.RecallCount + 1 ∧
      m.Weight = min 1 (importantMemory.Weight +
        (5 / 100) * ((importantMemory.RecallCount + 1 : Int) : ℚ)) :=
  C26_reconsolidate (Hippocampus.New none) 5 importantMemory [⟨EmotionJoy, 40⟩] (by decide)

/-! ### Recent context -/

/-- The entry left at position `i` by the inner loop was accessed no earlier than the
entry that was there before. -/
theorem recentInner_ge (l : List RuneMemory) :
    ∀ x : RuneMemory, x.LastAccess ≤ (recentInner x l).1.LastAccess := by
  induction l with
  | nil => intro x; exact le_refl _
  | cons y rest ih =>
    intro x
    unfold recentInner
    split_ifs with hlt
    · exact (le_of_lt hlt).trans (ih y)
    · exact ih x

/-- The inner loop only exchanges entries. -/
theorem recentInner_perm (l : List RuneMemory) :
    ∀ x : RuneMemory, ((recentInner x l).1 :: (recentInner x l).2).Perm (x :: l) := by
  induction l with
  | nil => intro x; exact List.Perm.refl _
  | cons y rest ih =>
    intro x
    unfold recentInner
    split_ifs with hlt
    · dsimp only
      exact (List.Perm.swap _ _ _).trans ((ih y).cons x)
    · dsimp only
      exact ((List.Perm.swap _ _ _).trans ((ih x).cons y)).trans (List.Perm.swap _ _ _)

/-- After the inner loop no later entry was accessed after the entry at `i`. -/
theorem recentInner_max (l : List RuneMemory) :
    ∀ x : RuneMemory, ∀ z ∈ (recentInner x l).2,
      z.LastAccess ≤ (recentInner x l).1.LastAccess := by
  induction l with
  | nil =>
    intro x z hz
    simp [recentInner] at hz
  | cons y rest ih =>
    intro x z hz
    unfold recentInner at hz ⊢
    split_ifs at hz ⊢ with hlt
    · dsimp only at hz ⊢
      rcases List.mem_cons.mp hz with h | h
      · rw [h]
        exact (le_of_lt hlt).trans (recentInner_ge rest y)
      · exact ih y z h
    · dsimp only at hz ⊢
      rcases List.mem_cons.mp hz with h | h
      · rw [h]
        exact (not_lt.mp hlt).trans (recentInner_ge rest x)
      · exact ih x z h

theorem recentInner_length (l : List RuneMemory) :
    ∀ x : RuneMemory, (recentInner x l).2.length = l.length := by
  induction l with
  | nil => intro x; rfl
  | cons y rest ih =>
    intro x
    unfold recentInner
    split_ifs <;> simp [ih]

/-- The outer loop only exchanges entries. -/
theorem recentOuter_perm (n : Nat) : ∀ l : List RuneMemory, (recentOuter n l).Perm l := by
  induction n with
  | zero => intro l; exact List.Perm.refl _
  | succ n ih =>
    intro l
    cases l with
    | nil => exact List.Perm.refl _
    | cons x rest =>
      unfold recentOuter
      dsimp only
      exact ((ih _).cons _).trans (recentInner_perm rest x)

/-- With one iteration per entry the outer loop leaves the list sorted, most
recently accessed first. -/
theorem recentOuter_sorted (n : Nat) :
    ∀ l : List RuneMemory, l.length ≤ n → (recentOuter n l).Pairwise recentOrder := by
  induction n with
  | zero =>
    intro l hl
    have : l = [] := List.length_eq_zero.mp (Nat.le_zero.mp hl)
    subst this
    exact List.Pairwise.nil
  | succ n ih =>
    intro l hl
    cases l with
    | nil => exact List.Pairwise.nil
    | cons x rest =>
      unfold recentOuter
      dsimp only
      rw [List.pairwise_cons]
      constructor
      · intro z hz
        have hz2 : z ∈ (recentInner x rest).2 := (recentOuter_perm n _).mem_iff.mp hz
        exact recentInner_max rest x z hz2
      · apply ih
        rw [recentInner_length]
        simpa using hl

/-- C27: for every short-term buffer and every list of long-term memories returned
by the store (the empty list without a store or when the query fails),
`GetRecentContext` returns a list of length `min(10, total number of merged
memories)` that is sorted by last-access time in non-increasing order and consists
of the most recently accessed memories of the merged collection: together with the
memories left out it is a permutation of the merged collection, and no memory left
out was accessed later than a returned one. -/
theorem C27_recent_context (h : Hippocampus) (ltm : List RuneMemory)
    (hltm : (h.store = none ∧ ltm = []) ∨
      ∃ d, h.store = some d ∧
        ((d.GetRecentMemories 10).1 = Except.ok ltm ∨
          ((∃ err, (d.GetRecentMemories 10).1 = Except.error err) ∧ ltm = []))) :
    h.GetRecentContext.1.length = min 10 (h.STM.length + ltm.length) ∧
      h.GetRecentContext.1.Pairwise recentOrder ∧
      ∃ rest : List RuneMemory,
        (h.GetRecentContext.1 ++ rest).Perm (h.STM ++ ltm) ∧
        ∀ r ∈ h.GetRecentContext.1, ∀ d ∈ rest, d.LastAccess ≤ r.LastAccess := by
  have hres : h.GetRecentContext.1 =
      (recentOuter (h.STM ++ ltm).length (h.STM ++ ltm)).take
        (if (recentOuter (h.STM ++ ltm).length (h.STM ++ ltm)).length < 10 then
          (recentOuter (h.STM ++ ltm).length (h.STM ++ ltm)).length else 10) := by
    unfold Hippocampus.GetRecentContext
    dsimp only
    rcases hltm with ⟨hs, hl⟩ | ⟨d, hs, hq | ⟨⟨err, hq⟩, hl⟩⟩
    · rw [hs, hl]
    · rw [hs]
      dsimp only
      rcases hd : d.GetRecentMemories 10 with ⟨res, d2⟩
      rw [hd] at hq
      dsimp only at hq
      subst hq
      rfl
    · rw [hs]
      dsimp only
      rcases hd : d.GetRecentMemories 10 with ⟨res, d2⟩
      rw [hd] at hq
      dsimp only at hq
      subst hq hl
      rfl
  generalize hS : recentOuter (h.STM ++ ltm).length (h.STM ++ ltm) = sorted at hres
  have hperm : sorted.Perm (h.STM ++ ltm) := hS ▸ recentOuter_perm _ _
  have hsorted : sorted.Pairwise recentOrder := hS ▸ recentOuter_sorted _ _ (le_refl _)
  have hlen : sorted.length = h.STM.length + ltm.length := by
    rw [hperm.length_eq, List.length_append]
  rw [hres]
  have hsplit : sorted.take (if sorted.length < 10 then sorted.length else 10) ++
      sorted.drop (if sorted.length < 10 then sorted.length else 10) = sorted :=
    List.take_append_drop _ _
  refine ⟨?_, ?_, sorted.drop (if sorted.length < 10 then sorted.length else 10), ?_, ?_⟩
  · rw [List.length_take, hlen]
    split_ifs <;> omega
  · exact hsorted.sublist (List.take_sublist _ _)
  · rw [hsplit]
    exact hperm
  · intro r hr d hd
    have hp := hsorted
    rw [← hsplit, List.pairwise_append] at hp
    exact hp.2.2 r hr d hd

theorem C27_recent_context_witness :
    ({ Hippocampus.New none with STM := [importantMemory, trivialMemory] } :
        Hippocampus).GetRecentContext.1.length =
        min 10 (({ Hippocampus.New none with STM := [importantMemory, trivialMemory] } :
          Hippocampus).STM.length + ([] : List RuneMemory).length) ∧
      ({ Hippocampus.New none with STM := [importantMemory, trivialMemory] } :
        Hippocampus).GetRecentContext.1.map RuneMemory.UUID = ["m-2", "m-1"] :=
  ⟨(C27_recent_context
      ({ Hippocampus.New none with STM := [importantMemory, trivialMemory] } : Hippocampus) []
      (Or.inl ⟨rfl, rfl⟩)).1,
    by decide⟩

/-! ### Physical signals and mood stability -/

theorem addEmotion_nil (code : EmotionCode) (value : Int) (hv : value ≤ 100) :
    addEmotion [] code value = [⟨code, value⟩] := by
  unfold addEmotion addEmotionLoop
  dsimp only
  rw [if_neg (not_lt.mpr hv)]
  rfl

/-- The float64 product of a signal value in `[-100,100]` and a gain in `(0,1]` lies
in `[-100,100]`, has the sign of the signal value, and is within `2.5e-14` of the
exact product. -/
theorem productF64_range {v : Int} {g : ℚ} (hv0 : -100 ≤ v) (hv1 : v ≤ 100) (hg0 : 0 < g)
    (hg1 : g ≤ 1) :
    productF64 v g = f64 ((v : ℚ) * g) ∧ -100 ≤ productF64 v g ∧ productF64 v g ≤ 100 ∧
      (0 ≤ v → 0 ≤ productF64 v g) ∧ (v ≤ 0 → productF64 v g ≤ 0) ∧
      |productF64 v g - (v : ℚ) * g| ≤ 1 / 40000000000000 := by
  have hvq0 : (-100 : ℚ) ≤ (v : ℚ) := by exact_mod_cast hv0
  have hvq1 : (v : ℚ) ≤ 100 := by exact_mod_cast hv1
  have hv : f64 (v : ℚ) = v := f64_intCast v (abs_lt.mpr ⟨by linarith, by linarith⟩)
  have hupper : (v : ℚ) * g ≤ 100 := by
    rcases le_total 0 (v : ℚ) with hpos | hneg
    · nlinarith
    · nlinarith
  have hlower : -100 ≤ (v : ℚ) * g := by
    rcases le_total 0 (v : ℚ) with hpos | hneg
    · nlinarith
    · nlinarith
  have hm100 : f64 (-100 : ℚ) = -100 := by rw [f64_neg, f64_hundred]
  have hdef : productF64 v g = f64 ((v : ℚ) * g) := by
    unfold productF64
    rw [hv]
  rw [hdef]
  refine ⟨rfl, le_f64 hlower hm100, f64_le hupper f64_hundred, ?_, ?_, ?_⟩
  · intro h
    have : (0 : ℚ) ≤ (v : ℚ) := by exact_mod_cast h
    exact f64_nonneg (mul_nonneg this hg0.le)
  · intro h
    have : (v : ℚ) ≤ 0 := by exact_mod_cast h
    exact f64_le (by nlinarith) f64_zero
  · exact f64_error_small (abs_le.mpr ⟨by linarith, by linarith⟩)

/-- The vector `processPhysicalSignal` returns for a signal value in `[-100,100]` and a
gain in `(0,1]`. -/
theorem processPhysicalSignal_fst (hypothalamus : Homeostasis) (basalGanglia : BasalGanglia)
    (now : Int) (v : Int) (g : ℚ) (hv0 : -100 ≤ v) (hv1 : v ≤ 100) (hg0 : 0 < g)
    (hg1 : g ≤ 1) :
    (0 < v → (processPhysicalSignal hypothalamus basalGanglia now v g).1 =
        [⟨EmotionJoy, truncQ (productF64 v g)⟩]) ∧
      (v < 0 → (processPhysicalSignal hypothalamus basalGanglia now v g).1 =
        [⟨EmotionDisgust, truncQ (-productF64 v g)⟩]) ∧
      (v = 0 → (processPhysicalSignal hypothalamus basalGanglia now v g).1 =
        [⟨EmotionNeutral, 10⟩]) := by
  have hvq0 : (-100 : ℚ) ≤ (v : ℚ) := by exact_mod_cast hv0
  have hvq1 : (v : ℚ) ≤ 100 := by exact_mod_cast hv1
  have hv : f64 (v : ℚ) = v := f64_intCast v (abs_lt.mpr ⟨by linarith, by linarith⟩)
  obtain ⟨hdef, hlo, hhi, _, _, _⟩ := productF64_range hv0 hv1 hg0 hg1
  refine ⟨?_, ?_, ?_⟩
  · intro hpos
    have hq : (0 : ℚ) < (v : ℚ) := by exact_mod_cast hpos
    unfold processPhysicalSignal
    dsimp only
    rw [hv, if_pos hq, ← hdef]
    exact addEmotion_nil _ _ (truncQ_le_of_le (by norm_num) (by push_cast; exact hhi))
  · intro hneg
    have hq : (v : ℚ) < 0 := by exact_mod_cast hneg
    unfold processPhysicalSignal
    dsimp only
    rw [hv, if_neg (not_lt.mpr (le_of_lt hq)), if_pos hq, neg_mul, f64_neg, ← hdef]
    exact addEmotion_nil _ _ (truncQ_le_of_le (by norm_num) (by push_cast; linarith))
  · intro hzero
    subst hzero
    unfold processPhysicalSignal
    dsimp only
    rw [hv, if_neg (by norm_num), if_neg (by norm_num)]
    exact addEmotion_nil _ _ (by norm_num)

/-- The float64 value nearest to 2/3. -/
theorem f64_two_thirds : f64 (2 / 3) = 6004799503160661 / 9007199254740992 := by
  rw [f64_eval (-1) 6004799503160661 (by norm_num) (by norm_num) (by norm_num)
    (by norm_num [roundHalfEven])]
  norm_num

/-- The float64 product of 99 and the gain nearest to 2/3 is 66. -/
theorem productF64_ninety_nine : productF64 99 (f64 (2 / 3)) = 66 := by
  have h1 : f64 ((99 : Int) : ℚ) = 99 := by simpa using f64_intCast 99 (by norm_num)
  have h2 : f64 ((99 : ℚ) * (6004799503160661 / 9007199254740992)) = 66 := by
    rw [f64_eval 6 4644337115725824 (by norm_num) (by norm_num) (by norm_num)
      (by norm_num [roundHalfEven])]
    norm_num
  unfold productF64
  rw [f64_two_thirds, h1, h2]

/-- C29 (as stated) fails: for the signal value 99 and the float64 gain nearest to
2/3, which lies in `(0,1]`, the exact product `v*g` is below 66 and truncates to 65,
but the float64 product is 66 and `processPhysicalSignal` returns `[(Joy, 66)]`. -/
theorem C29_physical_signal_rounds :
    (0 < f64 (2 / 3) ∧ f64 (2 / 3) ≤ 1) ∧
      (processPhysicalSignal (Homeostasis.New 0) BasalGanglia.New 1 99 (f64 (2 / 3))).1 =
        [⟨EmotionJoy, 66⟩] ∧
      truncQ ((99 : ℚ) * f64 (2 / 3)) = 65 := by
  have hg : 0 < f64 (2 / 3) ∧ f64 (2 / 3) ≤ 1 := by
    rw [f64_two_thirds]
    norm_num
  refine ⟨hg, ?_, ?_⟩
  · rw [(processPhysicalSignal_fst (Homeostasis.New 0) BasalGanglia.New 1 99 (f64 (2 / 3))
      (by norm_num) (by norm_num) hg.1 hg.2).1 (by norm_num), productF64_ninety_nine]
    norm_num [truncQ]
  · rw [f64_two_thirds]
    norm_num [truncQ]

/-- C29 (amended): for every signal value `v` in `[-100, 100]` and gain `g` in
`(0, 1]`, `processPhysicalSignal` returns exactly `[(Joy, trunc(p))]` when `v > 0`,
exactly `[(Disgust, trunc(-p))]` when `v < 0` and exactly `[(Neutral, 10)]` when
`v = 0`, where `p` is the float64 product `v*g`; the reward it feeds to
`UpdateMotivation` is the float64 value of `(v*g + 100)/2`, which lies in `[0,100]`
and at gain 1 maps -100 to 0, 0 to 50 and 100 to 100. The float64 product and reward
are within `1e-13` of the exact ones, and the intensity differs from the truncated
exact product by at most 1. -/
theorem C29_physical_signal (hypothalamus : Homeostasis) (basalGanglia : BasalGanglia)
    (now : Int) (v : Int) (g : ℚ) (hv0 : -100 ≤ v) (hv1 : v ≤ 100) (hg0 : 0 < g)
    (hg1 : g ≤ 1) :
    (0 < v → (processPhysicalSignal hypothalamus basalGanglia now v g).1 =
        [⟨EmotionJoy, truncQ (productF64 v g)⟩]) ∧
      (v < 0 → (processPhysicalSignal hypothalamus basalGanglia now v g).1 =
        [⟨EmotionDisgust, truncQ (-productF64 v g)⟩]) ∧
      (v = 0 → (processPhysicalSignal hypothalamus basalGanglia now v g).1 =
        [⟨EmotionNeutral, 10⟩]) ∧
      (processPhysicalSignal hypothalamus basalGanglia now v g).2.2 =
        basalGanglia.UpdateMotivation (rewardF64 v g) ∧
      (0 ≤ rewardF64 v g ∧ rewardF64 v g ≤ 100) ∧
      ((processPhysicalSignal hypothalamus basalGanglia now (-100) 1).2.2 =
          basalGanglia.UpdateMotivation 0 ∧
        (processPhysicalSignal hypothalamus basalGanglia now 0 1).2.2 =
          basalGanglia.UpdateMotivation 50 ∧
        (processPhysicalSignal hypothalamus basalGanglia now 100 1).2.2 =
          basalGanglia.UpdateMotivation 100) ∧
      |productF64 v g - (v : ℚ) * g| ≤ 1 / 10 ^ 13 ∧
      |rewardF64 v g - ((v : ℚ) * g + 100) / 2| ≤ 1 / 10 ^ 13 ∧
      |truncQ (productF64 v g) - truncQ ((v : ℚ) * g)| ≤ 1 ∧
      |truncQ (-productF64 v g) - truncQ (-(v : ℚ) * g)| ≤ 1 := by
  obtain ⟨hdef, hlo, hhi, _, _, hclose⟩ := productF64_range hv0 hv1 hg0 hg1
  have h200 : f64 (200 : ℚ) = 200 := by simpa using f64_intCast 200 (by norm_num)
  have hs0 : 0 ≤ f64 (productF64 v g + 100) := f64_nonneg (by linarith)
  have hs1 : f64 (productF64 v g + 100) ≤ 200 := f64_le (by linarith) h200
  have hr0 : 0 ≤ rewardF64 v g := f64_nonneg (by linarith)
  have hr1 : rewardF64 v g ≤ 100 := f64_le (by linarith) f64_hundred
  have e1 := f64_error_small (a := productF64 v g + 100)
    (abs_le.mpr ⟨by linarith, by linarith⟩)
  have e2 := f64_error_small (a := f64 (productF64 v g + 100) / 2)
    (abs_le.mpr ⟨by linarith, by linarith⟩)
  have hreward : ∀ (w : Int) (k : ℚ),
      (processPhysicalSignal hypothalamus basalGanglia now w k).2.2 =
        basalGanglia.UpdateMotivation (rewardF64 w k) := fun _ _ => rfl
  have hpc : |productF64 v g - (v : ℚ) * g| ≤ 1 / 10 ^ 13 :=
    le_trans hclose (by norm_num)
  have hrc : |rewardF64 v g - ((v : ℚ) * g + 100) / 2| ≤ 1 / 10 ^ 13 := by
    have e2' : |rewardF64 v g - f64 (productF64 v g + 100) / 2| ≤ 1 / 40000000000000 := e2
    rw [abs_le] at e1 e2' hclose ⊢
    constructor <;> norm_num <;> linarith [e1.1, e1.2, e2'.1, e2'.2, hclose.1, hclose.2]
  have hfst := processPhysicalSignal_fst hypothalamus basalGanglia now v g hv0 hv1 hg0 hg1
  have hm : f64 (((-100 : Int) : ℚ)) = -100 := by
    simpa using f64_intCast (-100) (by norm_num)
  have hz : f64 (((0 : Int) : ℚ)) = 0 := by simpa using f64_intCast 0 (by norm_num)
  have hh : f64 (((100 : Int) : ℚ)) = 100 := by simpa using f64_intCast 100 (by norm_num)
  have h50 : f64 (50 : ℚ) = 50 := by simpa using f64_intCast 50 (by norm_num)
  have ra : rewardF64 (-100) 1 = 0 := by
    unfold rewardF64 productF64
    rw [hm, mul_one, f64_neg, f64_hundred, neg_add_cancel, f64_zero, zero_div, f64_zero]
  have rb : rewardF64 0 1 = 50 := by
    unfold rewardF64 productF64
    rw [hz, mul_one, f64_zero, zero_add, f64_hundred]
    norm_num
    exact h50
  have rc : rewardF64 100 1 = 100 := by
    unfold rewardF64 productF64
    rw [hh, mul_one, f64_hundred]
    norm_num
    rw [h200]
    norm_num
    exact f64_hundred
  refine ⟨hfst.1, hfst.2.1, hfst.2.2, hreward v g, ⟨hr0, hr1⟩, ⟨?_, ?_, ?_⟩, hpc, hrc,
    ?_, ?_⟩
  · rw [hreward, ra]
  · rw [hreward, rb]
  · rw [hreward, rc]
  · exact truncQ_close (le_trans hpc (by norm_num))
  · apply truncQ_close
    rw [show -productF64 v g - -(v : ℚ) * g = -(productF64 v g - (v : ℚ) * g) by ring, abs_neg]
    exact le_trans hpc (by norm_num)

/-- For the signal value 99 and the float64 gain nearest to 2/3 the vector is
`[(Joy, 66)]`; the reward is the float64 value of `(66 + 100)/2`. -/
theorem C29_physical_signal_witness :
    (processPhysicalSignal (Homeostasis.New 0) BasalGanglia.New 1 99 (f64 (2 / 3))).1 =
        [⟨EmotionJoy, 66⟩] ∧
      (processPhysicalSignal (Homeostasis.New 0) BasalGanglia.New 1 99 (f64 (2 / 3))).2.2 =
        BasalGanglia.New.UpdateMotivation (rewardF64 99 (f64 (2 / 3))) :=
  have hg : 0 < f64 (2 / 3) ∧ f64 (2 / 3) ≤ 1 := by
    rw [f64_two_thirds]
    norm_num
  have h := C29_physical_signal (Homeostasis.New 0) BasalGanglia.New 1 99 (f64 (2 / 3))
    (by decide) (by decide) hg.1 hg.2
  ⟨by rw [h.1 (by decide), productF64_ninety_nine]; norm_num [truncQ], h.2.2.2.1⟩

/-- The accumulation loop of the squared deviations computes their sum. -/
theorem foldl_variance (l : List EmotionValue) (avg : ℚ) :
    ∀ a : ℚ, l.foldl (fun variance emotion =>
        variance + ((emotion.Value : ℚ) - avg) * ((emotion.Value : ℚ) - avg)) a =
      a + (l.map (fun e => ((e.Value : ℚ) - avg) ^ 2)).sum := by
  induction l with
  | nil => intro a; simp
  | cons e rest ih =>
    intro a
    rw [List.foldl_cons, ih, List.map_cons, List.sum_cons]
    ring

/-- The two successive conditional assignments of `calculateMoodStability` compute
the clamp to `[0,1]`. -/
theorem clamp_unit (x : ℚ) :
    (if (if x < 0 then 0 else x) > 1 then 1 else (if x < 0 then 0 else x)) =
      clampSpec x 0 1 := by
  unfold clampSpec
  by_cases h1 : x < 0
  · rw [if_pos h1, if_neg (by norm_num), min_eq_left (by linarith), max_eq_left (by linarith)]
  · rw [if_neg h1]
    by_cases h2 : x > 1
    · rw [if_pos h2, min_eq_right (by linarith), max_eq_right (by norm_num)]
    · rw [if_neg h2, min_eq_left (by linarith), max_eq_right (by linarith)]

/-- C30: for every non-empty emotion vector, `calculateMoodStability` returns
`1 - variance/10000` clamped to `[0,1]`, where `variance` is the population variance
of the intensities; the result always lies in `[0,1]`, and it is `0.5` for the empty
vector. -/
theorem C30_mood_stability (currentEmotions : List EmotionValue) :
    (currentEmotions ≠ [] →
        calculateMoodStability currentEmotions =
          clampSpec (1 - popVariance currentEmotions / 10000) 0 1) ∧
      (0 ≤ calculateMoodStability currentEmotions ∧
        calculateMoodStability currentEmotions ≤ 1) ∧
      calculateMoodStability [] = 1 / 2 := by
  have hmain : currentEmotions ≠ [] →
      calculateMoodStability currentEmotions =
        clampSpec (1 - popVariance currentEmotions / 10000) 0 1 := by
    intro hne
    have hlen : currentEmotions.length ≠ 0 := fun h0 => hne (List.length_eq_zero.mp h0)
    unfold calculateMoodStability popVariance
    rw [if_neg hlen]
    dsimp only
    rw [clamp_unit, foldl_total, foldl_variance, zero_add, zero_add]
  have hempty : calculateMoodStability [] = 1 / 2 := by
    norm_num [calculateMoodStability]
  refine ⟨hmain, ?_, hempty⟩
  by_cases hne : currentEmotions = []
  · rw [hne, hempty]
    norm_num
  · rw [hmain hne]
    unfold clampSpec
    exact ⟨le_max_left _ _, max_le (by norm_num) (min_le_right _ _)⟩

theorem C30_mood_stability_witness :
    calculateMoodStability [⟨EmotionJoy, 100⟩, ⟨EmotionFear, 0⟩] =
        clampSpec (1 - popVariance [⟨EmotionJoy, 100⟩, ⟨EmotionFear, 0⟩] / 10000) 0 1 ∧
      calculateMoodStability [⟨EmotionJoy, 100⟩, ⟨EmotionFear, 0⟩] = 3 / 4 :=
  ⟨(C30_mood_stability [⟨EmotionJoy, 100⟩, ⟨EmotionFear, 0⟩]).1 (by decide),
    by norm_num [calculateMoodStability]⟩

/-! ### C31: decay of Motivation toward 50 -/

/-- The float64 constant `0.95`. -/
theorem f64_095 : f64 (95 / 100) = 4278419646001971 / 4503599627370496 := by
  rw [f64_eval (-1) 8556839292003942 (by norm_num) (by norm_num) (by norm_num)
    (by norm_num [roundHalfEven])]
  norm_num

/-- One decay step in float64 arithmetic on a float64 value above 50. -/
theorem decay_above {M : ℚ} (hf : f64 M = M) (h50 : 50 < M) (h100 : M ≤ 100) :
    50 < f64 (50 + f64 (f64 (M - 50) * (4278419646001971 / 4503599627370496))) ∧
      f64 (50 + f64 (f64 (M - 50) * (4278419646001971 / 4503599627370496))) ≤ M ∧
      (50 + 1 / 10 ^ 12 ≤ M →
        f64 (50 + f64 (f64 (M - 50) * (4278419646001971 / 4503599627370496))) < M) ∧
      |f64 (50 + f64 (f64 (M - 50) * (4278419646001971 / 4503599627370496))) -
        (50 + 95 / 100 * (M - 50))| ≤ 1 / 10 ^ 13 := by
  have hgrid : 50 + 1 / 140737488355328 ≤ M ∧ (M < 64 → f64 (M - 50) = M - 50) := by
    by_cases h64 : M < 64
    · obtain ⟨N, hN⟩ := f64_grid hf (by linarith) h64
      have hN1 : (7036874417766400 : ℚ) < (N : ℚ) := by
        rw [hN] at h50
        linarith
      have hN1' : (7036874417766400 : Int) < N := by exact_mod_cast hN1
      have hN2 : (N : ℚ) < 9007199254740992 := by
        rw [hN] at h64
        linarith
      have hN2' : N < 9007199254740992 := by exact_mod_cast hN2
      constructor
      · have h3 : ((7036874417766401 : Int) : ℚ) ≤ (N : ℚ) := by
          exact_mod_cast (by omega : (7036874417766401 : Int) ≤ N)
        push_cast at h3
        rw [hN]
        linarith
      · intro _
        refine f64_exact (N - 7036874417766400) (-47)
          (abs_lt.mpr ⟨by norm_num; omega, by norm_num; omega⟩) (by norm_num) ?_
        rw [hN]
        push_cast
        rw [show (2 : ℚ) ^ (-47 : Int) = 1 / 140737488355328 by norm_num]
        ring
    · exact ⟨by linarith, fun h => absurd h h64⟩
  have hg : f64 (1 / 140737488355328 : ℚ) = 1 / 140737488355328 :=
    f64_exact 1 (-47) (by norm_num) (by norm_num) (by norm_num)
  have hd_lo : 1 / 140737488355328 ≤ f64 (M - 50) := le_f64 (by linarith [hgrid.1]) hg
  have hd_err := f64_error_fifty (a := M - 50) (abs_le.mpr ⟨by linarith, by linarith⟩)
  have hd_hi : f64 (M - 50) ≤ 50 := f64_le (by linarith) f64_fifty
  have hd_ex := hgrid.2
  have hd_idem : M < 64 → f64 (f64 (M - 50)) = f64 (M - 50) := by
    intro h
    rw [hgrid.2 h]
    exact hgrid.2 h
  generalize f64 (M - 50) = d at hd_lo hd_err hd_hi hd_ex hd_idem ⊢
  have hgr : f64 (1 / 140737488355328 * (4278419646001971 / 4503599627370496) : ℚ) =
      1 / 140737488355328 * (4278419646001971 / 4503599627370496) :=
    f64_exact 4278419646001971 (-99) (by norm_num) (by norm_num) (by norm_num)
  have ht_lo : 1 / 140737488355328 * (4278419646001971 / 4503599627370496) ≤
      f64 (d * (4278419646001971 / 4503599627370496)) := le_f64 (by linarith) hgr
  have ht_err := f64_error_fifty (a := d * (4278419646001971 / 4503599627370496))
    (abs_le.mpr ⟨by linarith, by linarith⟩)
  have ht_near : M < 64 → f64 (d * (4278419646001971 / 4503599627370496)) ≤ d :=
    fun h => f64_le (by linarith) (hd_idem h)
  generalize f64 (d * (4278419646001971 / 4503599627370496)) = t at ht_lo ht_err ht_near ⊢
  rw [abs_le] at hd_err ht_err
  have hlow : f64 (50 + 1 / 140737488355328 * (4278419646001971 / 4503599627370496) : ℚ) =
      50 + 1 / 140737488355328 := by
    rw [f64_eval 5 7036874417766401 (by norm_num) (by norm_num) (by norm_num)
      (by norm_num [roundHalfEven])]
    norm_num
  have hM_lo : 50 + 1 / 140737488355328 ≤ f64 (50 + t) := by
    have := f64_mono (show 50 + 1 / 140737488355328 *
      (4278419646001971 / 4503599627370496) ≤ 50 + t by linarith)
    rw [hlow] at this
    exact this
  have hM_err := f64_error_small (a := 50 + t) (abs_le.mpr ⟨by linarith, by linarith⟩)
  have hM_near : M < 64 → f64 (50 + t) ≤ M :=
    fun h => f64_le (by linarith [ht_near h, hd_ex h]) hf
  generalize f64 (50 + t) = M' at hM_lo hM_err hM_near ⊢
  rw [abs_le] at hM_err
  have hstrict : 50 + 1 / 10 ^ 12 ≤ M → M' < M := by
    intro h
    norm_num at h
    linarith
  refine ⟨by linarith, ?_, hstrict, ?_⟩
  · by_cases h : 50 + 1 / 10 ^ 12 ≤ M
    · exact (hstrict h).le
    · exact hM_near (by norm_num at h; linarith)
  · rw [abs_le]
    constructor <;> norm_num <;> linarith

/-- One decay step in float64 arithmetic on a float64 value below 50. -/
theorem decay_below {M : ℚ} (hf : f64 M = M) (h0 : 0 ≤ M) (h50 : M < 50) :
    f64 (50 - f64 (f64 (50 - M) * (4278419646001971 / 4503599627370496))) < 50 ∧
      M ≤ f64 (50 - f64 (f64 (50 - M) * (4278419646001971 / 4503599627370496))) ∧
      (M ≤ 50 - 1 / 10 ^ 12 →
        M < f64 (50 - f64 (f64 (50 - M) * (4278419646001971 / 4503599627370496)))) ∧
      |f64 (50 - f64 (f64 (50 - M) * (4278419646001971 / 4503599627370496))) -
        (50 + 95 / 100 * (M - 50))| ≤ 1 / 10 ^ 13 := by
  have hgrid : M ≤ 50 - 1 / 140737488355328 ∧ (32 ≤ M → f64 (50 - M) = 50 - M) := by
    by_cases h32 : 32 ≤ M
    · obtain ⟨N, hN⟩ := f64_grid hf h32 (by linarith)
      have hN1 : (N : ℚ) < 7036874417766400 := by
        rw [hN] at h50
        linarith
      have hN1' : N < (7036874417766400 : Int) := by exact_mod_cast hN1
      have hN2 : (0 : ℚ) ≤ (N : ℚ) := by
        rw [hN] at h0
        linarith
      have hN2' : (0 : Int) ≤ N := by exact_mod_cast hN2
      constructor
      · have h3 : (N : ℚ) ≤ ((7036874417766399 : Int) : ℚ) := by
          exact_mod_cast (by omega : N ≤ (7036874417766399 : Int))
        push_cast at h3
        rw [hN]
        linarith
      · intro _
        refine f64_exact (7036874417766400 - N) (-47)
          (abs_lt.mpr ⟨by norm_num; omega, by norm_num; omega⟩) (by norm_num) ?_
        rw [hN]
        push_cast
        rw [show (2 : ℚ) ^ (-47 : Int) = 1 / 140737488355328 by norm_num]
        ring
    · exact ⟨by linarith, fun h => absurd h h32⟩
  have hg : f64 (1 / 140737488355328 : ℚ) = 1 / 140737488355328 :=
    f64_exact 1 (-47) (by norm_num) (by norm_num) (by norm_num)
  have hd_lo : 1 / 140737488355328 ≤ f64 (50 - M) := le_f64 (by linarith [hgrid.1]) hg
  have hd_err := f64_error_fifty (a := 50 - M) (abs_le.mpr ⟨by linarith, by linarith⟩)
  have hd_hi : f64 (50 - M) ≤ 50 := f64_le (by linarith) f64_fifty
  have hd_ex := hgrid.2
  have hd_idem : 32 ≤ M → f64 (f64 (50 - M)) = f64 (50 - M) := by
    intro h
    rw [hgrid.2 h]
    exact hgrid.2 h
  generalize f64 (50 - M) = d at hd_lo hd_err hd_hi hd_ex hd_idem ⊢
  have hgr : f64 (1 / 140737488355328 * (4278419646001971 / 4503599627370496) : ℚ) =
      1 / 140737488355328 * (4278419646001971 / 4503599627370496) :=
    f64_exact 4278419646001971 (-99) (by norm_num) (by norm_num) (by norm_num)
  have ht_lo : 1 / 140737488355328 * (4278419646001971 / 4503599627370496) ≤
      f64 (d * (4278419646001971 / 4503599627370496)) := le_f64 (by linarith) hgr
  have ht_err := f64_error_fifty (a := d * (4278419646001971 / 4503599627370496))
    (abs_le.mpr ⟨by linarith, by linarith⟩)
  have ht_near : 32 ≤ M → f64 (d * (4278419646001971 / 4503599627370496)) ≤ d :=
    fun h => f64_le (by linarith) (hd_idem h)
  generalize f64 (d * (4278419646001971 / 4503599627370496)) = t at ht_lo ht_err ht_near ⊢
  rw [abs_le] at hd_err ht_err
  have hlow : f64 (50 - 1 / 140737488355328 * (4278419646001971 / 4503599627370496) : ℚ) =
      50 - 1 / 140737488355328 := by
    rw [f64_eval 5 7036874417766399 (by norm_num) (by norm_num) (by norm_num)
      (by norm_num [roundHalfEven])]
    norm_num
  have hM_hi : f64 (50 - t) ≤ 50 - 1 / 140737488355328 := by
    have := f64_mono (show 50 - t ≤ 50 - 1 / 140737488355328 *
      (4278419646001971 / 4503599627370496) by linarith)
    rw [hlow] at this
    exact this
  have hM_err := f64_error_small (a := 50 - t) (abs_le.mpr ⟨by linarith, by linarith⟩)
  have hM_near : 32 ≤ M → M ≤ f64 (50 - t) :=
    fun h => le_f64 (by linarith [ht_near h, hd_ex h]) hf
  generalize f64 (50 - t) = M' at hM_hi hM_err hM_near ⊢
  rw [abs_le] at hM_err
  have hstrict : M ≤ 50 - 1 / 10 ^ 12 → M < M' := by
    intro h
    norm_num at h
    linarith
  refine ⟨by linarith, ?_, hstrict, ?_⟩
  · by_cases h : M ≤ 50 - 1 / 10 ^ 12
    · exact (hstrict h).le
    · exact hM_near (by norm_num at h; linarith)
  · rw [abs_le]
    constructor <;> norm_num <;> linarith

/-- On a state with the limits of `New`, the decay rate of `New` and a float64
Motivation in `[0,100]`, `ApplyDecay` sets Motivation to the float64 value of the decay
formula, and the clamp changes nothing. -/
theorem ApplyDecay_Motivation (bg : BasalGanglia) (h : bg.Valid)
    (hd : bg.decayRate = f64 (95 / 100)) (hf : f64 bg.Motivation = bg.Motivation) :
    bg.ApplyDecay.Motivation = decayF64 bg.Motivation := by
  obtain ⟨hmin, hmax, h1, h2, _, _⟩ := h
  unfold BasalGanglia.ApplyDecay decayF64
  rw [clampValues_Motivation]
  by_cases ha : bg.Motivation > 50
  · obtain ⟨hlo, hhi, _, _⟩ := decay_above hf ha h2
    simp only [ha, if_true, hmin, hmax, hd]
    rw [clamp_seq]
    unfold clampSpec
    rw [f64_095]
    rw [min_eq_left (by linarith), max_eq_right (by linarith)]
  · by_cases hb : bg.Motivation < 50
    · obtain ⟨hlo, hhi, _, _⟩ := decay_below hf h1 hb
      simp only [ha, hb, if_true, if_false, hmin, hmax, hd]
      rw [clamp_seq]
      unfold clampSpec
      rw [f64_095]
      rw [min_eq_left (by linarith), max_eq_right (by linarith)]
    · simp only [ha, hb, if_false, hmin, hmax]
      rw [clamp_seq]
      unfold clampSpec
      rw [min_eq_left (by linarith), max_eq_right (by linarith)]

/-- The float64 value `50 + 10 * 2^-47` is left as it is by the decay formula. -/
theorem decayF64_stall : decayF64 (50 + 5 / 70368744177664) = 50 + 5 / 70368744177664 := by
  have h1 : f64 (50 + 5 / 70368744177664 - 50 : ℚ) = 5 / 70368744177664 := by
    rw [f64_exact 5 (-46) (by norm_num) (by norm_num) (by norm_num)]
    norm_num
  have h2 : f64 (5 / 70368744177664 * (4278419646001971 / 4503599627370496) : ℚ) =
      19 / 281474976710656 := by
    rw [f64_eval (-44) 5348024557502464 (by norm_num) (by norm_num) (by norm_num)
      (by norm_num [roundHalfEven])]
    norm_num
  have h3 : f64 (50 + 19 / 281474976710656 : ℚ) = 50 + 5 / 70368744177664 := by
    rw [f64_eval 5 7036874417766410 (by norm_num) (by norm_num) (by norm_num)
      (by norm_num [roundHalfEven])]
    norm_num
  unfold decayF64
  rw [if_pos (by norm_num), f64_095, h1, h2, h3]

/-- The decay formula takes 90 to 88 in float64 arithmetic. -/
theorem decayF64_ninety : decayF64 90 = 88 := by
  have h1 : f64 (90 - 50 : ℚ) = 40 := by
    rw [f64_exact 40 0 (by norm_num) (by norm_num) (by norm_num)]
    norm_num
  have h2 : f64 (40 * (4278419646001971 / 4503599627370496) : ℚ) = 38 := by
    rw [f64_eval 5 5348024557502464 (by norm_num) (by norm_num) (by norm_num)
      (by norm_num [roundHalfEven])]
    norm_num
  have h3 : f64 (50 + 38 : ℚ) = 88 := by
    rw [f64_exact 88 0 (by norm_num) (by norm_num) (by norm_num)]
    norm_num
  unfold decayF64
  rw [if_pos (by norm_num), f64_095, h1, h2, h3]

theorem New_with_Motivation_valid (m : ℚ) (h0 : 0 ≤ m) (h1 : m ≤ 100) :
    ({ BasalGanglia.New with Motivation := m } : BasalGanglia).Valid := by
  refine ⟨rfl, rfl, h0, h1, ?_, ?_⟩ <;> norm_num [BasalGanglia.New]

/-- C31 (as stated) fails: the float64 Motivation `50 + 10 * 2^-47` (about
`50.00000000000007`) lies above 50 and in `[0,100]`, and `ApplyDecay` leaves it as it
is: it does not strictly decrease, and it is not `50 + 0.95 * (M - 50)`. -/
theorem C31_decay_stalls :
    ({ BasalGanglia.New with Motivation := 50 + 5 / 70368744177664 } : BasalGanglia).Valid ∧
      f64 (50 + 5 / 70368744177664) = 50 + 5 / 70368744177664 ∧
      (50 : ℚ) < 50 + 5 / 70368744177664 ∧
      ({ BasalGanglia.New with Motivation := 50 + 5 / 70368744177664 } :
        BasalGanglia).ApplyDecay.Motivation = 50 + 5 / 70368744177664 ∧
      ({ BasalGanglia.New with Motivation := 50 + 5 / 70368744177664 } :
        BasalGanglia).ApplyDecay.Motivation ≠
          50 + 95 / 100 * (50 + 5 / 70368744177664 - 50) := by
  have hv := New_with_Motivation_valid (50 + 5 / 70368744177664) (by norm_num) (by norm_num)
  have hf : f64 (50 + 5 / 70368744177664 : ℚ) = 50 + 5 / 70368744177664 :=
    f64_exact 3518437208883205 (-46) (by norm_num) (by norm_num) (by norm_num)
  have hM := ApplyDecay_Motivation
    ({ BasalGanglia.New with Motivation := 50 + 5 / 70368744177664 } : BasalGanglia) hv rfl hf
  rw [decayF64_stall] at hM
  refine ⟨hv, hf, by norm_num, hM, ?_⟩
  rw [hM]
  norm_num

/-- C31 (amended): on every state with the limits and the decay rate 0.95 of `New`, both
levels in `[0,100]` and a float64 Motivation `M`, `ApplyDecay` sets Motivation to the
float64 value of `50 + 0.95 * (M - 50)`, which is within `1e-13` of the exact value:
above 50 it does not increase and stays above 50, and it strictly decreases when
`M ≥ 50 + 1e-12`; below 50 it does not decrease and stays below 50, and it strictly
increases when `M ≤ 50 - 1e-12`; 50 is a fixed point; PredictedReward is unchanged. -/
theorem C31_apply_decay (bg : BasalGanglia) (h : bg.Valid)
    (hd : bg.decayRate = f64 (95 / 100)) (hf : f64 bg.Motivation = bg.Motivation) :
    bg.ApplyDecay.Motivation = decayF64 bg.Motivation ∧
      (50 < bg.Motivation →
        50 < bg.ApplyDecay.Motivation ∧ bg.ApplyDecay.Motivation ≤ bg.Motivation ∧
          (50 + 1 / 10 ^ 12 ≤ bg.Motivation →
            bg.ApplyDecay.Motivation < bg.Motivation)) ∧
      (bg.Motivation < 50 →
        bg.ApplyDecay.Motivation < 50 ∧ bg.Motivation ≤ bg.ApplyDecay.Motivation ∧
          (bg.Motivation ≤ 50 - 1 / 10 ^ 12 →
            bg.Motivation < bg.ApplyDecay.Motivation)) ∧
      (bg.Motivation = 50 → bg.ApplyDecay.Motivation = 50) ∧
      |bg.ApplyDecay.Motivation - (50 + 95 / 100 * (bg.Motivation - 50))| ≤ 1 / 10 ^ 13 ∧
      bg.ApplyDecay.PredictedReward = bg.PredictedReward := by
  have hM := ApplyDecay_Motivation bg h hd hf
  obtain ⟨hmin, hmax, h1, h2, h3, h4⟩ := h
  have hP : bg.ApplyDecay.PredictedReward = bg.PredictedReward := by
    unfold BasalGanglia.ApplyDecay
    rw [clampValues_PredictedReward]
    dsimp only
    split_ifs <;> (try dsimp only at *) <;> first | rfl | (exfalso; linarith)
  have habove : 50 < bg.Motivation → decayF64 bg.Motivation =
      f64 (50 + f64 (f64 (bg.Motivation - 50) * (4278419646001971 / 4503599627370496))) := by
    intro hgt
    unfold decayF64
    rw [if_pos hgt, f64_095]
  have hbelow : bg.Motivation < 50 → decayF64 bg.Motivation =
      f64 (50 - f64 (f64 (50 - bg.Motivation) * (4278419646001971 / 4503599627370496))) := by
    intro hlt
    unfold decayF64
    rw [if_neg (not_lt.mpr hlt.le), if_pos hlt, f64_095]
  have hfix : bg.Motivation = 50 → decayF64 bg.Motivation = 50 := by
    intro he
    unfold decayF64
    rw [he, if_neg (lt_irrefl _), if_neg (lt_irrefl _)]
  refine ⟨hM, ?_, ?_, ?_, ?_, hP⟩
  · intro hgt
    rw [hM, habove hgt]
    obtain ⟨a, b, c, _⟩ := decay_above hf hgt h2
    exact ⟨a, b, c⟩
  · intro hlt
    rw [hM, hbelow hlt]
    obtain ⟨a, b, c, _⟩ := decay_below hf h1 hlt
    exact ⟨a, b, c⟩
  · intro he
    rw [hM, hfix he]
  · rw [hM]
    rcases lt_trichotomy bg.Motivation 50 with hlt | he | hgt
    · rw [hbelow hlt]
      exact (decay_below hf h1 hlt).2.2.2
    · rw [hfix he, he]
      norm_num
    · rw [habove hgt]
      exact (decay_above hf hgt h2).2.2.2

/-- At Motivation 90 one decay gives 88, strictly less. -/
theorem C31_apply_decay_witness :
    ({ BasalGanglia.New with Motivation := 90 } : BasalGanglia).ApplyDecay.Motivation = 88 ∧
      ({ BasalGanglia.New with Motivation := 90 } : BasalGanglia).ApplyDecay.Motivation <
        90 :=
  have hf : f64 (90 : ℚ) = 90 := by simpa using f64_intCast 90 (by norm_num)
  have h := C31_apply_decay ({ BasalGanglia.New with Motivation := 90 } : BasalGanglia)
    (New_with_Motivation_valid 90 (by norm_num) (by norm_num)) rfl hf
  ⟨by rw [h.1]; exact decayF64_ninety, (h.2.1 (by norm_num)).2.2 (by norm_num)⟩

/-! ### C39: the reward prediction under a constant reward -/

/-- The PredictedReward written by `UpdateMotivation` when the reward and the previous
prediction lie in `[0,100]`: the clamp changes nothing. -/
theorem updateMotivation_PredictedReward (bg : BasalGanglia) (r : ℚ)
    (h3 : 0 ≤ bg.PredictedReward) (h4 : bg.PredictedReward ≤ 100)
    (hr0 : 0 ≤ r) (hr1 : r ≤ 100) :
    (bg.UpdateMotivation r).PredictedReward =
      bg.PredictedReward + (r - bg.PredictedReward) * (3 / 10) := by
  unfold BasalGanglia.UpdateMotivation
  rw [clampValues_PredictedReward]
  dsimp only
  have ha : ¬ (bg.PredictedReward + (r - bg.PredictedReward) * (3 / 10) < 0) := by linarith
  have hb : ¬ (bg.PredictedReward + (r - bg.PredictedReward) * (3 / 10) > 100) := by linarith
  rw [if_neg ha, if_neg hb]

/-- C39: for every reward `R` in `[0,100]`, every state with both levels in `[0,100]`
and every `n`, after `n` consecutive `UpdateMotivation(R)` calls PredictedReward is
`R - (R - P0) * 0.7^n`; each call stores the unclamped value
`P + 0.3 * (R - P)`, and the prediction moves monotonically toward `R` without passing
it. -/
theorem C39_predicted_reward (bg : BasalGanglia) (R : ℚ) (h : bg.Valid)
    (hR0 : 0 ≤ R) (hR1 : R ≤ 100) (n : Nat) :
    (bg.repeatUpdate R n).PredictedReward = R - (R - bg.PredictedReward) * (7 / 10) ^ n ∧
      (bg.repeatUpdate R (n + 1)).PredictedReward =
        (bg.repeatUpdate R n).PredictedReward +
          (R - (bg.repeatUpdate R n).PredictedReward) * (3 / 10) ∧
      (bg.PredictedReward ≤ R →
        (bg.repeatUpdate R n).PredictedReward ≤ (bg.repeatUpdate R (n + 1)).PredictedReward ∧
          (bg.repeatUpdate R (n + 1)).PredictedReward ≤ R) ∧
      (R ≤ bg.PredictedReward →
        R ≤ (bg.repeatUpdate R (n + 1)).PredictedReward ∧
          (bg.repeatUpdate R (n + 1)).PredictedReward ≤ (bg.repeatUpdate R n).PredictedReward) := by
  have hstep : ∀ k, (bg.repeatUpdate R (k + 1)).PredictedReward =
      (bg.repeatUpdate R k).PredictedReward +
        (R - (bg.repeatUpdate R k).PredictedReward) * (3 / 10) := by
    intro k
    obtain ⟨_, _, _, _, h3, h4⟩ := repeatUpdate_valid bg R h k
    show ((bg.repeatUpdate R k).UpdateMotivation R).PredictedReward = _
    exact updateMotivation_PredictedReward _ R h3 h4 hR0 hR1
  have hclosed : ∀ k, (bg.repeatUpdate R k).PredictedReward =
      R - (R - bg.PredictedReward) * (7 / 10) ^ k := by
    intro k
    induction k with
    | zero => show bg.PredictedReward = _; ring
    | succ k ih => rw [hstep k, ih, pow_succ]; ring
  have hpow : (0 : ℚ) ≤ (7 / 10) ^ n := by positivity
  refine ⟨hclosed n, hstep n, ?_, ?_⟩
  · intro hle
    have hd : 0 ≤ (R - bg.PredictedReward) * (7 / 10) ^ n :=
      mul_nonneg (by linarith) hpow
    rw [hstep n, hclosed n]
    constructor <;> linarith
  · intro hle
    have hd : 0 ≤ (bg.PredictedReward - R) * (7 / 10) ^ n :=
      mul_nonneg (by linarith) hpow
    rw [hstep n, hclosed n]
    constructor <;> linarith

/-- From the state of `New` (prediction 50) two calls with reward 100 give the
prediction `100 - 50 * 0.49 = 75.5`. -/
theorem C39_predicted_reward_witness :
    (BasalGanglia.New.repeatUpdate 100 2).PredictedReward = 151 / 2 := by
  have hv : BasalGanglia.New.Valid := by
    refine ⟨rfl, rfl, ?_, ?_, ?_, ?_⟩ <;> norm_num [BasalGanglia.New]
  have h := (C39_predicted_reward BasalGanglia.New 100 hv (by norm_num) (by norm_num) 2).1
  rw [h]
  norm_num [BasalGanglia.New]

/-! ### C32: the self-control value stays in range -/

theorem clampSanity_Sanity (pfc : PrefrontalCortex) (hmin : pfc.minSanity = 0)
    (hmax : pfc.maxSanity = 100) :
    pfc.clampSanity.Sanity = max 0 (min pfc.Sanity 100) ∧
      pfc.clampSanity.minSanity = 0 ∧ pfc.clampSanity.maxSanity = 100 := by
  obtain ⟨s, mn, mx, d⟩ := pfc
  simp only at hmin hmax
  subst hmin hmax
  unfold PrefrontalCortex.clampSanity
  simp only
  by_cases h1 : s < 0
  · simp only [h1, if_true]
    rw [if_neg (by norm_num)]
    refine ⟨?_, rfl, rfl⟩
    show (0 : Int) = max 0 (min s 100)
    omega
  · simp only [h1, if_false]
    by_cases h2 : s > 100
    · rw [if_pos h2]
      refine ⟨?_, rfl, rfl⟩
      show (100 : Int) = max 0 (min s 100)
      omega
    · rw [if_neg h2]
      refine ⟨?_, rfl, rfl⟩
      show s = max 0 (min s 100)
      omega

theorem clampSanity_valid (pfc : PrefrontalCortex) (hmin : pfc.minSanity = 0)
    (hmax : pfc.maxSanity = 100) : pfc.clampSanity.Valid := by
  obtain ⟨hs, h1, h2⟩ := clampSanity_Sanity pfc hmin hmax
  refine ⟨h1, h2, ?_, ?_⟩ <;> rw [hs] <;> omega

theorem pfc_step_valid (pfc : PrefrontalCortex) (call : PFCCall) (h : pfc.Valid) :
    (pfc.step call).Valid := by
  obtain ⟨hmin, hmax, h1, h2⟩ := h
  cases call with
  | setSanity v => exact clampSanity_valid _ hmin hmax
  | updateSanity d => exact clampSanity_valid _ hmin hmax
  | applyStress s => exact clampSanity_valid _ hmin hmax
  | rest q => exact clampSanity_valid _ hmin hmax
  | reset =>
    refine ⟨hmin, hmax, ?_, ?_⟩ <;> show _ ≤ _ <;>
      simp only [PrefrontalCortex.step, PrefrontalCortex.Reset] <;> norm_num

theorem pfc_run_valid (calls : List PFCCall) :
    ∀ pfc : PrefrontalCortex, pfc.Valid → (pfc.run calls).Valid := by
  induction calls with
  | nil => intro pfc h; exact h
  | cons c rest ih =>
    intro pfc h
    exact ih _ (pfc_step_valid pfc c h)

theorem pfc_new_valid : PrefrontalCortex.New.Valid := by
  refine ⟨rfl, rfl, ?_, ?_⟩ <;> simp [PrefrontalCortex.New]

/-- C32: starting from `pfc.New()`, after every finite sequence of `SetSanity`,
`UpdateSanity`, `ApplyStress`, `Rest` and `Reset` calls with arbitrary integer
arguments (additions wrapping as on 64-bit integers) the self-control value lies in
`[0,100]`, and a following `SetSanity(v)` stores exactly `v` limited to `[0,100]`. -/
theorem C32_sanity_in_range (calls : List PFCCall) (v : Int) :
    0 ≤ (PrefrontalCortex.New.run calls).Sanity ∧
      (PrefrontalCortex.New.run calls).Sanity ≤ 100 ∧
      ((PrefrontalCortex.New.run calls).SetSanity v).Sanity = max 0 (min v 100) := by
  obtain ⟨hmin, hmax, h1, h2⟩ := pfc_run_valid calls PrefrontalCortex.New pfc_new_valid
  refine ⟨h1, h2, ?_⟩
  exact (clampSanity_Sanity
    ({ PrefrontalCortex.New.run calls with Sanity := v } : PrefrontalCortex) hmin hmax).1

/-- A stress of 37 lowers the value by 7, a rest of quality -9 lowers it by 2, and an
update by the largest 64-bit integer wraps to a negative value and stores 0. -/
theorem pfc_calls_example :
    (PrefrontalCortex.New.ApplyStress 37).Sanity = 73 ∧
      (PrefrontalCortex.New.Rest (-9)).Sanity = 78 ∧
      (PrefrontalCortex.New.UpdateSanity 9223372036854775807).Sanity = 0 ∧
      (PrefrontalCortex.New.run [.updateSanity 500, .applyStress 37, .reset, .rest 8]).Sanity
        = 82 := by
  decide

/-! ### C33, C34, C35: the entries of the arbitrated vector, position by position -/

theorem arbitrateLoop_length (rate cortisol oxytocin : ℚ) (rnd : Nat → ℚ) :
    ∀ (raw : List EmotionValue) (k : Nat),
      (arbitrateLoop rate cortisol oxytocin rnd k raw).length = raw.length := by
  intro raw
  induction raw with
  | nil => intro k; rfl
  | cons a rest ih =>
    intro k
    simp only [arbitrateLoop, List.length_cons, ih]

/-- The loop body draws exactly at an Anger entry under affiliation above 50. -/
theorem arbitrateStep_drawn (rate cortisol oxytocin r : ℚ) (e : EmotionValue) :
    (arbitrateStep rate cortisol oxytocin r e).2 =
      (e.Code == EmotionAnger && decide (oxytocin > 50)) := by
  unfold arbitrateStep
  by_cases hn : isNegativeCode e.Code = true
  · simp only [hn, if_true]
  · have ha : (e.Code == EmotionAnger) = false := by
      cases hc : (e.Code == EmotionAnger) with
      | false => rfl
      | true =>
        exfalso
        apply hn
        unfold isNegativeCode
        rw [hc]
        rfl
    by_cases hp : isPositiveCode e.Code = true
    · simp only [hn, hp, Bool.false_eq_true, if_false, if_true, ha, Bool.false_and]
    · simp only [hn, hp, Bool.false_eq_true, if_false, ha, Bool.false_and]

theorem drawsBefore_zero (raw : List EmotionValue) : drawsBefore raw 0 = 0 := by
  simp [drawsBefore]

theorem drawsBefore_succ (a : EmotionValue) (rest : List EmotionValue) (i : Nat) :
    drawsBefore (a :: rest) (i + 1) =
      (if (a.Code == EmotionAnger) = true then 1 else 0) + drawsBefore rest i := by
  unfold drawsBefore
  rw [List.take_succ_cons, List.filter_cons]
  by_cases ha : (a.Code == EmotionAnger) = true
  · simp only [ha, if_true, List.length_cons]
    omega
  · simp only [ha, Bool.false_eq_true, if_false]
    omega

/-- The entry the loop of `Arbitrate` writes at position `i` is the loop body applied
to the input entry at `i` with some draw of the stream; under affiliation above 50 it
is the draw of index `k + drawsBefore raw i`, where `k` draws were consumed before the
loop. -/
theorem arbitrateLoop_getElem? (rate cortisol oxytocin : ℚ) (rnd : Nat → ℚ) :
    ∀ (raw : List EmotionValue) (k i : Nat),
      ∃ j, (arbitrateLoop rate cortisol oxytocin rnd k raw)[i]? =
          raw[i]?.map (fun e => (arbitrateStep rate cortisol oxytocin (rnd j) e).1) ∧
        (50 < oxytocin → j = k + drawsBefore raw i) := by
  intro raw
  induction raw with
  | nil =>
    intro k i
    exact ⟨k + drawsBefore [] i, by simp [arbitrateLoop], fun _ => rfl⟩
  | cons a rest ih =>
    intro k i
    cases i with
    | zero =>
      refine ⟨k, by simp [arbitrateLoop], fun _ => ?_⟩
      rw [drawsBefore_zero]
      rfl
    | succ i =>
      obtain ⟨j, hj, hk⟩ := ih
        (if (arbitrateStep rate cortisol oxytocin (rnd k) a).2 then k + 1 else k) i
      refine ⟨j, ?_, ?_⟩
      · simp only [arbitrateLoop, List.getElem?_cons_succ]
        exact hj
      · intro ho
        rw [hk ho, drawsBefore_succ, arbitrateStep_drawn]
        have hd : decide (oxytocin > 50) = true := by
          simp only [decide_eq_true_eq]; exact ho
        rw [hd, Bool.and_true]
        by_cases ha : (a.Code == EmotionAnger) = true
        · simp only [ha, if_true]
          omega
        · simp only [ha, Bool.false_eq_true, if_false]
          omega

/-- The loop body leaves an entry that is neither of the negative nor of the positive
category as it is. -/
theorem arbitrateStep_other (rate cortisol oxytocin r : ℚ) (e : EmotionValue)
    (hn : isNegativeCode e.Code = false) (hp : isPositiveCode e.Code = false) :
    (arbitrateStep rate cortisol oxytocin r e).1 = e := by
  unfold arbitrateStep
  simp only [hn, hp, Bool.false_eq_true, if_false]

/-- C33: for every self-control value, every stress and affiliation level and every
random outcome, `Arbitrate` returns a vector of the length of its input in which every
Neutral entry and every Surprise entry of the input stands at the same position with
code and intensity unchanged. -/
theorem C33_neutral_surprise_pass (pfc : PrefrontalCortex) (raw : List EmotionValue)
    (cortisol oxytocin : ℚ) (rnd : Nat → ℚ) :
    (pfc.Arbitrate raw cortisol oxytocin rnd).length = raw.length ∧
      ∀ (i : Nat) (e : EmotionValue), raw[i]? = some e →
        (e.Code = EmotionNeutral ∨ e.Code = EmotionSurprise) →
          (pfc.Arbitrate raw cortisol oxytocin rnd)[i]? = some e := by
  unfold PrefrontalCortex.Arbitrate
  by_cases hs : pfc.Sanity < 30
  · rw [if_pos hs]
    exact ⟨rfl, fun i e he _ => he⟩
  · rw [if_neg hs]
    refine ⟨arbitrateLoop_length _ _ _ _ _ _, ?_⟩
    intro i e he hc
    obtain ⟨j, hj, _⟩ := arbitrateLoop_getElem?
      (if cortisol > 50 then (pfc.Sanity : ℚ) / 100 * (1 - (cortisol - 50) / 100)
        else (pfc.Sanity : ℚ) / 100) cortisol oxytocin rnd raw 0 i
    rw [hj, he, Option.map_some']
    congr 1
    apply arbitrateStep_other
    · rcases hc with hc | hc <;> rw [hc] <;> decide
    · rcases hc with hc | hc <;> rw [hc] <;> decide

/-- With self-control 80, stress 70, affiliation 90 and a draw of 0.1 the Anger entry
is recoded and lowered while the Neutral and Surprise entries around it pass
unchanged. -/
theorem C33_neutral_surprise_pass_witness :
    (PrefrontalCortex.New.Arbitrate
        [⟨EmotionNeutral, 40⟩, ⟨EmotionAnger, 50⟩, ⟨EmotionSurprise, 70⟩] 70 90
        (fun _ => 1 / 10))[2]? = some ⟨EmotionSurprise, 70⟩ ∧
      (PrefrontalCortex.New.Arbitrate
        [⟨EmotionNeutral, 40⟩, ⟨EmotionAnger, 50⟩, ⟨EmotionSurprise, 70⟩] 70 90
        (fun _ => 1 / 10))[0]? = some ⟨EmotionNeutral, 40⟩ :=
  ⟨(C33_neutral_surprise_pass PrefrontalCortex.New
      [⟨EmotionNeutral, 40⟩, ⟨EmotionAnger, 50⟩, ⟨EmotionSurprise, 70⟩] 70 90
      (fun _ => 1 / 10)).2 2 ⟨EmotionSurprise, 70⟩ rfl (Or.inr rfl),
    (C33_neutral_surprise_pass PrefrontalCortex.New
      [⟨EmotionNeutral, 40⟩, ⟨EmotionAnger, 50⟩, ⟨EmotionSurprise, 70⟩] 70 90
      (fun _ => 1 / 10)).2 0 ⟨EmotionNeutral, 40⟩ rfl (Or.inl rfl)⟩

/-- The two successive conditional assignments on the new intensity compute the
clamp. -/
theorem clamp_int_seq (x : Int) :
    (if (if x < 0 then 0 else x) > 100 then 100 else (if x < 0 then 0 else x)) =
      max 0 (min x 100) := by
  split_ifs <;> omega

/-- The loop body on a negative-category entry: the entry is recoded exactly when it
is Anger, affiliation exceeds 50 and the draw is below `(affiliation - 50) / 100`;
otherwise code is kept and the intensity is the suppressed, clamped value. -/
theorem arbitrateStep_negative (rate cortisol oxytocin r : ℚ) (e : EmotionValue)
    (hn : isNegativeCode e.Code = true) :
    (e.Code = EmotionAnger ∧ 50 < oxytocin ∧ r < (oxytocin - 50) / 100 →
        (arbitrateStep rate cortisol oxytocin r e).1.Code = EmotionGrief) ∧
      (¬ (e.Code = EmotionAnger ∧ 50 < oxytocin ∧ r < (oxytocin - 50) / 100) →
        (arbitrateStep rate cortisol oxytocin r e).1.Code = e.Code ∧
        (arbitrateStep rate cortisol oxytocin r e).1.Value =
          max 0 (min (truncQ
            ((e.Value : ℚ) * (if cortisol > 50 then 1 + (cortisol - 50) / 100 else 1) -
              (e.Value : ℚ) * (if cortisol > 50 then 1 + (cortisol - 50) / 100 else 1) *
                rate * (1 / 2))) 100)) := by
  have hconv : (((e.Code == EmotionAnger && decide (oxytocin > 50)) &&
      decide (r < (oxytocin - 50) / 100)) = true) ↔
      (e.Code = EmotionAnger ∧ 50 < oxytocin ∧ r < (oxytocin - 50) / 100) := by
    simp only [Bool.and_eq_true, beq_iff_eq, decide_eq_true_eq, gt_iff_lt, and_assoc]
  constructor
  · intro h
    unfold arbitrateStep
    simp only [hn, if_true, hconv.mpr h]
  · intro h
    have hc : ((e.Code == EmotionAnger && decide (oxytocin > 50)) &&
        decide (r < (oxytocin - 50) / 100)) = false := by
      cases hb : ((e.Code == EmotionAnger && decide (oxytocin > 50)) &&
          decide (r < (oxytocin - 50) / 100)) with
      | false => rfl
      | true => exact absurd (hconv.mp hb) h
    unfold arbitrateStep
    simp only [hn, if_true, hc, Bool.false_eq_true, if_false]
    refine ⟨trivial, ?_⟩
    rw [clamp_int_seq]
    by_cases hcort : cortisol > 50
    · simp only [hcort, if_true]
    · simp only [hcort, if_false, mul_one]

/-- The float64 value nearest to 250/3, about `83.33333333333333`. -/
theorem f64_250_3 : f64 (250 / 3) = 5864062014805333 / 70368744177664 :=
  (f64_eval 6 5864062014805333 (by norm_num) (by norm_num) (by norm_num)
    (by norm_num [roundHalfEven])).trans (by norm_num)

/-- At self-control 80 and the float64 stress level nearest to 250/3 the float64 formula
gives 44 for the intensity 45: the product `v*b` is rounded to 60 and the reduction to
`16.000000000000004`. -/
theorem suppressedF64_forty_five : suppressedF64 80 (f64 (250 / 3)) 45 = 44 := by
  have h1 :
      f64 ((5864062014805333 / 70368744177664) - 50 : ℚ) =
        (2345624805922133 / 70368744177664) :=
    (f64_exact 2345624805922133 (-46) (by norm_num) (by norm_num) (by norm_num)).trans
      (by norm_num)
  have h2 :
      f64 ((2345624805922133 / 70368744177664) / 100 : ℚ) =
        (1501199875790165 / 4503599627370496) :=
    (f64_eval (-2) 6004799503160660 (by norm_num) (by norm_num) (by norm_num)
      (by norm_num [roundHalfEven])).trans (by norm_num)
  have h3 :
      f64 (1 + (1501199875790165 / 4503599627370496) : ℚ) =
        (6004799503160661 / 4503599627370496) :=
    (f64_exact 6004799503160661 (-52) (by norm_num) (by norm_num) (by norm_num)).trans
      (by norm_num)
  have h4 : f64 (((45 : Int) : ℚ) : ℚ) = 45 :=
    (f64_exact 45 0 (by norm_num) (by norm_num) (by norm_num)).trans
      (by norm_num)
  have h5 : f64 (45 * (6004799503160661 / 4503599627370496) : ℚ) = 60 :=
    (f64_eval 5 8444249301319680 (by norm_num) (by norm_num) (by norm_num)
      (by norm_num [roundHalfEven])).trans (by norm_num)
  have h6 : f64 (((80 : Int) : ℚ) : ℚ) = 80 :=
    (f64_exact 5 4 (by norm_num) (by norm_num) (by norm_num)).trans
      (by norm_num)
  have h7 : f64 (80 / 100 : ℚ) = (3602879701896397 / 4503599627370496) :=
    (f64_eval (-1) 7205759403792794 (by norm_num) (by norm_num) (by norm_num)
      (by norm_num [roundHalfEven])).trans (by norm_num)
  have h8 :
      f64 (1 - (1501199875790165 / 4503599627370496) : ℚ) =
        (3002399751580331 / 4503599627370496) :=
    (f64_exact 3002399751580331 (-52) (by norm_num) (by norm_num) (by norm_num)).trans
      (by norm_num)
  have h9 :
      f64 ((3602879701896397 / 4503599627370496) * (3002399751580331 / 4503599627370496) : ℚ) =
        (2401919801264265 / 4503599627370496) :=
    (f64_eval (-1) 4803839602528530 (by norm_num) (by norm_num) (by norm_num)
      (by norm_num [roundHalfEven])).trans (by norm_num)
  have h10 :
      f64 (60 * (2401919801264265 / 4503599627370496) : ℚ) =
        (4503599627370497 / 140737488355328) :=
    (f64_eval 5 4503599627370497 (by norm_num) (by norm_num) (by norm_num)
      (by norm_num [roundHalfEven])).trans (by norm_num)
  have h11 :
      f64 ((4503599627370497 / 140737488355328) * (1 / 2) : ℚ) =
        (4503599627370497 / 281474976710656) :=
    (f64_exact 4503599627370497 (-48) (by norm_num) (by norm_num) (by norm_num)).trans
      (by norm_num)
  have h12 : f64 (60 - (4503599627370497 / 281474976710656) : ℚ) = 44 :=
    (f64_eval 5 6192449487634432 (by norm_num) (by norm_num) (by norm_num)
      (by norm_num [roundHalfEven])).trans (by norm_num)
  unfold suppressedF64 boostedF64 rateF64
  rw [f64_250_3]
  rw [if_pos (by norm_num), if_pos (by norm_num), h1, h2, h3, h4, h5, h6, h7, h8, h9, h10, h11, h12]
  norm_num [truncQ]

/-- At self-control 80 and stress 100 the float64 formula gives 60 for the intensity 50. -/
theorem suppressedF64_fifty : suppressedF64 80 100 50 = 60 := by
  have h1 : f64 (100 - 50 : ℚ) = 50 :=
    (f64_exact 25 1 (by norm_num) (by norm_num) (by norm_num)).trans
      (by norm_num)
  have h2 : f64 (50 / 100 : ℚ) = (1 / 2) :=
    (f64_exact 1 (-1) (by norm_num) (by norm_num) (by norm_num)).trans
      (by norm_num)
  have h3 : f64 (1 + (1 / 2) : ℚ) = (3 / 2) :=
    (f64_exact 3 (-1) (by norm_num) (by norm_num) (by norm_num)).trans
      (by norm_num)
  have h4 : f64 (((50 : Int) : ℚ) : ℚ) = 50 :=
    (f64_exact 25 1 (by norm_num) (by norm_num) (by norm_num)).trans
      (by norm_num)
  have h5 : f64 (50 * (3 / 2) : ℚ) = 75 :=
    (f64_exact 75 0 (by norm_num) (by norm_num) (by norm_num)).trans
      (by norm_num)
  have h6 : f64 (((80 : Int) : ℚ) : ℚ) = 80 :=
    (f64_exact 5 4 (by norm_num) (by norm_num) (by norm_num)).trans
      (by norm_num)
  have h7 : f64 (80 / 100 : ℚ) = (3602879701896397 / 4503599627370496) :=
    (f64_eval (-1) 7205759403792794 (by norm_num) (by norm_num) (by norm_num)
      (by norm_num [roundHalfEven])).trans (by norm_num)
  have h8 : f64 (1 - (1 / 2) : ℚ) = (1 / 2) :=
    (f64_exact 1 (-1) (by norm_num) (by norm_num) (by norm_num)).trans
      (by norm_num)
  have h9 :
      f64 ((3602879701896397 / 4503599627370496) * (1 / 2) : ℚ) =
        (3602879701896397 / 9007199254740992) :=
    (f64_exact 3602879701896397 (-53) (by norm_num) (by norm_num) (by norm_num)).trans
      (by norm_num)
  have h10 : f64 (75 * (3602879701896397 / 9007199254740992) : ℚ) = 30 :=
    (f64_eval 4 8444249301319680 (by norm_num) (by norm_num) (by norm_num)
      (by norm_num [roundHalfEven])).trans (by norm_num)
  have h11 : f64 (30 * (1 / 2) : ℚ) = 15 :=
    (f64_exact 15 0 (by norm_num) (by norm_num) (by norm_num)).trans
      (by norm_num)
  have h12 : f64 (75 - 15 : ℚ) = 60 :=
    (f64_exact 15 2 (by norm_num) (by norm_num) (by norm_num)).trans
      (by norm_num)
  unfold suppressedF64 boostedF64 rateF64
  rw [if_pos (by norm_num), if_pos (by norm_num), h1, h2, h3, h4, h5, h6, h7, h8, h9, h10, h11, h12]
  norm_num [truncQ]

/-- The entry the float64 loop of `Arbitrate` writes at position `i` is the loop body
applied to the input entry at `i` with some draw of the stream. -/
theorem arbitrateLoopF64_getElem? (rate cortisol oxytocin : ℚ) (rnd : Nat → ℚ) :
    ∀ (raw : List EmotionValue) (k i : Nat),
      ∃ j, (arbitrateLoopF64 rate cortisol oxytocin rnd k raw)[i]? =
          raw[i]?.map (fun e => (arbitrateStepF64 rate cortisol oxytocin (rnd j) e).1) := by
  intro raw
  induction raw with
  | nil =>
    intro k i
    exact ⟨k, by simp [arbitrateLoopF64]⟩
  | cons a rest ih =>
    intro k i
    cases i with
    | zero => exact ⟨k, by simp [arbitrateLoopF64]⟩
    | succ i =>
      obtain ⟨j, hj⟩ := ih
        (if (arbitrateStepF64 rate cortisol oxytocin (rnd k) a).2 then k + 1 else k) i
      refine ⟨j, ?_⟩
      simp only [arbitrateLoopF64, List.getElem?_cons_succ]
      exact hj

/-- The float64 loop body on a negative-category entry: the entry is recoded exactly
when it is Anger, affiliation exceeds 50 and the draw is below the float64 value of
`(affiliation - 50) / 100`; otherwise the code is kept and the intensity is the
suppressed, clamped value. -/
theorem arbitrateStepF64_negative (rate cortisol oxytocin r : ℚ) (e : EmotionValue)
    (hn : isNegativeCode e.Code = true) :
    (e.Code = EmotionAnger ∧ 50 < oxytocin ∧ r < f64 (f64 (oxytocin - 50) / 100) →
        (arbitrateStepF64 rate cortisol oxytocin r e).1.Code = EmotionGrief) ∧
      (¬ (e.Code = EmotionAnger ∧ 50 < oxytocin ∧ r < f64 (f64 (oxytocin - 50) / 100)) →
        (arbitrateStepF64 rate cortisol oxytocin r e).1.Code = e.Code ∧
        (arbitrateStepF64 rate cortisol oxytocin r e).1.Value =
          max 0 (min (truncQ (f64 (boostedF64 cortisol e.Value -
            f64 (f64 (boostedF64 cortisol e.Value * rate) * (1 / 2))))) 100)) := by
  have hconv : (((e.Code == EmotionAnger && decide (oxytocin > 50)) &&
      decide (r < f64 (f64 (oxytocin - 50) / 100))) = true) ↔
      (e.Code = EmotionAnger ∧ 50 < oxytocin ∧ r < f64 (f64 (oxytocin - 50) / 100)) := by
    simp only [Bool.and_eq_true, beq_iff_eq, decide_eq_true_eq, gt_iff_lt, and_assoc]
  constructor
  · intro h
    unfold arbitrateStepF64
    simp only [hn, if_true, hconv.mpr h]
  · intro h
    have hc : ((e.Code == EmotionAnger && decide (oxytocin > 50)) &&
        decide (r < f64 (f64 (oxytocin - 50) / 100))) = false := by
      cases hb : ((e.Code == EmotionAnger && decide (oxytocin > 50)) &&
          decide (r < f64 (f64 (oxytocin - 50) / 100))) with
      | false => rfl
      | true => exact absurd (hconv.mp hb) h
    unfold arbitrateStepF64 boostedF64
    simp only [hn, if_true, hc, Bool.false_eq_true, if_false]
    refine ⟨trivial, ?_⟩
    rw [clamp_int_seq]

/-- From self-control 30 on, `ArbitrateF64` is its loop at the float64 rate. -/
theorem ArbitrateF64_loop (pfc : PrefrontalCortex) (raw : List EmotionValue)
    (cortisol oxytocin : ℚ) (rnd : Nat → ℚ) (hs : 30 ≤ pfc.Sanity) :
    pfc.ArbitrateF64 raw cortisol oxytocin rnd =
      arbitrateLoopF64 (rateF64 pfc.Sanity cortisol) cortisol oxytocin rnd 0 raw := by
  unfold PrefrontalCortex.ArbitrateF64 rateF64
  rw [if_neg (not_lt.mpr hs)]

/-- The intensity `ArbitrateF64` writes for a negative-category entry that keeps its
code. -/
theorem ArbitrateF64_negative (pfc : PrefrontalCortex) (raw : List EmotionValue)
    (stress affiliation : ℚ) (rnd : Nat → ℚ) (hs : 30 ≤ pfc.Sanity)
    (i : Nat) (e e' : EmotionValue) (he : raw[i]? = some e)
    (he' : (pfc.ArbitrateF64 raw stress affiliation rnd)[i]? = some e')
    (hn : isNegativeCode e.Code = true) (hcode : e'.Code = e.Code) :
    e'.Value = suppressedF64 pfc.Sanity stress e.Value := by
  rw [ArbitrateF64_loop pfc raw stress affiliation rnd hs] at he'
  obtain ⟨j, hj⟩ := arbitrateLoopF64_getElem? (rateF64 pfc.Sanity stress) stress affiliation
    rnd raw 0 i
  rw [hj, he, Option.map_some'] at he'
  have heq := Option.some.inj he'
  obtain ⟨h1, h2⟩ := arbitrateStepF64_negative (rateF64 pfc.Sanity stress) stress affiliation
    (rnd j) e hn
  by_cases hconv : e.Code = EmotionAnger ∧ 50 < affiliation ∧
      rnd j < f64 (f64 (affiliation - 50) / 100)
  · exfalso
    have hg := h1 hconv
    rw [heq, hcode, hconv.1] at hg
    exact absurd hg (by decide)
  · have hv := (h2 hconv).2
    rw [heq] at hv
    rw [hv]
    rfl

/-- The vector `ArbitrateF64` returns for a single Anger entry at affiliation 0. -/
theorem ArbitrateF64_anger (pfc : PrefrontalCortex) (stress : ℚ) (v : Int) (rnd : Nat → ℚ)
    (hs : 30 ≤ pfc.Sanity) :
    pfc.ArbitrateF64 [⟨EmotionAnger, v⟩] stress 0 rnd =
      [⟨EmotionAnger, suppressedF64 pfc.Sanity stress v⟩] := by
  rw [ArbitrateF64_loop pfc _ stress 0 rnd hs]
  have hstep := (arbitrateStepF64_negative (rateF64 pfc.Sanity stress) stress 0 (rnd 0)
    ⟨EmotionAnger, v⟩ rfl).2 (fun h => absurd h.2.1 (by norm_num))
  have heta : (arbitrateStepF64 (rateF64 pfc.Sanity stress) stress 0 (rnd 0)
      ⟨EmotionAnger, v⟩).1 = ⟨EmotionAnger, suppressedF64 pfc.Sanity stress v⟩ := by
    have hc := hstep.1
    have hv := hstep.2
    generalize (arbitrateStepF64 (rateF64 pfc.Sanity stress) stress 0 (rnd 0)
      ⟨EmotionAnger, v⟩).1 = x at hc hv
    cases x
    simp only at hc hv
    rw [hc, hv]
    rfl
  simp only [arbitrateLoopF64, heta]

theorem mul_close (a a' b b' da db A B : ℚ) (ha : |a - a'| ≤ da) (hb : |b - b'| ≤ db)
    (hA : |a| ≤ A) (hB : |b'| ≤ B) : |a * b - a' * b'| ≤ A * db + da * B := by
  have e : a * b - a' * b' = a * (b - b') + (a - a') * b' := by ring
  rw [e]
  refine le_trans (abs_add _ _) ?_
  rw [abs_mul, abs_mul]
  have h1 : |a| * |b - b'| ≤ A * db :=
    mul_le_mul hA hb (abs_nonneg _) (le_trans (abs_nonneg _) hA)
  have h2 : |a - a'| * |b'| ≤ da * B :=
    mul_le_mul ha hB (abs_nonneg _) (le_trans (abs_nonneg _) ha)
  linarith

theorem clamp_close {a b : Int} (h : |a - b| ≤ 1) :
    |max 0 (min a 100) - max 0 (min b 100)| ≤ 1 := by
  rw [abs_le] at h ⊢
  omega

/-- The float64 value of `v * b - v * b * rate * 0.5` for approximations `bt` of `b` and
`rt` of `rate`. -/
theorem suppress_stage {v b rate : ℚ} (bt rt : ℚ) (hv0 : 0 ≤ v) (hv1 : v ≤ 100) (hb0 : 0 ≤ b)
    (hb1 : b ≤ 3 / 2) (hr0 : 0 ≤ rate) (hr1 : rate ≤ 1) (hb : |bt - b| ≤ 1 / 10 ^ 12)
    (hr : |rt - rate| ≤ 1 / 10 ^ 12) :
    |f64 (f64 (v * bt) - f64 (f64 (f64 (v * bt) * rt) * (1 / 2))) -
      (v * b - v * b * rate * (1 / 2))| ≤ 1 := by
  have hva : |v| ≤ 100 := abs_le.mpr ⟨by linarith only [hv0], hv1⟩
  have hba : |b| ≤ 3 / 2 := abs_le.mpr ⟨by linarith only [hb0], hb1⟩
  have hra : |rate| ≤ 1 := abs_le.mpr ⟨by linarith only [hr0], hr1⟩
  have hc0 : 0 ≤ v * b := mul_nonneg hv0 hb0
  have hc1 : v * b ≤ 150 := by
    have := mul_le_mul hv1 hb1 hb0 (by norm_num : (0 : ℚ) ≤ 100)
    linarith only [this]
  have hca : |v * b| ≤ 150 := abs_le.mpr ⟨by linarith only [hc0], hc1⟩
  have hp0 : 0 ≤ v * b * rate := mul_nonneg hc0 hr0
  have hp1 : v * b * rate ≤ 150 := by
    have := mul_le_mul hc1 hr1 hr0 (by norm_num : (0 : ℚ) ≤ 150)
    linarith only [this]
  -- the product v * bt
  have h1 := mul_close v v bt b 0 (1 / 10 ^ 12) 100 (3 / 2) (by simp) hb hva hba
  have h1a : |v * bt| ≤ 200 := by
    rw [abs_le] at h1 hca ⊢
    constructor <;> linarith only [h1.1, h1.2, hca.1, hca.2]
  have h2 := f64_stage (le_trans h1 (by norm_num : (100 : ℚ) * (1 / 10 ^ 12) + 0 * (3 / 2)
    ≤ 1 / 10 ^ 10)) h1a
  generalize f64 (v * bt) = ct at h2 ⊢
  have h2' : |ct - v * b| ≤ 1 / 10 ^ 9 := le_trans h2 (by norm_num)
  have hcta : |ct| ≤ 151 := by
    rw [abs_le] at h2' hca ⊢
    constructor <;> linarith only [h2'.1, h2'.2, hca.1, hca.2]
  -- the product with the rate
  have h3 := mul_close ct (v * b) rt rate (1 / 10 ^ 9) (1 / 10 ^ 12) 151 1 h2' hr hcta hra
  have h3' : |ct * rt - v * b * rate| ≤ 1 / 10 ^ 8 := le_trans h3 (by norm_num)
  have h3a : |ct * rt| ≤ 200 := by
    rw [abs_le] at h3' ⊢
    constructor <;> linarith only [h3'.1, h3'.2, hp0, hp1]
  have h4 := f64_stage h3' h3a
  generalize f64 (ct * rt) = pt at h4 ⊢
  have h4' : |pt - v * b * rate| ≤ 1 / 10 ^ 7 := le_trans h4 (by norm_num)
  -- the half
  have h5 : |pt * (1 / 2) - v * b * rate * (1 / 2)| ≤ 1 / 10 ^ 7 := by
    rw [abs_le] at h4' ⊢
    constructor <;> linarith only [h4'.1, h4'.2]
  have h5a : |pt * (1 / 2)| ≤ 200 := by
    rw [abs_le] at h5 ⊢
    constructor <;> linarith only [h5.1, h5.2, hp0, hp1]
  have h6 := f64_stage h5 h5a
  generalize f64 (pt * (1 / 2)) = ht at h6 ⊢
  have h6' : |ht - v * b * rate * (1 / 2)| ≤ 1 / 10 ^ 6 := le_trans h6 (by norm_num)
  -- the difference
  have h7 : |ct - ht - (v * b - v * b * rate * (1 / 2))| ≤ 1 / 10 ^ 5 := by
    rw [abs_le] at h2' h6' ⊢
    constructor <;> linarith only [h2'.1, h2'.2, h6'.1, h6'.2]
  have h7a : |ct - ht| ≤ 200 := by
    rw [abs_le] at h7 ⊢
    constructor <;> linarith only [h7.1, h7.2, hp0, hp1, hc0, hc1]
  exact le_trans (f64_stage h7 h7a) (by norm_num)

/-- For self-control in `[30,100]`, an intensity in `[0,100]` and a stress level of at
most 100, the float64 value of the formula of C34 and its exact value differ by at
most 1. -/
theorem suppressed_close (s v : Int) (stress : ℚ) (hs0 : 30 ≤ s) (hs1 : s ≤ 100)
    (hv0 : 0 ≤ v) (hv1 : v ≤ 100) (hc : stress ≤ 100) :
    |suppressedF64 s stress v - suppressedSpec s stress v| ≤ 1 := by
  have hsq0 : (30 : ℚ) ≤ (s : ℚ) := by exact_mod_cast hs0
  have hsq1 : (s : ℚ) ≤ 100 := by exact_mod_cast hs1
  have hvq0 : (0 : ℚ) ≤ (v : ℚ) := by exact_mod_cast hv0
  have hvq1 : (v : ℚ) ≤ 100 := by exact_mod_cast hv1
  have hv : f64 (v : ℚ) = v := f64_intCast v (abs_lt.mpr ⟨by linarith, by linarith⟩)
  have hs : f64 (s : ℚ) = s := f64_intCast s (abs_lt.mpr ⟨by linarith, by linarith⟩)
  have er0 := f64_error_small (a := (s : ℚ) / 100)
    (abs_le.mpr ⟨by linarith only [hsq0], by linarith only [hsq1]⟩)
  unfold suppressedF64 suppressedSpec boostedF64 rateF64
  dsimp only
  rw [hv, hs]
  apply clamp_close
  apply truncQ_close
  generalize f64 ((s : ℚ) / 100) = r0t at er0 ⊢
  by_cases hst : stress > 50
  · simp only [if_pos hst]
    -- the quotient (stress - 50) / 100
    have e1 := f64_error_small (a := stress - 50)
      (abs_le.mpr ⟨by linarith only [hst], by linarith only [hc]⟩)
    generalize f64 (stress - 50) = x1 at e1 ⊢
    have e1' : |x1 / 100 - (stress - 50) / 100| ≤ 1 / 10 ^ 13 := by
      rw [abs_le] at e1 ⊢
      constructor <;> linarith only [e1.1, e1.2]
    have e1a : |x1 / 100| ≤ 200 := by
      rw [abs_le] at e1' ⊢
      constructor <;> linarith only [e1'.1, e1'.2, hst, hc]
    have e2 := f64_stage e1' e1a
    generalize f64 (x1 / 100) = x2 at e2 ⊢
    rw [abs_le] at e2
    -- the factors 1 + x and 1 - x
    have e3 : |1 + x2 - (1 + (stress - 50) / 100)| ≤ 2 / 10 ^ 13 := by
      rw [abs_le]
      constructor <;> linarith only [e2.1, e2.2]
    have e3a : |1 + x2| ≤ 200 := by
      rw [abs_le]
      constructor <;> linarith only [e2.1, e2.2, hst, hc]
    have e4 : |1 - x2 - (1 - (stress - 50) / 100)| ≤ 2 / 10 ^ 13 := by
      rw [abs_le]
      constructor <;> linarith only [e2.1, e2.2]
    have e4a : |1 - x2| ≤ 200 := by
      rw [abs_le]
      constructor <;> linarith only [e2.1, e2.2, hst, hc]
    have hb := f64_stage e3 e3a
    have hw := f64_stage e4 e4a
    generalize f64 (1 + x2) = bt at hb ⊢
    generalize f64 (1 - x2) = wt at hw ⊢
    -- the rate
    have hr0a : |r0t| ≤ 2 := by
      rw [abs_le] at er0 ⊢
      constructor <;> linarith only [er0.1, er0.2, hsq0, hsq1]
    have hwa : |1 - (stress - 50) / 100| ≤ 1 :=
      abs_le.mpr ⟨by linarith only [hc], by linarith only [hst]⟩
    have hrw := mul_close r0t ((s : ℚ) / 100) wt (1 - (stress - 50) / 100)
      (1 / 40000000000000) (2 / 10 ^ 13 + 1 / 40000000000000) 2 1 er0 hw hr0a hwa
    have hrate0 : 0 ≤ (s : ℚ) / 100 * (1 - (stress - 50) / 100) :=
      mul_nonneg (by linarith only [hsq0]) (by linarith only [hc])
    have hrate1 : (s : ℚ) / 100 * (1 - (stress - 50) / 100) ≤ 1 := by
      have := mul_le_mul (show (s : ℚ) / 100 ≤ 1 by linarith only [hsq1])
        (show 1 - (stress - 50) / 100 ≤ 1 by linarith only [hst]) (by linarith only [hc])
        (by norm_num : (0 : ℚ) ≤ 1)
      linarith only [this]
    have hrwa : |r0t * wt| ≤ 200 := by
      rw [abs_le] at hrw ⊢
      constructor <;> norm_num at hrw ⊢ <;> linarith only [hrw.1, hrw.2, hrate0, hrate1]
    have hr := f64_stage hrw hrwa
    generalize f64 (r0t * wt) = rt at hr ⊢
    exact suppress_stage bt rt hvq0 hvq1 (by linarith only [hst]) (by linarith only [hc]) hrate0
      hrate1 (le_trans hb (by norm_num)) (le_trans hr (by norm_num))
  · simp only [if_neg hst]
    have h := suppress_stage 1 r0t hvq0 hvq1 (by norm_num : (0 : ℚ) ≤ 1)
      (by norm_num) (show (0 : ℚ) ≤ (s : ℚ) / 100 by linarith only [hsq0])
      (by linarith only [hsq1]) (by norm_num) (le_trans er0 (by norm_num))
    rw [show f64 ((v : ℚ) * 1) = v by rw [mul_one, hv]] at h
    exact h

/-- C34 (as stated) fails: at self-control 80, affiliation 0 and the float64 stress
level nearest to 250/3 (about `83.33333333333333`, between 50 and 100), an Anger entry
of intensity 45 comes out with intensity 44, while the formula of the claim over the
exact reals gives `trunc(43.99999999999999...) = 43`: the float64 product `v*b` is
rounded up to 60. -/
theorem C34_formula_rounds :
    PrefrontalCortex.New.Sanity = 80 ∧
      (50 < f64 (250 / 3) ∧ f64 (250 / 3) ≤ 100) ∧
      PrefrontalCortex.New.ArbitrateF64 [⟨EmotionAnger, 45⟩] (f64 (250 / 3)) 0 (fun _ => 0) =
        [⟨EmotionAnger, 44⟩] ∧
      suppressedSpec 80 (f64 (250 / 3)) 45 = 43 := by
  refine ⟨rfl, ?_, ?_, ?_⟩
  · rw [f64_250_3]
    norm_num
  · rw [ArbitrateF64_anger PrefrontalCortex.New (f64 (250 / 3)) 45 (fun _ => 0) (by decide)]
    have h : suppressedF64 PrefrontalCortex.New.Sanity (f64 (250 / 3)) 45 = 44 :=
      suppressedF64_forty_five
    rw [h]
  · rw [f64_250_3]
    norm_num [suppressedSpec, truncQ]

/-- C34 (amended): for self-control `s >= 30`, a stress level of at most 100 and a
negative-category entry (Anger, Fear, Disgust, Grief) of intensity `v` in `[0,100]`
that is not recoded, `Arbitrate` writes at its position the intensity
`clamp(trunc(v*b - v*b*rate*0.5), 0, 100)` with the formula evaluated in float64
arithmetic, where, if stress exceeds 50, `b = 1 + (stress - 50)/100` and
`rate = (s/100)*(1 - (stress - 50)/100)`, and otherwise `b = 1` and `rate = s/100`.
For `s <= 100` this intensity differs from the value of the formula over the exact
reals by at most 1. -/
theorem C34_negative_suppressed (pfc : PrefrontalCortex) (raw : List EmotionValue)
    (stress affiliation : ℚ) (rnd : Nat → ℚ) (hs : 30 ≤ pfc.Sanity)
    (i : Nat) (e e' : EmotionValue) (he : raw[i]? = some e)
    (he' : (pfc.ArbitrateF64 raw stress affiliation rnd)[i]? = some e')
    (hn : isNegativeCode e.Code = true) (hcode : e'.Code = e.Code)
    (hv0 : 0 ≤ e.Value) (hv1 : e.Value ≤ 100) (hc : stress ≤ 100) :
    e'.Value = suppressedF64 pfc.Sanity stress e.Value ∧
      (pfc.Sanity ≤ 100 →
        |e'.Value - suppressedSpec pfc.Sanity stress e.Value| ≤ 1) := by
  have hval := ArbitrateF64_negative pfc raw stress affiliation rnd hs i e e' he he' hn hcode
  refine ⟨hval, fun hs1 => ?_⟩
  rw [hval]
  exact suppressed_close pfc.Sanity e.Value stress hs hs1 hv0 hv1 hc

/-- With self-control 80, stress 100 and affiliation 0 an Anger entry of intensity 50
comes out as Anger 60, above its input. -/
theorem C34_negative_suppressed_witness :
    PrefrontalCortex.New.ArbitrateF64 [⟨EmotionAnger, 50⟩] 100 0 (fun _ => 0) =
        [⟨EmotionAnger, 60⟩] ∧
      suppressedF64 PrefrontalCortex.New.Sanity 100 50 = 60 := by
  have h60 : suppressedF64 PrefrontalCortex.New.Sanity 100 50 = 60 := suppressedF64_fifty
  have hout : PrefrontalCortex.New.ArbitrateF64 [⟨EmotionAnger, 50⟩] 100 0 (fun _ => 0) =
      [⟨EmotionAnger, 60⟩] := by
    rw [ArbitrateF64_anger PrefrontalCortex.New 100 50 (fun _ => 0) (by decide), h60]
  have h := C34_negative_suppressed PrefrontalCortex.New [⟨EmotionAnger, 50⟩] 100 0
    (fun _ => 0) (by decide) 0 ⟨EmotionAnger, 50⟩ ⟨EmotionAnger, 60⟩ rfl
    (by rw [hout]; rfl) (by decide) rfl (by decide) (by decide) (by norm_num)
  exact ⟨hout, h.1.symm⟩

/-- With self-control 20 and affiliation 100, where `(affiliation - 50)/100` is 0.5
and every result of the random source is 0, `Arbitrate` returns the Anger entry
as Anger. -/
theorem C35_low_sanity_keeps_anger :
    ({ PrefrontalCortex.New with Sanity := 20 } : PrefrontalCortex).Arbitrate
        [⟨EmotionAnger, 50⟩] 0 100 (fun _ => 0) = [⟨EmotionAnger, 50⟩] ∧
      (fun _ : Nat => (0 : ℚ)) 0 < (100 - 50) / 100 ∧
      ¬ ((⟨EmotionAnger, 50⟩ : EmotionValue).Code = EmotionGrief ↔
        (fun _ : Nat => (0 : ℚ)) 0 < (100 - 50) / 100) := by
  refine ⟨?_, by norm_num, ?_⟩
  · unfold PrefrontalCortex.Arbitrate
    rw [if_pos (by decide)]
  · intro h
    have hg := h.mpr (by norm_num)
    exact absurd hg (by decide)

/-- C35: whenever affiliation is at most 50, `Arbitrate` does not depend on the random
source and returns a vector of the length of its input with the same codes; whenever
affiliation exceeds 50, every entry keeps its code or is an Anger entry that became
Grief, and an Anger entry at position `i` becomes Grief exactly when `Arbitrate`
reaches its loop (self-control at least 30) and the draw made for that entry, the one
of index `drawsBefore raw i`, is below `(affiliation - 50)/100`. -/
theorem C35_recoding (pfc : PrefrontalCortex) (raw : List EmotionValue)
    (stress affiliation : ℚ) (rnd rnd' : Nat → ℚ) :
    (affiliation ≤ 50 →
        pfc.Arbitrate raw stress affiliation rnd = pfc.Arbitrate raw stress affiliation rnd' ∧
        (pfc.Arbitrate raw stress affiliation rnd).length = raw.length ∧
        (pfc.Arbitrate raw stress affiliation rnd).map EmotionValue.Code =
          raw.map EmotionValue.Code) ∧
      (50 < affiliation →
        ∀ (i : Nat) (e e' : EmotionValue), raw[i]? = some e →
          (pfc.Arbitrate raw stress affiliation rnd)[i]? = some e' →
            (e'.Code = e.Code ∨ (e.Code = EmotionAnger ∧ e'.Code = EmotionGrief)) ∧
            (e.Code = EmotionAnger →
              (e'.Code = EmotionGrief ↔
                (30 ≤ pfc.Sanity ∧
                  rnd (drawsBefore raw i) < (affiliation - 50) / 100)))) := by
  constructor
  · intro ho
    unfold PrefrontalCortex.Arbitrate
    by_cases hs : pfc.Sanity < 30
    · simp only [hs, if_true, and_self]
    · simp only [hs, if_false]
      rw [arbitrateLoop_eq_map ho rnd, arbitrateLoop_eq_map ho rnd']
      refine ⟨rfl, by rw [List.length_map], ?_⟩
      rw [List.map_map]
      apply List.map_congr_left
      intro e _
      rcases arbitrateStep_code
        (if stress > 50 then (pfc.Sanity : ℚ) / 100 * (1 - (stress - 50) / 100)
          else (pfc.Sanity : ℚ) / 100) stress affiliation 0 e with h | h
      · exact h
      · exact absurd h.2.2 (not_lt.mpr ho)
  · intro ho i e e' he he'
    unfold PrefrontalCortex.Arbitrate at he'
    by_cases hs : pfc.Sanity < 30
    · simp only [hs, if_true] at he'
      rw [he] at he'
      have heq : e = e' := Option.some.inj he'
      subst heq
      refine ⟨Or.inl rfl, ?_⟩
      intro ha
      constructor
      · intro hg
        rw [ha] at hg
        exact absurd hg (by decide)
      · intro h
        omega
    · simp only [hs, if_false] at he'
      obtain ⟨j, hj, hk⟩ := arbitrateLoop_getElem?
        (if stress > 50 then (pfc.Sanity : ℚ) / 100 * (1 - (stress - 50) / 100)
          else (pfc.Sanity : ℚ) / 100) stress affiliation rnd raw 0 i
      have hjk : j = drawsBefore raw i := by rw [hk ho, Nat.zero_add]
      subst hjk
      rw [hj, he, Option.map_some'] at he'
      have heq := Option.some.inj he'
      constructor
      · rcases arbitrateStep_code
          (if stress > 50 then (pfc.Sanity : ℚ) / 100 * (1 - (stress - 50) / 100)
            else (pfc.Sanity : ℚ) / 100) stress affiliation (rnd (drawsBefore raw i)) e
          with h | h
        · left; rw [← heq]; exact h
        · right; rw [← heq]; exact ⟨h.1, h.2.1⟩
      · intro ha
        have hn : isNegativeCode e.Code = true := by rw [ha]; decide
        obtain ⟨h1, h2⟩ := arbitrateStep_negative
          (if stress > 50 then (pfc.Sanity : ℚ) / 100 * (1 - (stress - 50) / 100)
            else (pfc.Sanity : ℚ) / 100) stress affiliation (rnd (drawsBefore raw i)) e hn
        constructor
        · intro hg
          refine ⟨not_lt.mp hs, ?_⟩
          by_contra hr
          have hkeep := (h2 (fun hc => hr hc.2.2)).1
          rw [heq, hg, ha] at hkeep
          exact absurd hkeep (by decide)
        · intro hr
          rw [← heq]
          exact h1 ⟨ha, ho, hr.2⟩

/-- With self-control 80 and affiliation 90 (probability 0.4): of two Anger entries
the first, whose draw is 0.5, stays Anger and the second, whose draw is 0.1, becomes
Grief; with affiliation 50 the outcome is the same for every random source. -/
theorem C35_recoding_witness :
    ((PrefrontalCortex.New.Arbitrate [⟨EmotionAnger, 50⟩, ⟨EmotionAnger, 40⟩] 0 90
        (fun k => if k = 0 then 1 / 2 else 1 / 10)).map EmotionValue.Code =
      [EmotionAnger, EmotionGrief]) ∧
    ((⟨EmotionGrief, 21⟩ : EmotionValue).Code = EmotionGrief ↔
      (30 ≤ PrefrontalCortex.New.Sanity ∧
        (fun k : Nat => if k = 0 then (1 / 2 : ℚ) else 1 / 10)
          (drawsBefore [⟨EmotionAnger, 50⟩, ⟨EmotionAnger, 40⟩] 1) < (90 - 50) / 100)) ∧
    PrefrontalCortex.New.Arbitrate [⟨EmotionAnger, 50⟩] 0 50 (fun _ => 0) =
      PrefrontalCortex.New.Arbitrate [⟨EmotionAnger, 50⟩] 0 50 (fun _ => 9 / 10) := by
  have hout : PrefrontalCortex.New.Arbitrate [⟨EmotionAnger, 50⟩, ⟨EmotionAnger, 40⟩] 0 90
      (fun k => if k = 0 then 1 / 2 else 1 / 10) =
      [⟨EmotionAnger, 30⟩, ⟨EmotionGrief, 21⟩] := by
    norm_num [PrefrontalCortex.Arbitrate, PrefrontalCortex.New, arbitrateLoop, arbitrateStep,
      isNegativeCode, truncQ, EmotionAnger, EmotionFear, EmotionDisgust, EmotionGrief]
  have h := C35_recoding PrefrontalCortex.New [⟨EmotionAnger, 50⟩, ⟨EmotionAnger, 40⟩] 0 90
    (fun k => if k = 0 then 1 / 2 else 1 / 10) (fun _ => 0)
  have h2 := (h.2 (by norm_num) 1 ⟨EmotionAnger, 40⟩ ⟨EmotionGrief, 21⟩ rfl
    (by rw [hout]; rfl)).2 rfl
  have h3 := ((C35_recoding PrefrontalCortex.New [⟨EmotionAnger, 50⟩] 0 50
    (fun _ => 0) (fun _ => 9 / 10)).1 (by norm_num)).1
  exact ⟨by rw [hout]; rfl, h2, h3⟩

/-! ### C36: the night profile of the sleep hormone -/

/-- C36: `calculateNightMelatonin` does not follow the profile of its comments. Over
the night hours 22, 23, 0, ..., 5 it takes the values 80, 90, 100, 91.67, 83.33, 75,
66.67, 58.33: the maximum is at hour 0, not around 2 a.m., and the value at hour 3 is
75, not 90. Only the values 100 at hour 0 and 50 at hour 6 agree with the comments,
and `UpdateCircadianRhythm` never uses the latter, since hour 6 belongs to the day
branch, which sets 10. -/
theorem C36_night_melatonin_profile :
    calculateNightMelatonin 22 = 80 ∧ calculateNightMelatonin 23 = 90 ∧
      calculateNightMelatonin 0 = 100 ∧ calculateNightMelatonin 1 = 275 / 3 ∧
      calculateNightMelatonin 2 = 250 / 3 ∧ calculateNightMelatonin 3 = 75 ∧
      calculateNightMelatonin 4 = 200 / 3 ∧ calculateNightMelatonin 5 = 175 / 3 ∧
      calculateNightMelatonin 6 = 50 ∧
      calculateNightMelatonin 2 < calculateNightMelatonin 0 ∧
      ((Homeostasis.New 0).UpdateCircadianRhythm 3).Melatonin = 75 ∧
      ((Homeostasis.New 0).UpdateCircadianRhythm 6).Melatonin = 10 := by
  refine ⟨?_, ?_, ?_, ?_, ?_, ?_, ?_, ?_, ?_, ?_, ?_, ?_⟩ <;>
    norm_num [calculateNightMelatonin, NightTimeStart, DayTimeStart,
      Homeostasis.UpdateCircadianRhythm, Homeostasis.clamp, Homeostasis.New]

/-! ### C37: recall with reconsolidation leaves the buffer as it is -/

theorem GetRecentContext_state (h : Hippocampus) :
    h.GetRecentContext.2.STM = h.STM ∧ (h.store = none → h.GetRecentContext.2 = h) := by
  unfold Hippocampus.GetRecentContext
  cases hs : h.store with
  | none => exact ⟨rfl, fun _ => rfl⟩
  | some d =>
    dsimp only
    rcases hq : d.GetRecentMemories 10 with ⟨r, d'⟩
    cases r with
    | error e => exact ⟨rfl, fun hn => by cases hn⟩
    | ok l => exact ⟨rfl, fun hn => by cases hn⟩

/-- Every row the store returns has recall count 0. -/
theorem GetRecentMemories_recallCount (d : DB) (limit : Int) (l : List RuneMemory)
    (h : (d.GetRecentMemories limit).1 = .ok l) : ∀ m ∈ l, m.RecallCount = 0 := by
  unfold DB.GetRecentMemories at h
  dsimp only at h
  split_ifs at h with hf hl
  · cases h
    intro m hm
    obtain ⟨m0, _, rfl⟩ := List.mem_map.mp hm
    rfl
  · cases h
    intro m hm
    obtain ⟨m0, _, rfl⟩ := List.mem_map.mp (List.mem_of_mem_take hm)
    rfl

/-- Every memory of the merged view is a memory of the buffer or a long-tier row, which
carries the recall count 0. -/
theorem GetRecentContext_mem (h : Hippocampus) :
    ∀ m ∈ h.GetRecentContext.1, m ∈ h.STM ∨ m.RecallCount = 0 := by
  intro m hm
  unfold Hippocampus.GetRecentContext at hm
  dsimp only at hm
  have hm' := (recentOuter_perm _ _).subset (List.mem_of_mem_take hm)
  rcases List.mem_append.mp hm' with h1 | h2
  · exact Or.inl h1
  · right
    cases hs : h.store with
    | none =>
      rw [hs] at h2
      cases h2
    | some d =>
      rw [hs] at h2
      dsimp only at h2
      rcases hq : d.GetRecentMemories 10 with ⟨r, d'⟩
      rw [hq] at h2
      cases r with
      | error e => cases h2
      | ok l =>
        exact GetRecentMemories_recallCount d 10 l (by rw [hq]) m h2

theorem reconsolidateLoop_spec (h : Hippocampus) (clock : Nat → Int)
    (cur : List EmotionValue) :
    ∀ (l : List RuneMemory) (i : Nat),
      List.Forall₂ (fun m0 m => m.UUID = m0.UUID ∧ m.RecallCount = m0.RecallCount + 1 ∧
          m.Emotions = blendEmotions m0.Emotions cur (1 / 10))
        l (reconsolidateLoop h clock cur i l) := by
  intro l
  induction l with
  | nil => intro i; exact List.Forall₂.nil
  | cons a rest ih =>
    intro i
    simp only [reconsolidateLoop]
    refine List.Forall₂.cons ?_ (ih _)
    simp only [Hippocampus.ReconsolidateMemory, Option.getD_some]
    split_ifs <;> exact ⟨rfl, rfl, rfl⟩

theorem GetRecentContextWithReconsolidation_state (h : Hippocampus) (clock : Nat → Int)
    (cur : List EmotionValue) :
    (h.GetRecentContextWithReconsolidation clock cur).2 = h.GetRecentContext.2 := rfl

theorem recallTimes_state (h : Hippocampus) (clocks : Nat → Nat → Int)
    (currents : Nat → List EmotionValue) :
    ∀ n, (h.recallTimes clocks currents n).STM = h.STM ∧
      (h.store = none → h.recallTimes clocks currents n = h) := by
  intro n
  induction n with
  | zero => exact ⟨rfl, fun _ => rfl⟩
  | succ n ih =>
    show (((h.recallTimes clocks currents n).GetRecentContextWithReconsolidation
        (clocks n) (currents n)).2).STM = h.STM ∧
      (h.store = none → ((h.recallTimes clocks currents n).GetRecentContextWithReconsolidation
        (clocks n) (currents n)).2 = h)
    rw [GetRecentContextWithReconsolidation_state]
    constructor
    · rw [(GetRecentContext_state _).1, ih.1]
    · intro hn
      have hprev := ih.2 hn
      rw [hprev]
      exact (GetRecentContext_state h).2 hn

theorem recallMemories_STM (b : Brain) (clock : Nat → Int) (count : Int)
    (moodTendency : String) (cur : List EmotionValue) (perm : List Nat) (rnd : Nat → ℚ) :
    (b.recallMemoriesWithReconsolidation clock count moodTendency cur perm
      rnd).2.Hippocampus.STM = b.Hippocampus.STM := by
  unfold Brain.recallMemoriesWithReconsolidation
  dsimp only
  split_ifs <;> exact (GetRecentContext_state b.Hippocampus).1

theorem getCurrentEmotions_STM (b : Brain) :
    b.getCurrentEmotions.2.Hippocampus.STM = b.Hippocampus.STM := by
  unfold Brain.getCurrentEmotions
  dsimp only
  split <;> exact (GetRecentContext_state b.Hippocampus).1

/-- C37: recall with reconsolidation does not modify the short-tier buffer. After any
number `n` of successive `GetRecentContextWithReconsolidation` calls the buffer is the
one before the first call (and without store, so is the whole state); call number `n`
returns, position by position, copies of the memories of the merged view with the
blended emotions and the recall count of the viewed memory plus one, and every viewed
memory is a memory of that unchanged buffer or a long-tier row; and
`recallMemoriesWithReconsolidation` and `WanderMind` leave the buffer of the brain
unchanged as well. -/
theorem C37_recall_leaves_buffer (h : Hippocampus) (clocks : Nat → Nat → Int)
    (currents : Nat → List EmotionValue) (n : Nat) (b : Brain) (clock : Nat → Int)
    (count : Int) (moodTendency : String) (cur : List EmotionValue) (perm : List Nat)
    (rnd : Nat → ℚ) (duration : Int) :
    (h.recallTimes clocks currents n).STM = h.STM ∧
      (h.store = none → h.recallTimes clocks currents n = h) ∧
      List.Forall₂ (fun m0 m => m.UUID = m0.UUID ∧ m.RecallCount = m0.RecallCount + 1 ∧
          m.Emotions = blendEmotions m0.Emotions (currents n) (1 / 10))
        (h.recallTimes clocks currents n).GetRecentContext.1
        ((h.recallTimes clocks currents n).GetRecentContextWithReconsolidation
          (clocks n) (currents n)).1 ∧
      (∀ m0 ∈ (h.recallTimes clocks currents n).GetRecentContext.1,
        m0 ∈ h.STM ∨ m0.RecallCount = 0) ∧
      (b.recallMemoriesWithReconsolidation clock count moodTendency cur perm
        rnd).2.Hippocampus.STM = b.Hippocampus.STM ∧
      (b.WanderMind duration clock perm rnd).2.Hippocampus.STM = b.Hippocampus.STM := by
  obtain ⟨hstm, hsame⟩ := recallTimes_state h clocks currents n
  refine ⟨hstm, hsame, ?_, ?_, recallMemories_STM b clock count moodTendency cur perm rnd, ?_⟩
  · exact reconsolidateLoop_spec _ _ _ _ _
  · intro m0 hm0
    rcases GetRecentContext_mem _ m0 hm0 with h1 | h2
    · left; rw [← hstm]; exact h1
    · exact Or.inr h2
  · unfold Brain.WanderMind
    dsimp only
    rw [recallMemories_STM, getCurrentEmotions_STM]

/-- On the memory unit without store that holds the two example memories, three
recalls leave the state as it was, the view lists `m-2` before `m-1`, and the fourth
recall returns both with recall count 1 while the stored counts are still 0. -/
theorem C37_recall_leaves_buffer_witness :
    twoMemories.recallTimes (fun _ _ => 5) (fun _ => [⟨EmotionJoy, 50⟩]) 3 = twoMemories ∧
      twoMemories.GetRecentContext.1.map RuneMemory.UUID = ["m-2", "m-1"] ∧
      (twoMemories.GetRecentContextWithReconsolidation (fun _ => 5)
        [⟨EmotionJoy, 50⟩]).1.map RuneMemory.RecallCount = [1, 1] ∧
      twoMemories.STM.map RuneMemory.RecallCount = [0, 0] := by
  have h := C37_recall_leaves_buffer twoMemories (fun _ _ => 5)
    (fun _ => [⟨EmotionJoy, 50⟩]) 3
    ⟨twoMemories, BasalGanglia.New, PrefrontalCortex.New⟩ (fun _ => 5) 2 "positive"
    [⟨EmotionJoy, 50⟩] [0, 1] (fun _ => 0) 7200000000000
  have hsame := h.2.1 rfl
  have hview : twoMemories.GetRecentContext.1.map RuneMemory.UUID = ["m-2", "m-1"] := by
    decide
  refine ⟨hsame, hview, ?_, by decide⟩
  have hf := h.2.2.1
  rw [hsame] at hf
  have hcounts : twoMemories.GetRecentContext.1.map RuneMemory.RecallCount = [0, 0] := by
    decide
  generalize twoMemories.GetRecentContext.1 = view at hf hcounts
  generalize (twoMemories.GetRecentContextWithReconsolidation (fun _ => 5)
    [⟨EmotionJoy, 50⟩]).1 = out at hf
  match view, out, hf, hcounts with
  | [a, b], [a', b'], hf, hcounts =>
    simp only [List.forall₂_cons, List.forall₂_nil_left_iff, and_true] at hf
    simp only [List.map_cons, List.map_nil, List.cons.injEq, and_true] at hcounts
    simp only [List.map_cons, List.map_nil]
    rw [hf.1.2.1, hf.2.2.1, hcounts.1, hcounts.2]
    rfl
  | [a, b], [], hf, _ => cases hf
  | [a, b], [_], hf, _ => cases hf with | cons _ h2 => cases h2
  | [a, b], _ :: _ :: _ :: _, hf, _ =>
    cases hf with | cons _ h2 => cases h2 with | cons _ h3 => cases h3
  | [], _, _, hcounts => cases hcounts
  | [_], _, _, hcounts => simp at hcounts
  | _ :: _ :: _ :: _, _, _, hcounts => simp at hcounts

/-! ### C38: every roulette round selects one entry -/

theorem foldl_weight (l : List weightedMemory) :
    ∀ a : ℚ, l.foldl (fun acc w => acc + w.weight) a = a + poolWeight l := by
  induction l with
  | nil => intro a; simp [poolWeight]
  | cons w rest ih =>
    intro a
    rw [List.foldl_cons, ih]
    unfold poolWeight
    rw [List.map_cons, List.sum_cons, add_assoc]

theorem poolWeight_nonneg (l : List weightedMemory) (hw : ∀ w ∈ l, 0 ≤ w.weight) :
    0 ≤ poolWeight l := by
  unfold poolWeight
  apply List.sum_nonneg
  intro x hx
  obtain ⟨w, hwl, rfl⟩ := List.mem_map.mp hx
  exact hw w hwl

/-- On a non-empty pool with non-negative weights the walk selects an entry whenever
the draw does not exceed the cumulative weight reached at the end of the pool. -/
theorem rouletteWalk_some (r : ℚ) :
    ∀ (remaining : List weightedMemory) (cumulative : ℚ), remaining ≠ [] →
      (∀ w ∈ remaining, 0 ≤ w.weight) → r ≤ cumulative + poolWeight remaining →
        ∃ w others, rouletteWalk r cumulative remaining = some (w, others) := by
  intro remaining
  induction remaining with
  | nil => intro c hne; exact absurd rfl hne
  | cons w rest ih =>
    intro c _ hw hr
    unfold rouletteWalk
    dsimp only
    by_cases hle : r ≤ c + w.weight
    · exact ⟨w, rest, by rw [if_pos hle]⟩
    · rw [if_neg hle]
      have hsum : poolWeight (w :: rest) = w.weight + poolWeight rest := by
        unfold poolWeight
        rw [List.map_cons, List.sum_cons]
      have hrest : rest ≠ [] := by
        intro he
        apply hle
        rw [hsum, he] at hr
        have h0 : poolWeight ([] : List weightedMemory) = 0 := rfl
        rw [h0] at hr
        linarith
      obtain ⟨w', others, hsel⟩ := ih (c + w.weight) hrest
        (fun x hx => hw x (List.mem_cons_of_mem _ hx)) (by rw [hsum] at hr; linarith)
      exact ⟨w', w :: others, by rw [hsel]⟩

/-- A round of the roulette on a non-empty pool with non-negative weights, with a
draw of `rand.Float64()` in `[0,1)`: one entry is selected and removed. -/
theorem roulette_round (rnd : Nat → ℚ) (hrnd : ∀ k, 0 ≤ rnd k ∧ rnd k < 1) (k : Nat)
    (remaining : List weightedMemory) (hne : remaining ≠ [])
    (hw : ∀ w ∈ remaining, 0 ≤ w.weight) :
    ∃ w others, rouletteWalk (rnd k * poolWeight remaining) 0 remaining = some (w, others) ∧
      others.length + 1 = remaining.length ∧
      poolWeight others = poolWeight remaining - w.weight ∧
      ∀ x ∈ others, 0 ≤ x.weight := by
  have hp := poolWeight_nonneg remaining hw
  have hr : rnd k * poolWeight remaining ≤ 0 + poolWeight remaining := by
    rw [zero_add]
    have := mul_le_mul_of_nonneg_right (le_of_lt (hrnd k).2) hp
    linarith
  obtain ⟨w, others, hsel⟩ := rouletteWalk_some _ remaining 0 hne hw hr
  have hperm := rouletteWalk_perm _ remaining 0 w others hsel
  refine ⟨w, others, hsel, ?_, ?_, ?_⟩
  · rw [hperm.length_eq, List.length_cons]
  · have hs : poolWeight remaining = poolWeight (w :: others) := by
      unfold poolWeight
      exact (hperm.map _).sum_eq
    rw [hs]
    unfold poolWeight
    rw [List.map_cons, List.sum_cons]
    ring
  · intro x hx
    exact hw x (hperm.symm.subset (List.mem_cons_of_mem _ hx))

theorem rouletteLoop_length (rnd : Nat → ℚ) (hrnd : ∀ k, 0 ≤ rnd k ∧ rnd k < 1) :
    ∀ (fuel k : Nat) (remaining : List weightedMemory), (∀ w ∈ remaining, 0 ≤ w.weight) →
      (rouletteLoop rnd fuel k remaining (poolWeight remaining)).length =
        min fuel remaining.length := by
  intro fuel
  induction fuel with
  | zero => intro k remaining _; simp [rouletteLoop]
  | succ n ih =>
    intro k remaining hw
    unfold rouletteLoop
    by_cases hlen : remaining.length = 0
    · rw [if_pos hlen, hlen]
      simp
    · rw [if_neg hlen]
      have hne : remaining ≠ [] := fun he => hlen (by rw [he]; rfl)
      obtain ⟨w, others, hsel, hl, hsum, hw'⟩ := roulette_round rnd hrnd k remaining hne hw
      dsimp only
      rw [hsel]
      dsimp only
      rw [← hsum, List.length_cons, ih (k + 1) others hw', ← hl]
      omega

theorem uniformLoop_length (weighted : List weightedMemory) (indices : List Nat)
    (hlt : ∀ j ∈ indices, j < weighted.length) :
    ∀ (fuel i : Nat), i + fuel ≤ indices.length →
      ∃ selected, uniformLoop weighted indices fuel i = some selected ∧
        selected.length = fuel := by
  intro fuel
  induction fuel with
  | zero => intro i _; exact ⟨[], rfl, rfl⟩
  | succ n ih =>
    intro i hi
    have hi' : i < indices.length := by omega
    have hj : indices[i]? = some indices[i] := List.getElem?_eq_getElem hi'
    have hjlt : indices[i] < weighted.length := hlt _ (List.getElem_mem hi')
    have hw : weighted[indices[i]]? = some weighted[indices[i]] :=
      List.getElem?_eq_getElem hjlt
    obtain ⟨rest, hrest, hlen⟩ := ih (i + 1) (by omega)
    refine ⟨weighted[indices[i]].memory :: rest, ?_, by rw [List.length_cons, hlen]⟩
    unfold uniformLoop
    rw [hj]
    dsimp only
    rw [hw]
    dsimp only
    rw [hrest]

/-- C38: for every non-empty pool with non-negative weights, every count at least 0,
every permutation returned by `rand.Perm` and every sequence of `rand.Float64()`
results in `[0,1)` (so that each draw `r` lies in `[0, total)`, or is 0 when the total
is 0; exact arithmetic), `weightedRandomSelection` returns exactly `min(count, pool
size)` memories, and every roulette round on a non-empty remaining pool selects and
removes exactly one entry. -/
theorem C38_selection_count (weighted : List weightedMemory) (count : Int)
    (perm : List Nat) (rnd : Nat → ℚ)
    (hne : weighted ≠ []) (hw : ∀ w ∈ weighted, 0 ≤ w.weight) (hcount : 0 ≤ count)
    (hperm : perm.Perm (List.range weighted.length))
    (hrnd : ∀ k, 0 ≤ rnd k ∧ rnd k < 1) :
    (∃ selected, weightedRandomSelection weighted count perm rnd = some selected ∧
        (selected.length : Int) = min count (weighted.length : Int)) ∧
      ∀ (k : Nat) (remaining : List weightedMemory), remaining ≠ [] →
        (∀ w ∈ remaining, 0 ≤ w.weight) →
          ∃ w others,
            rouletteWalk (rnd k * poolWeight remaining) 0 remaining = some (w, others) ∧
              others.length + 1 = remaining.length := by
  constructor
  · have hlen : weighted.length ≠ 0 := fun h0 => hne (List.length_eq_zero.mp h0)
    unfold weightedRandomSelection
    rw [if_neg hlen]
    dsimp only
    rw [foldl_weight, zero_add]
    have hc0 : ¬ (if count > (weighted.length : Int) then (weighted.length : Int) else count) < 0 := by
      split_ifs <;> omega
    have hcn : ((if count > (weighted.length : Int) then (weighted.length : Int)
        else count).toNat : Int) = min count (weighted.length : Int) := by
      split_ifs <;> omega
    have hcl : (if count > (weighted.length : Int) then (weighted.length : Int)
        else count).toNat ≤ weighted.length := by
      split_ifs <;> omega
    by_cases htot : poolWeight weighted ≤ 0
    · rw [if_pos htot, if_neg hc0]
      have hlt : ∀ j ∈ perm, j < weighted.length := by
        intro j hj
        exact List.mem_range.mp (hperm.subset hj)
      have hpl : perm.length = weighted.length := by
        rw [hperm.length_eq, List.length_range]
      obtain ⟨selected, hsel, hl⟩ := uniformLoop_length weighted perm hlt
        (if count > (weighted.length : Int) then (weighted.length : Int) else count).toNat 0
        (by rw [hpl]; omega)
      refine ⟨selected, hsel, ?_⟩
      rw [hl]
      exact hcn
    · rw [if_neg htot, if_neg hc0]
      refine ⟨_, rfl, ?_⟩
      rw [rouletteLoop_length rnd hrnd _ 0 weighted hw, Nat.min_eq_left hcl]
      exact hcn
  · intro k remaining hne' hw'
    obtain ⟨w, others, hsel, hl, _, _⟩ := roulette_round rnd hrnd k remaining hne' hw'
    exact ⟨w, others, hsel, hl⟩

/-- A pool of two memories with the weights 0 and 0.5. -/
theorem C38_selection_count_witness :
    (∃ selected,
        weightedRandomSelection [⟨importantMemory, 0⟩, ⟨trivialMemory, 1 / 2⟩] 5 [0, 1]
          (fun _ => 9 / 10) = some selected ∧
        (selected.length : Int) = min 5 2) ∧
      ∃ w others,
        rouletteWalk ((fun _ : Nat => (9 / 10 : ℚ)) 1 * poolWeight [⟨importantMemory, 0⟩]) 0
          [⟨importantMemory, 0⟩] = some (w, others) ∧ others.length + 1 = 1 := by
  have hw : ∀ w ∈ ([⟨importantMemory, 0⟩, ⟨trivialMemory, 1 / 2⟩] : List weightedMemory),
      0 ≤ w.weight := by
    intro w hw
    simp only [List.mem_cons, List.mem_singleton, List.not_mem_nil, or_false] at hw
    rcases hw with rfl | rfl <;> norm_num
  have h := C38_selection_count [⟨importantMemory, 0⟩, ⟨trivialMemory, 1 / 2⟩] 5 [0, 1]
    (fun _ => 9 / 10) (by simp) hw (by norm_num) (List.Perm.refl _)
    (fun _ => by norm_num)
  refine ⟨h.1, ?_⟩
  have h1 := h.2 1 [⟨importantMemory, 0⟩] (by simp) (by
    intro w hw1
    simp only [List.mem_singleton] at hw1
    rw [hw1])
  exact h1

/-! ### C40: mood stability on intensities in range -/

theorem sum_cast_values (l : List EmotionValue) :
    (((l.map EmotionValue.Value).sum : Int) : ℚ) = (l.map (fun e => (e.Value : ℚ))).sum := by
  induction l with
  | nil => simp
  | cons e rest ih =>
    rw [List.map_cons, List.sum_cons, List.map_cons, List.sum_cons, ← ih]
    push_cast
    rfl

theorem sum_sq_expand (l : List EmotionValue) (mean : ℚ) :
    (l.map (fun e => ((e.Value : ℚ) - mean) ^ 2)).sum =
      (l.map (fun e => (e.Value : ℚ) ^ 2)).sum -
        2 * mean * (l.map (fun e => (e.Value : ℚ))).sum + (l.length : ℚ) * mean ^ 2 := by
  induction l with
  | nil => simp
  | cons e rest ih =>
    simp only [List.map_cons, List.sum_cons, List.length_cons]
    rw [ih]
    push_cast
    ring

theorem sum_sq_le (l : List EmotionValue) (hr : InRange l) :
    (l.map (fun e => (e.Value : ℚ) ^ 2)).sum ≤
      100 * (l.map (fun e => (e.Value : ℚ))).sum := by
  induction l with
  | nil => simp
  | cons e rest ih =>
    simp only [List.map_cons, List.sum_cons]
    have he := hr e (List.mem_cons_self _ _)
    have h0 : (0 : ℚ) ≤ (e.Value : ℚ) := by exact_mod_cast he.1
    have h1 : (e.Value : ℚ) ≤ 100 := by exact_mod_cast he.2
    have hrest := ih (fun x hx => hr x (List.mem_cons_of_mem _ hx))
    nlinarith [mul_nonneg h0 (sub_nonneg.mpr h1)]

theorem sum_sq_nonneg (l : List EmotionValue) (mean : ℚ) :
    0 ≤ (l.map (fun e => ((e.Value : ℚ) - mean) ^ 2)).sum := by
  apply List.sum_nonneg
  intro x hx
  obtain ⟨e, _, rfl⟩ := List.mem_map.mp hx
  exact sq_nonneg _

/-- The population variance of intensities in `[0,100]` is at most 2500. -/
theorem popVariance_le (l : List EmotionValue) (hne : l ≠ []) (hr : InRange l) :
    0 ≤ popVariance l ∧ popVariance l ≤ 2500 := by
  have hlen : (0 : ℚ) < (l.length : ℚ) := by
    have : 0 < l.length := List.length_pos.mpr hne
    exact_mod_cast this
  unfold popVariance
  dsimp only
  constructor
  · exact div_nonneg (sum_sq_nonneg _ _) hlen.le
  · rw [div_le_iff₀ hlen, sum_sq_expand, sum_cast_values]
    have hle := sum_sq_le l hr
    have hS : (l.map (fun e => (e.Value : ℚ))).sum =
        (l.length : ℚ) * ((l.map (fun e => (e.Value : ℚ))).sum / (l.length : ℚ)) := by
      field_simp
    generalize (l.map (fun e => (e.Value : ℚ))).sum / (l.length : ℚ) = mean at hS ⊢
    generalize (l.map (fun e => (e.Value : ℚ))).sum = S at hS hle ⊢
    generalize (l.map (fun e => (e.Value : ℚ) ^ 2)).sum = A at hle ⊢
    generalize (l.length : ℚ) = n at hlen hS ⊢
    subst hS
    nlinarith [mul_nonneg hlen.le (sq_nonneg (mean - 50))]

theorem popVariance_const (l : List EmotionValue) (hne : l ≠ [])
    (heq : ∀ e ∈ l, ∀ e' ∈ l, e.Value = e'.Value) : popVariance l = 0 := by
  have hlen : (l.length : ℚ) ≠ 0 := by
    have : 0 < l.length := List.length_pos.mpr hne
    exact_mod_cast this.ne'
  obtain ⟨e0, he0⟩ := List.exists_mem_of_ne_nil l hne
  have hc : ∀ e ∈ l, e.Value = e0.Value := fun e he => heq e he e0 he0
  have hsum : ∀ (l' : List EmotionValue), (∀ e ∈ l', e.Value = e0.Value) →
      (l'.map (fun e => (e.Value : ℚ))).sum = (l'.length : ℚ) * (e0.Value : ℚ) := by
    intro l'
    induction l' with
    | nil => intro _; simp
    | cons e rest ih =>
      intro h
      simp only [List.map_cons, List.sum_cons, List.length_cons]
      rw [ih (fun x hx => h x (List.mem_cons_of_mem _ hx)), h e (List.mem_cons_self _ _)]
      push_cast
      ring
  have hzero : ∀ (l' : List EmotionValue), (∀ e ∈ l', e.Value = e0.Value) →
      (l'.map (fun e => ((e.Value : ℚ) - (e0.Value : ℚ)) ^ 2)).sum = 0 := by
    intro l'
    induction l' with
    | nil => intro _; simp
    | cons e rest ih =>
      intro h
      simp only [List.map_cons, List.sum_cons]
      rw [ih (fun x hx => h x (List.mem_cons_of_mem _ hx)), h e (List.mem_cons_self _ _)]
      norm_num
  unfold popVariance
  dsimp only
  rw [sum_cast_values, hsum l hc]
  have hmean : (l.length : ℚ) * (e0.Value : ℚ) / (l.length : ℚ) = (e0.Value : ℚ) := by
    field_simp
  rw [hmean, hzero l hc]
  norm_num

theorem calculateMoodStability_eq (l : List EmotionValue) (hne : l ≠ []) :
    calculateMoodStability l = clampSpec (1 - popVariance l / 10000) 0 1 := by
  have hlen : l.length ≠ 0 := fun h0 => hne (List.length_eq_zero.mp h0)
  unfold calculateMoodStability popVariance
  rw [if_neg hlen]
  dsimp only
  rw [clamp_unit, foldl_total, foldl_variance, zero_add, zero_add]

/-- C40: for every non-empty emotion vector whose intensities all lie in `[0,100]`
the population variance is at most 2500, `calculateMoodStability` returns the
unclamped value `1 - variance/10000`, which lies in `[0.75, 1]`, and it returns
exactly 1 whenever all intensities are equal, in particular for every one-entry
vector. -/
theorem C40_mood_stability_range (emotions : List EmotionValue) (hne : emotions ≠ [])
    (hr : InRange emotions) :
    popVariance emotions ≤ 2500 ∧
      calculateMoodStability emotions = 1 - popVariance emotions / 10000 ∧
      3 / 4 ≤ calculateMoodStability emotions ∧ calculateMoodStability emotions ≤ 1 ∧
      ((∀ e ∈ emotions, ∀ e' ∈ emotions, e.Value = e'.Value) →
        calculateMoodStability emotions = 1) ∧
      (emotions.length = 1 → calculateMoodStability emotions = 1) := by
  obtain ⟨h0, h1⟩ := popVariance_le emotions hne hr
  have hval : calculateMoodStability emotions = 1 - popVariance emotions / 10000 := by
    rw [calculateMoodStability_eq emotions hne]
    unfold clampSpec
    rw [min_eq_left (by linarith), max_eq_right (by linarith)]
  have hconst : (∀ e ∈ emotions, ∀ e' ∈ emotions, e.Value = e'.Value) →
      calculateMoodStability emotions = 1 := by
    intro heq
    rw [hval, popVariance_const emotions hne heq]
    norm_num
  refine ⟨h1, hval, ?_, ?_, hconst, ?_⟩
  · rw [hval]; linarith
  · rw [hval]; linarith
  · intro hone
    apply hconst
    match emotions, hone with
    | [a], _ =>
      intro e he e' he'
      rw [List.mem_singleton.mp he, List.mem_singleton.mp he']

/-- The vector `[(Joy,100), (Fear,0)]` reaches the lower bound 0.75, and the one-entry
vector `[(Anger,37)]` gives 1. -/
theorem C40_mood_stability_range_witness :
    popVariance [⟨EmotionJoy, 100⟩, ⟨EmotionFear, 0⟩] ≤ 2500 ∧
      (3 / 4 : ℚ) ≤ calculateMoodStability [⟨EmotionJoy, 100⟩, ⟨EmotionFear, 0⟩] ∧
      calculateMoodStability [⟨EmotionAnger, 37⟩] = 1 := by
  have h := C40_mood_stability_range [⟨EmotionJoy, 100⟩, ⟨EmotionFear, 0⟩] (by decide)
    (by decide)
  have h1 := C40_mood_stability_range [⟨EmotionAnger, 37⟩] (by decide) (by decide)
  exact ⟨h.1, h.2.2.1, h1.2.2.2.2.2 rfl⟩

end MindOS
